import Mathlib

/-!
# mininja: a shallow embedding of `src/005_ninja/mininja/mininja.c`

The pointer-linked graph of the C program is embedded as two arenas: a node
pointer is an index into `Heap.node`, an edge pointer an index into
`Heap.edge`, and `NULL` is `none`.  The two injected capabilities of the
program, `stat(2)` and `system(3)`, are the fields of `Sys`, over an abstract
type `W` of states of the outside world.

`recompute_dirty` is recursive without a guard in the source; it is embedded
with a fuel argument, and `none` stands for a call that does not return.
-/

namespace Mininja

/-! ## Core data structures -/

/-- The type `timestamp_t` (an `s64`): -1 = unknown, 0 = missing, >0 = exists. -/
abbrev timestamp_t := Int

/-- The struct `node_t`; `in_edge` is `none` for a source file. -/
structure node_t where
  path : String
  mtime : timestamp_t
  dirty : Bool
  in_edge : Option Nat
  out_edges : List Nat

/-- The struct `edge_t`. -/
structure edge_t where
  command : String
  inputs : List Nat
  outputs : List Nat
  outputs_ready : Bool

/-- The memory of the program: what every node pointer and edge pointer points
to, with the next free address of each arena. -/
structure Heap where
  node : Nat → node_t
  edge : Nat → edge_t
  n_nodes : Nat
  n_edges : Nat

/-- The struct `state_t`: the path to node table and the edge list. -/
structure state_t where
  nodes : List (String × Nat)
  edges : List Nat

/-- The struct `plan_t`; a push appends at the end of a list. -/
structure plan_t where
  ready : List Nat
  pending : List Nat

/-- The outside world: `stat w path` is `some st_mtime` when `stat(2)` returns
0 and `none` otherwise; `system w cmd` is the return value of `system(3)` and
the world after the command ran. -/
structure Sys (W : Type) where
  stat : W → String → Option Int
  system : W → String → Int × W

/-- The value of a 64-bit two's complement integer holding `x`. -/
def wrap_s64 (x : Int) : Int := (x + 2 ^ 63) % 2 ^ 64 - 2 ^ 63

/-! ## Stores into the heap -/

/-- The store `n->mtime = m`. -/
def Heap.set_mtime (h : Heap) (n : Nat) (m : timestamp_t) : Heap :=
  { h with node := Function.update h.node n { h.node n with mtime := m } }

/-- The store `n->dirty = d`. -/
def Heap.set_dirty (h : Heap) (n : Nat) (d : Bool) : Heap :=
  { h with node := Function.update h.node n { h.node n with dirty := d } }

/-- The store `e->outputs_ready = b`. -/
def Heap.set_outputs_ready (h : Heap) (e : Nat) (b : Bool) : Heap :=
  { h with edge := Function.update h.edge e { h.edge e with outputs_ready := b } }

/-! ## Node operations -/

/-- The function `node_create`: a zeroed node with the path and `mtime = -1`,
at the next free address. -/
def node_create (h : Heap) (path : String) : Heap × Nat :=
  let n : node_t :=
    { path := path, mtime := -1, dirty := false, in_edge := none, out_edges := [] }
  ({ h with node := Function.update h.node h.n_nodes n, n_nodes := h.n_nodes + 1 }, h.n_nodes)

/-- What `stat(2)` and the scaling of `node_stat` give for a path: 0 when the
file is missing, `st_mtime * 1000000000` in 64 bits otherwise. -/
def stat_mtime {W : Type} (sys : Sys W) (w : W) (path : String) : timestamp_t :=
  match sys.stat w path with
  | some st_mtime => wrap_s64 (st_mtime * 1000000000)
  | none => 0

/-- The function `node_stat`: the cached mtime, filled from the filesystem when
it is unknown. -/
def node_stat {W : Type} (sys : Sys W) (w : W) (h : Heap) (n : Nat) : Heap × timestamp_t :=
  if (h.node n).mtime ≠ -1 then (h, (h.node n).mtime)
  else
    let m := stat_mtime sys w (h.node n).path
    (h.set_mtime n m, m)

/-! ## Edge operations -/

/-- The function `edge_create`: a zeroed edge with the command, at the next
free address. -/
def edge_create (h : Heap) (command : String) : Heap × Nat :=
  let e : edge_t := { command := command, inputs := [], outputs := [], outputs_ready := false }
  ({ h with edge := Function.update h.edge h.n_edges e, n_edges := h.n_edges + 1 }, h.n_edges)

/-- The function `edge_add_input`. -/
def edge_add_input (h : Heap) (e n : Nat) : Heap :=
  let e1 : edge_t := { h.edge e with inputs := (h.edge e).inputs ++ [n] }
  let h1 : Heap := { h with edge := Function.update h.edge e e1 }
  let n1 : node_t := { h1.node n with out_edges := (h1.node n).out_edges ++ [e] }
  { h1 with node := Function.update h1.node n n1 }

/-- The function `edge_add_output`. -/
def edge_add_output (h : Heap) (e n : Nat) : Heap :=
  let e1 : edge_t := { h.edge e with outputs := (h.edge e).outputs ++ [n] }
  let h1 : Heap := { h with edge := Function.update h.edge e e1 }
  let n1 : node_t := { h1.node n with in_edge := some e }
  { h1 with node := Function.update h1.node n n1 }

/-- The function `edge_all_inputs_ready`: no input has a producing edge whose
`outputs_ready` is false. -/
def edge_all_inputs_ready (h : Heap) (e : Nat) : Bool :=
  (h.edge e).inputs.all fun input =>
    match (h.node input).in_edge with
    | none => true
    | some p => (h.edge p).outputs_ready

/-! ## State operations -/

/-- The function `state_create`. -/
def state_create : state_t := { nodes := [], edges := [] }

/-- The function `state_get_node`: the node interned for the path, created on
the first lookup. -/
def state_get_node (h : Heap) (s : state_t) (path : String) : Heap × state_t × Nat :=
  match s.nodes.lookup path with
  | some existing => (h, s, existing)
  | none =>
    let r := node_create h path
    (r.1, { s with nodes := s.nodes ++ [(path, r.2)] }, r.2)

/-- The function `state_add_edge`. -/
def state_add_edge (s : state_t) (e : Nat) : state_t :=
  { s with edges := s.edges ++ [e] }

/-! ## Dirty scanning -/

/-- The first loop of `recompute_dirty` over `edge->inputs`, with the recursive
call as a parameter: the result is `none` when a call does not return,
`(false, _, _)` when a call returned false, and otherwise the heap and
`newest_input` after the loop.  The list is `edge->inputs` as it is when the
loop starts; no store of the scan writes to it. -/
def scan_inputs (call : Heap → Nat → Option (Bool × Heap)) :
    List Nat → Heap → timestamp_t → Option (Bool × Heap × timestamp_t)
  | [], h, newest_input => some (true, h, newest_input)
  | input :: rest, h, newest_input =>
    match call h input with
    | none => none
    | some (false, h1) => some (false, h1, newest_input)
    | some (true, h1) =>
      let input_mtime := (h1.node input).mtime
      scan_inputs call rest h1 (if input_mtime > newest_input then input_mtime else newest_input)

/-- The function `recompute_dirty`, with `fuel` bounding the depth of the
recursion; `none` is a call that does not return within that depth. -/
def recompute_dirty {W : Type} (sys : Sys W) (w : W) : Nat → Heap → Nat → Option (Bool × Heap)
  | 0, _, _ => none
  | fuel + 1, h, node =>
    match (h.node node).in_edge with
    | none =>
      let h1 := (node_stat sys w h node).1
      some (true, h1.set_dirty node (decide ((h1.node node).mtime = 0)))
    | some edge =>
      let r := node_stat sys w h node
      let output_mtime := r.2
      match scan_inputs (recompute_dirty sys w fuel) (r.1.edge edge).inputs r.1 0 with
      | none => none
      | some (false, h2, _) => some (false, h2)
      | some (true, h2, newest_input) =>
        let h3 := h2.set_dirty node
          (decide (output_mtime = 0) || decide (newest_input > output_mtime))
        let h4 :=
          if (h3.edge edge).inputs.any (fun i => (h3.node i).dirty) then h3.set_dirty node true
          else h3
        some (true, h4.set_outputs_ready edge (!(h4.node node).dirty))

/-! ## Build execution -/

/-- The function `plan_create`. -/
def plan_create : plan_t := { ready := [], pending := [] }

/-- The function `plan_add_edge`. -/
def plan_add_edge (h : Heap) (plan : plan_t) (edge : Nat) : Heap × plan_t :=
  let dirty := (h.edge edge).outputs.any fun o => (h.node o).dirty
  if !dirty then (h.set_outputs_ready edge true, plan)
  else if edge_all_inputs_ready h edge then (h, { plan with ready := plan.ready ++ [edge] })
  else (h, { plan with pending := plan.pending ++ [edge] })

/-- The function `plan_update_ready`: one pass over `pending`, pushing each
edge on `ready` or on the new pending list. -/
def plan_update_ready (h : Heap) (plan : plan_t) : plan_t :=
  let r := plan.pending.foldl
    (fun (acc : List Nat × List Nat) edge =>
      if edge_all_inputs_ready h edge then (acc.1 ++ [edge], acc.2)
      else (acc.1, acc.2 ++ [edge]))
    (plan.ready, [])
  { ready := r.1, pending := r.2 }

/-- What a call of `execute_edge` leaves: its return value, the heap and the
world. -/
structure exec_result (W : Type) where
  ok : Bool
  heap : Heap
  world : W

/-- The function `execute_edge`. -/
def execute_edge {W : Type} (sys : Sys W) (w : W) (h : Heap) (edge : Nat) : exec_result W :=
  let r := sys.system w (h.edge edge).command
  if r.1 ≠ 0 then ⟨false, h, r.2⟩
  else
    let h1 := h.set_outputs_ready edge true
    let h2 := (h1.edge edge).outputs.foldl
      (fun hh o => (node_stat sys r.2 (hh.set_mtime o (-1)) o).1) h1
    ⟨true, h2, r.2⟩

/-- What the execute loop of `build` leaves: whether it ran to the end (false:
it returned on a failed command), the heap, the world, the plan, and the log of
the calls of `execute_edge` in order, each with its return value. -/
structure loop_result (W : Type) where
  ok : Bool
  heap : Heap
  world : W
  plan : plan_t
  log : List (Nat × Bool)

/-- The execute loop of `build` (step 3), with `fuel` bounding the number of
iterations. -/
def execute_loop {W : Type} (sys : Sys W) : Nat → W → Heap → plan_t → Option (loop_result W)
  | 0, w, h, plan =>
    match plan.ready.getLast? with
    | none => some ⟨true, h, w, plan, []⟩
    | some _ => none
  | fuel + 1, w, h, plan =>
    match plan.ready.getLast? with
    | none => some ⟨true, h, w, plan, []⟩
    | some edge =>
      let plan1 : plan_t := { plan with ready := plan.ready.dropLast }
      let r := execute_edge sys w h edge
      if !r.ok then some ⟨false, r.heap, r.world, plan1, [(edge, false)]⟩
      else
        match execute_loop sys fuel r.world r.heap (plan_update_ready r.heap plan1) with
        | none => none
        | some out => some { out with log := (edge, true) :: out.log }

/-- The planning loop of `build` (step 2): `plan_add_edge` on every edge of the
edge list, in order. -/
def plan_edges (h : Heap) (edges : List Nat) (plan : plan_t) : Heap × plan_t :=
  edges.foldl (fun hp e => plan_add_edge hp.1 hp.2 e) (h, plan)

/-- What a call of `build` leaves: its return value, the heap, the world, and
the log of the calls of `execute_edge`. -/
structure build_result (W : Type) where
  ok : Bool
  heap : Heap
  world : W
  log : List (Nat × Bool)

/-- The function `build`; `fuel` bounds the depth of the scan and the number of
iterations of the execute loop, and `none` is a call that does not return with
this fuel. -/
def build {W : Type} (sys : Sys W) (fuel : Nat) (w : W) (h : Heap) (s : state_t)
    (target : Nat) : Option (build_result W) :=
  match recompute_dirty sys w fuel h target with
  | none => none
  | some (false, h1) => some ⟨false, h1, w, []⟩
  | some (true, h1) =>
    if !(h1.node target).dirty then some ⟨true, h1, w, []⟩
    else
      let hp := plan_edges h1 s.edges plan_create
      match execute_loop sys fuel w hp.1 hp.2 with
      | none => none
      | some out =>
        if !out.ok then some ⟨false, out.heap, out.world, out.log⟩
        else if out.plan.pending.length > 0 then some ⟨false, out.heap, out.world, out.log⟩
        else some ⟨true, out.heap, out.world, out.log⟩

/-! ## Vocabulary of the properties -/

/-- The mtime `node_stat` returns for a node: the cached value, or what the
filesystem reports when the cache holds -1. -/
def node_mtime {W : Type} (sys : Sys W) (w : W) (h : Heap) (n : Nat) : timestamp_t :=
  (node_stat sys w h n).2

/-- Node `i` is an input of the producing edge of node `n`. -/
def dep (h : Heap) (n i : Nat) : Prop :=
  ∃ e, (h.node n).in_edge = some e ∧ i ∈ (h.edge e).inputs

/-- Node `m` is reachable from node `n` through producing edges and inputs
(`n` itself included). -/
def Reach (h : Heap) (n m : Nat) : Prop := Relation.ReflTransGen (dep h) n m

/-- The numbering `rank` decreases strictly from every node to the inputs of
its producing edge. -/
def Ranked (h : Heap) (rank : Nat → Nat) : Prop := ∀ n i, dep h n i → rank i < rank n

/-- The graph is acyclic: its nodes can be numbered so that every node is above
the inputs of its producing edge. -/
def Acyclic (h : Heap) : Prop := ∃ rank : Nat → Nat, Ranked h rank

/-- The heap is as the graph construction functions leave it: every mtime is
unknown, no node is dirty and no edge has `outputs_ready`. -/
def Fresh (h : Heap) : Prop :=
  (∀ n, (h.node n).mtime = -1 ∧ (h.node n).dirty = false) ∧
  ∀ e, (h.edge e).outputs_ready = false

/-- The test of `plan_add_edge`: some output of the edge is dirty. -/
def edge_dirty (h : Heap) (e : Nat) : Bool :=
  (h.edge e).outputs.any fun o => (h.node o).dirty

/-- The `newest_input` of the reference definition of the spec: it starts at
MISSING (0) and takes the maximum with the mtime of each input. -/
def spec_newest_input (h : Heap) (inputs : List Nat) : timestamp_t :=
  inputs.foldl (fun newest i => max newest (h.node i).mtime) 0

/-- The reference definition of the spec for the dirty flag of a node, read on
the mtimes and the dirty flags of the inputs in the heap `h`. -/
def spec_dirty (h : Heap) (n : Nat) : Bool :=
  match (h.node n).in_edge with
  | none => decide ((h.node n).mtime = 0)
  | some e =>
    decide ((h.node n).mtime = 0)
      || decide (spec_newest_input h (h.edge e).inputs > (h.node n).mtime)
      || (h.edge e).inputs.any fun i => (h.node i).dirty

/-- The nodes on which a call `recompute_dirty(node)` of depth at most `fuel`
completes, in the order of completion (a node visited twice is listed twice). -/
def scan_order (h : Heap) : Nat → Nat → List Nat
  | 0, _ => []
  | fuel + 1, node =>
    match (h.node node).in_edge with
    | none => [node]
    | some e => (h.edge e).inputs.flatMap (scan_order h fuel) ++ [node]

/-- The last node of `order` whose producing edge is `e`. -/
def last_scanned (h : Heap) (order : List Nat) (e : Nat) : Option Nat :=
  order.reverse.find? fun m => decide ((h.node m).in_edge = some e)

/-- The two heaps hold the same graph: they agree on everything but the mtime
and dirty fields of the nodes and the `outputs_ready` field of the edges. -/
structure SameGraph (h h' : Heap) : Prop where
  path : ∀ n, (h'.node n).path = (h.node n).path
  in_edge : ∀ n, (h'.node n).in_edge = (h.node n).in_edge
  out_edges : ∀ n, (h'.node n).out_edges = (h.node n).out_edges
  command : ∀ e, (h'.edge e).command = (h.edge e).command
  inputs : ∀ e, (h'.edge e).inputs = (h.edge e).inputs
  outputs : ∀ e, (h'.edge e).outputs = (h.edge e).outputs

/-- Every node of `S` has a known mtime and a dirty flag that satisfies the
reference definition, and `S` holds the inputs of the producing edges of its
nodes. -/
def Good (h : Heap) (S : Nat → Prop) : Prop :=
  ∀ n, S n → (h.node n).mtime ≠ -1 ∧ (h.node n).dirty = spec_dirty h n ∧ ∀ i, dep h n i → S i

/-- What a scan that starts in `h` and visits the nodes of `R`, completing on
them in the order `order`, leaves in `h'`, when the nodes of `S` were scanned
before it. -/
structure ScanPost {W : Type} (sys : Sys W) (w : W) (h h' : Heap) (S R : Nat → Prop)
    (order : List Nat) : Prop where
  same : SameGraph h h'
  keep : ∀ m, S m → h'.node m = h.node m
  good : Good h' (fun m => S m ∨ R m)
  frame : ∀ m, ¬ R m → h'.node m = h.node m
  mtime : ∀ m, (h'.node m).mtime = node_mtime sys w h m ∨ (h'.node m).mtime = (h.node m).mtime
  ready : ∀ e, (h'.edge e).outputs_ready =
    match last_scanned h order e with
    | some m => !(h'.node m).dirty
    | none => (h.edge e).outputs_ready

/-! ## A small graph: `out.o: in.c | cc -c in.c -o out.o` -/

/-- The heap that `edge_create`, `state_get_node`, `edge_add_output` and
`edge_add_input` leave for the line `out.o: in.c | cc -c in.c -o out.o`: node 0
is `out.o`, node 1 is `in.c`, edge 0 is the command. -/
def cc_heap : Heap where
  node := fun n =>
    match n with
    | 0 => { path := "out.o", mtime := -1, dirty := false, in_edge := some 0, out_edges := [] }
    | 1 => { path := "in.c", mtime := -1, dirty := false, in_edge := none, out_edges := [0] }
    | _ => { path := "", mtime := -1, dirty := false, in_edge := none, out_edges := [] }
  edge := fun e =>
    match e with
    | 0 => { command := "cc -c in.c -o out.o", inputs := [1], outputs := [0],
             outputs_ready := false }
    | _ => { command := "", inputs := [], outputs := [], outputs_ready := false }
  n_nodes := 2
  n_edges := 1

/-- The state of the same line. -/
def cc_state : state_t := { nodes := [("out.o", 0), ("in.c", 1)], edges := [0] }

/-- The numbering of the nodes of `cc_heap`: the output above its input. -/
def cc_rank (n : Nat) : Nat := if n = 0 then 1 else 0

/-- A world that is the list of the files with their `st_mtime`. -/
abbrev Files := List (String × Int)

/-- A system over `Files` in which every command succeeds and changes nothing. -/
def files_sys : Sys Files where
  stat := fun w p => w.lookup p
  system := fun w _ => (0, w)

/-- A system over `Files` in which every command fails and changes nothing. -/
def fail_sys : Sys Files where
  stat := fun w p => w.lookup p
  system := fun w _ => (1, w)

/-- The heap before any call of the graph functions. -/
def heap_empty : Heap where
  node := fun _ => { path := "", mtime := -1, dirty := false, in_edge := none, out_edges := [] }
  edge := fun _ => { command := "", inputs := [], outputs := [], outputs_ready := false }
  n_nodes := 0
  n_edges := 0

/-- A graph with an edge of two outputs, built with the graph functions: the
edge `gen` (edge 0) reads `src` (node 2) and writes `o1` (node 0) and `o2`
(node 1); the edge `link` (edge 1) reads `o1` and `o2` and writes `tgt`
(node 3).  The edge list is `[gen, link]`. -/
def two_out_graph : Heap × state_t :=
  let s := state_create
  let h := heap_empty
  let (h, gen) := edge_create h "gen"
  let (h, s, o1) := state_get_node h s "o1"
  let h := edge_add_output h gen o1
  let (h, s, o2) := state_get_node h s "o2"
  let h := edge_add_output h gen o2
  let (h, s, src) := state_get_node h s "src"
  let h := edge_add_input h gen src
  let s := state_add_edge s gen
  let (h, link) := edge_create h "link"
  let (h, s, tgt) := state_get_node h s "tgt"
  let h := edge_add_output h link tgt
  let (h, s, o1) := state_get_node h s "o1"
  let h := edge_add_input h link o1
  let (h, s, o2) := state_get_node h s "o2"
  let h := edge_add_input h link o2
  let s := state_add_edge s link
  (h, s)

/-- The heap that the graph functions leave for the two lines
`a: b | touch a` and `b: a | touch b`: node 0 is `a`, node 1 is `b`, edge 0
makes `a` from `b` and edge 1 makes `b` from `a`. -/
def cycle_heap : Heap where
  node := fun n =>
    match n with
    | 0 => { path := "a", mtime := -1, dirty := false, in_edge := some 0, out_edges := [1] }
    | 1 => { path := "b", mtime := -1, dirty := false, in_edge := some 1, out_edges := [0] }
    | _ => { path := "", mtime := -1, dirty := false, in_edge := none, out_edges := [] }
  edge := fun e =>
    match e with
    | 0 => { command := "touch a", inputs := [1], outputs := [0], outputs_ready := false }
    | 1 => { command := "touch b", inputs := [0], outputs := [1], outputs_ready := false }
    | _ => { command := "", inputs := [], outputs := [], outputs_ready := false }
  n_nodes := 2
  n_edges := 2

/-- The state of the same two lines; the target of `main` is `b`, node 1. -/
def cycle_state : state_t := { nodes := [("a", 0), ("b", 1)], edges := [0, 1] }

/-- What the execute loop leaves when it is started on `cc_heap` with edge 0
in `ready`, in a world where `in.c` is the only file and commands succeed. -/
def cc_loop_out : loop_result Files :=
  { ok := true
    heap := (execute_edge files_sys [("in.c", 3)] cc_heap 0).heap
    world := [("in.c", 3)]
    plan := { ready := [], pending := [] }
    log := [(0, true)] }

/-- What the planning loop of `build` over the edges `es`, started in the heap
`h` with the plan `plan`, leaves in `h'` and `plan'`. -/
structure PlanPost (h : Heap) (es : List Nat) (plan : plan_t) (h' : Heap) (plan' : plan_t) :
    Prop where
  node : h'.node = h.node
  same : SameGraph h h'
  flag : ∀ e, (h'.edge e).outputs_ready =
    ((h.edge e).outputs_ready || (decide (e ∈ es) && !edge_dirty h e))
  perm : (plan'.ready ++ plan'.pending).Perm
    (plan.ready ++ plan.pending ++ es.filter (fun e => edge_dirty h e))
  ready_sub : ∃ A, plan'.ready = plan.ready ++ A ∧ A.Sublist es
  pending_sub : ∃ B, plan'.pending = plan.pending ++ B ∧ B.Sublist es
  ready_mem : ∀ e, e ∈ es → edge_dirty h e = true → edge_all_inputs_ready h e = true →
    e ∈ plan'.ready
  ready_ok : ∀ e, e ∈ plan'.ready → e ∈ plan.ready ∨ edge_all_inputs_ready h' e = true

/-- What the execute loop started in the world `w`, the heap `h` and the plan
`plan` leaves in `out`. -/
structure LoopPost {W : Type} (w : W) (h : Heap) (plan : plan_t) (out : loop_result W) :
    Prop where
  same : SameGraph h out.heap
  dirty : ∀ n, (out.heap.node n).dirty = (h.node n).dirty
  mono : ∀ k, (h.edge k).outputs_ready = true → (out.heap.edge k).outputs_ready = true
  perm : (out.log.map Prod.fst ++ out.plan.ready ++ out.plan.pending).Perm
    (plan.ready ++ plan.pending)
  ready_nil : out.ok = true → out.plan.ready = []
  done : out.ok = true → ∀ e ∈ out.log.map Prod.fst, (out.heap.edge e).outputs_ready = true
  stuck : out.ok = true →
    (out.log = [] ∧ out.heap = h ∧ out.plan = plan ∧ out.world = w) ∨
    (out.log ≠ [] ∧ ∀ e ∈ out.plan.pending, edge_all_inputs_ready out.heap e = false)

/-- The graph is as `edge_add_output` leaves it: the producing edge of a node
lists the node in its outputs, and a node listed in the outputs of an edge has
a producing edge. -/
def Built (h : Heap) : Prop :=
  (∀ n e, (h.node n).in_edge = some e → n ∈ (h.edge e).outputs) ∧
  ∀ e n, n ∈ (h.edge e).outputs → (h.node n).in_edge ≠ none

/-- The edge list holds each edge once: it has no duplicate, and the producing
edge of every node is in it. -/
def Listed (h : Heap) (s : state_t) : Prop :=
  s.edges.Nodup ∧ ∀ n e, (h.node n).in_edge = some e → e ∈ s.edges

/-- The rank of an edge: above the rank of each of its inputs. -/
def edge_rank (h : Heap) (rank : Nat → Nat) (e : Nat) : Nat :=
  (h.edge e).inputs.foldl (fun a i => max a (rank i + 1)) 0

/-- The node has a known mtime and the dirty flag of a scanned leaf: dirty iff
its mtime is 0. -/
def Settled (h : Heap) (n : Nat) : Prop :=
  (h.node n).mtime ≠ -1 ∧ (h.node n).dirty = decide ((h.node n).mtime = 0)

/-- What a call of `recompute_dirty` that returns leaves in `h'`, on any graph,
when it could only visit the nodes of `R`. -/
structure CallPost {W : Type} (sys : Sys W) (w : W) (h h' : Heap) (R : Nat → Prop) : Prop where
  same : SameGraph h h'
  mtime : ∀ m, node_mtime sys w h' m = node_mtime sys w h m
  frame : ∀ m, ¬ R m → h'.node m = h.node m
  leaf : ∀ n, (h.node n).in_edge = none → Settled h n → Settled h' n

/-- The edge `e` lies on a dependency path from the leaf `L` to the target: an
output of `e` is reachable from the target and has `L` among its transitive
inputs. -/
def OnPath (h : Heap) (target L e : Nat) : Prop :=
  ∃ n, n ∈ (h.edge e).outputs ∧ Reach h target n ∧ Relation.TransGen (dep h) n L

/-- Every output of an edge has that edge as its producing edge (the invariant
of the data model of the spec). -/
def OneProducer (h : Heap) : Prop :=
  ∀ e n, n ∈ (h.edge e).outputs → (h.node n).in_edge = some e

/-- Every edge has at most one output. -/
def SingleOutput (h : Heap) : Prop :=
  ∀ e n m, n ∈ (h.edge e).outputs → m ∈ (h.edge e).outputs → n = m

/-- One call of a graph function by a client such as `parse_build_file`.  Node
and edge arguments are the addresses the call passes. -/
inductive api_call where
  | state_get_node (path : String)
  | edge_create (command : String)
  | edge_add_input (e n : Nat)
  | edge_add_output (e n : Nat)
  | state_add_edge (e : Nat)

/-- The effect of one call on the heap and the state.  A call that passes an
edge that `edge_create` has not returned, or a node that `state_get_node` has
not returned, has no result. -/
def api_step (hs : Heap × state_t) : api_call → Option (Heap × state_t)
  | .state_get_node path =>
    let r := state_get_node hs.1 hs.2 path
    some (r.1, r.2.1)
  | .edge_create command => some ((edge_create hs.1 command).1, hs.2)
  | .edge_add_input e n =>
    if e < hs.1.n_edges ∧ n < hs.1.n_nodes then some (edge_add_input hs.1 e n, hs.2) else none
  | .edge_add_output e n =>
    if e < hs.1.n_edges ∧ n < hs.1.n_nodes then some (edge_add_output hs.1 e n, hs.2) else none
  | .state_add_edge e =>
    if e < hs.1.n_edges then some (hs.1, state_add_edge hs.2 e) else none

/-- The effect of a sequence of calls, first call first. -/
def api_run : List api_call → Heap × state_t → Option (Heap × state_t)
  | [], hs => some hs
  | c :: cs, hs => (api_step hs c).bind (api_run cs)

/-- Every node in the inputs of an edge has that edge among its consuming
edges. -/
def Linked (h : Heap) : Prop :=
  ∀ e n, n ∈ (h.edge e).inputs → e ∈ (h.node n).out_edges

/-- The two-way invariant of the data model: every node in the outputs of an
edge has that edge as producing edge, and every node in the inputs of an edge
has that edge among its consuming edges. -/
def Bidirectional (h : Heap) : Prop := OneProducer h ∧ Linked h

/-- No node is in the outputs of two edges. -/
def UniqueOutput (h : Heap) : Prop :=
  ∀ n e e', n ∈ (h.edge e).outputs → n ∈ (h.edge e').outputs → e = e'

/-- What every sequence of calls of the graph functions keeps. -/
structure ApiInv (h : Heap) : Prop where
  linked : Linked h
  built : Built h
  fresh : Fresh h
  in_edge_lt : ∀ n e, (h.node n).in_edge = some e → e < h.n_edges
  inputs_lt : ∀ e n, n ∈ (h.edge e).inputs → n < h.n_nodes
  outputs_lt : ∀ e n, n ∈ (h.edge e).outputs → n < h.n_nodes
  unused : ∀ e, h.n_edges ≤ e → (h.edge e).inputs = [] ∧ (h.edge e).outputs = []

/-- The calls for two lines that name the same output, `x: | one` and
`x: | two`: edge 0, edge 1 and node 0 are created and node 0 is added to the
outputs of both edges. -/
def dup_calls : List api_call :=
  [.edge_create "one", .state_get_node "x", .edge_add_output 0 0, .state_add_edge 0,
   .edge_create "two", .state_get_node "x", .edge_add_output 1 0, .state_add_edge 1]

/-- The calls for the line `out.o: in.c | cc -c in.c -o out.o`. -/
def cc_calls : List api_call :=
  [.edge_create "cc -c in.c -o out.o", .state_get_node "out.o", .edge_add_output 0 0,
   .state_get_node "in.c", .edge_add_input 0 1, .state_add_edge 0]

/-- The heap and the state that the calls `cc_calls` leave. -/
def cc_api : Heap × state_t :=
  (api_run cc_calls (heap_empty, state_create)).getD (heap_empty, state_create)

/-! ## A graph with an edge without inputs: `gen.h: | gen` -/

/-- The heap that the graph functions leave for the line `gen.h: | gen`: node 0
is `gen.h`, edge 0 is the command, and the edge has no input. -/
def gen_heap : Heap where
  node := fun n =>
    match n with
    | 0 => { path := "gen.h", mtime := -1, dirty := false, in_edge := some 0, out_edges := [] }
    | _ => { path := "", mtime := -1, dirty := false, in_edge := none, out_edges := [] }
  edge := fun e =>
    match e with
    | 0 => { command := "gen", inputs := [], outputs := [0], outputs_ready := false }
    | _ => { command := "", inputs := [], outputs := [], outputs_ready := false }
  n_nodes := 1
  n_edges := 1

/-- The state of the same line. -/
def gen_state : state_t := { nodes := [("gen.h", 0)], edges := [0] }

/-! ## An edge list that holds an edge twice -/

/-- A graph built with the graph functions in which `state_add_edge` is called
twice for the edge `e` (edge 0), which reads `i` (node 1) and writes `o`
(node 0); the edge `p` (edge 1) writes `i`, and the edge `e2` (edge 2) also
writes `o`.  The edge list is `[e, p, e, e2]`. -/
def twice_graph : Heap × state_t :=
  let s := state_create
  let h := heap_empty
  let (h, e) := edge_create h "e"
  let (h, s, o) := state_get_node h s "o"
  let h := edge_add_output h e o
  let (h, s, i) := state_get_node h s "i"
  let h := edge_add_input h e i
  let s := state_add_edge s e
  let (h, p) := edge_create h "p"
  let (h, s, i) := state_get_node h s "i"
  let h := edge_add_output h p i
  let s := state_add_edge s p
  let s := state_add_edge s e
  let (h, e2) := edge_create h "e2"
  let (h, s, o) := state_get_node h s "o"
  let h := edge_add_output h e2 o
  let s := state_add_edge s e2
  (h, s)

/-! ## A graph with two ready edges and two pending edges -/

/-- The graph that the graph functions build for the four lines `a: x | A`,
`b: y | B`, `c: b | C` and `t: a c | T`: the nodes are `a` (0), `x` (1),
`b` (2), `y` (3), `c` (4) and `t` (5), the edges are `A` (0), `B` (1), `C` (2)
and `T` (3), and the edge list is `[A, B, C, T]`. -/
def lifo_graph : Heap × state_t :=
  let s := state_create
  let h := heap_empty
  let (h, ea) := edge_create h "A"
  let (h, s, a) := state_get_node h s "a"
  let h := edge_add_output h ea a
  let (h, s, x) := state_get_node h s "x"
  let h := edge_add_input h ea x
  let s := state_add_edge s ea
  let (h, eb) := edge_create h "B"
  let (h, s, b) := state_get_node h s "b"
  let h := edge_add_output h eb b
  let (h, s, y) := state_get_node h s "y"
  let h := edge_add_input h eb y
  let s := state_add_edge s eb
  let (h, ec) := edge_create h "C"
  let (h, s, c) := state_get_node h s "c"
  let h := edge_add_output h ec c
  let (h, s, b) := state_get_node h s "b"
  let h := edge_add_input h ec b
  let s := state_add_edge s ec
  let (h, et) := edge_create h "T"
  let (h, s, t) := state_get_node h s "t"
  let h := edge_add_output h et t
  let (h, s, a) := state_get_node h s "a"
  let h := edge_add_input h et a
  let (h, s, c) := state_get_node h s "c"
  let h := edge_add_input h et c
  let s := state_add_edge s et
  (h, s)

/-- A filesystem with the two sources `x` and `y` and no other file. -/
def lifo_files : Files := [("x", 1), ("y", 1)]

/-- A loop result that stands for no result. -/
def no_loop_result : loop_result Files :=
  { ok := false, heap := heap_empty, world := [], plan := plan_create, log := [] }

/-- The heap after `recompute_dirty(t)` on `lifo_graph`. -/
def lifo_scan : Heap :=
  ((recompute_dirty files_sys lifo_files 5 lifo_graph.1 5).map fun r => r.2).getD heap_empty

/-- The heap and the plan after the planning loop of `build` on `lifo_graph`:
`A` and `B` are ready, `C` and `T` are pending. -/
def lifo_plan : Heap × plan_t := plan_edges lifo_scan lifo_graph.2.edges plan_create

/-- What the execute loop leaves when it starts from `lifo_plan`. -/
def lifo_out : loop_result Files :=
  (execute_loop files_sys 5 lifo_files lifo_plan.1 ⟨[0] ++ [1], [2, 3]⟩).getD no_loop_result

/-- What the execute loop leaves when it starts with `B` alone in ready. -/
def lifo_newer : loop_result Files :=
  (execute_loop files_sys 5 lifo_files lifo_plan.1 ⟨[1], [2, 3]⟩).getD no_loop_result

/-- What the execute loop leaves when it goes on from `lifo_newer` with `A`
alone in ready. -/
def lifo_older : loop_result Files :=
  (execute_loop files_sys 5 lifo_newer.world lifo_newer.heap
    ⟨[0], lifo_newer.plan.pending⟩).getD no_loop_result

/-- What `build` leaves on `lifo_graph` with target `t`. -/
def lifo_build : build_result Files :=
  (build files_sys 5 lifo_files lifo_graph.1 lifo_graph.2 5).getD
    { ok := false, heap := heap_empty, world := [], log := [] }

/-! ## The last call that adds a node to the outputs of an edge -/

/-- The producing edge that one call leaves on node `n`, given the producing
edge `p` before the call: `edge_add_output(e, n)` leaves `e`, every other call
leaves `p`. -/
def writer_step (n : Nat) (p : Option Nat) : api_call → Option Nat
  | .edge_add_output e m => if m = n then some e else p
  | _ => p

/-- The edge of the last call `edge_add_output(e, n)` in a sequence of calls,
and `none` when the sequence has no such call. -/
def last_writer (cs : List api_call) (n : Nat) : Option Nat :=
  cs.foldl (writer_step n) none

/-- The heap and the state that the calls `dup_calls` leave. -/
def dup_api : Heap × state_t :=
  (api_run dup_calls (heap_empty, state_create)).getD (heap_empty, state_create)

/-! ## Two edges with the same output -/

/-- The calls of `parse_build_file` for the two lines `x: a | c1` and
`x: b | c2`: node 0 is `x`, node 1 is `a`, node 2 is `b`, edge 0 is `c1` and
edge 1 is `c2`.  The target of `main` is `x`. -/
def twin_calls : List api_call :=
  [.edge_create "c1", .state_get_node "x", .edge_add_output 0 0, .state_get_node "a",
   .edge_add_input 0 1, .state_add_edge 0,
   .edge_create "c2", .state_get_node "x", .edge_add_output 1 0, .state_get_node "b",
   .edge_add_input 1 2, .state_add_edge 1]

/-- The heap and the state that the calls `twin_calls` leave. -/
def twin_api : Heap × state_t :=
  (api_run twin_calls (heap_empty, state_create)).getD (heap_empty, state_create)

/-- A system over `Files` in which the command `c1` fails, every other command
succeeds, and no command changes a file. -/
def c1_fails_sys : Sys Files where
  stat := fun w p => w.lookup p
  system := fun w cmd => if cmd = "c1" then (1, w) else (0, w)

/-- The state of the line `out.o: in.c | cc -c in.c -o out.o` when
`state_add_edge` was not called for its edge. -/
def cc_unlisted : state_t := { nodes := [("out.o", 0), ("in.c", 1)], edges := [] }

/-! ## Dependency paths through the edges -/

/-- Some edge reads `i` and writes `o`. -/
def flows (h : Heap) (i o : Nat) : Prop :=
  ∃ e, i ∈ (h.edge e).inputs ∧ o ∈ (h.edge e).outputs

/-- The edge `e` lies on a dependency path from `L` to the target: it reads a
node that is `L` or is made from `L` through a chain of edges, and it writes a
node that is the target or from which the target is made through a chain of
edges. -/
def OnEdgePath (h : Heap) (target L e : Nat) : Prop :=
  ∃ i o, i ∈ (h.edge e).inputs ∧ o ∈ (h.edge e).outputs ∧
    Relation.ReflTransGen (flows h) L i ∧ Relation.ReflTransGen (flows h) o target

/-! # Properties -/

variable {W : Type}

/-! ## The heap stores -/

@[simp] theorem set_mtime_edge (h : Heap) (n : Nat) (m : timestamp_t) :
    (h.set_mtime n m).edge = h.edge := rfl

@[simp] theorem set_dirty_edge (h : Heap) (n : Nat) (d : Bool) :
    (h.set_dirty n d).edge = h.edge := rfl

@[simp] theorem set_outputs_ready_node (h : Heap) (e : Nat) (b : Bool) :
    (h.set_outputs_ready e b).node = h.node := rfl

theorem set_mtime_node_ne (h : Heap) (n k : Nat) (m : timestamp_t) (hk : k ≠ n) :
    (h.set_mtime n m).node k = h.node k := by
  simp [Heap.set_mtime, Function.update_noteq hk]

theorem set_dirty_node_ne (h : Heap) (n k : Nat) (d : Bool) (hk : k ≠ n) :
    (h.set_dirty n d).node k = h.node k := by
  simp [Heap.set_dirty, Function.update_noteq hk]

theorem set_outputs_ready_edge_ne (h : Heap) (e k : Nat) (b : Bool) (hk : k ≠ e) :
    (h.set_outputs_ready e b).edge k = h.edge k := by
  simp [Heap.set_outputs_ready, Function.update_noteq hk]

@[simp] theorem set_mtime_node_self (h : Heap) (n : Nat) (m : timestamp_t) :
    (h.set_mtime n m).node n = { h.node n with mtime := m } := by
  simp [Heap.set_mtime]

@[simp] theorem set_dirty_node_self (h : Heap) (n : Nat) (d : Bool) :
    (h.set_dirty n d).node n = { h.node n with dirty := d } := by
  simp [Heap.set_dirty]

@[simp] theorem set_outputs_ready_edge_self (h : Heap) (e : Nat) (b : Bool) :
    (h.set_outputs_ready e b).edge e = { h.edge e with outputs_ready := b } := by
  simp [Heap.set_outputs_ready]

theorem set_mtime_self_eq (h : Heap) (n : Nat) : h.set_mtime n (h.node n).mtime = h := by
  simp [Heap.set_mtime]

theorem set_dirty_self_eq (h : Heap) (n : Nat) : h.set_dirty n (h.node n).dirty = h := by
  simp [Heap.set_dirty]

/-! ## The same graph -/

theorem SameGraph.refl (h : Heap) : SameGraph h h :=
  ⟨fun _ => rfl, fun _ => rfl, fun _ => rfl, fun _ => rfl, fun _ => rfl, fun _ => rfl⟩

theorem SameGraph.comp {h1 h2 h3 : Heap} (a : SameGraph h1 h2) (b : SameGraph h2 h3) :
    SameGraph h1 h3 :=
  ⟨fun n => (b.path n).trans (a.path n), fun n => (b.in_edge n).trans (a.in_edge n),
   fun n => (b.out_edges n).trans (a.out_edges n), fun e => (b.command e).trans (a.command e),
   fun e => (b.inputs e).trans (a.inputs e), fun e => (b.outputs e).trans (a.outputs e)⟩

theorem SameGraph.symm {h1 h2 : Heap} (a : SameGraph h1 h2) : SameGraph h2 h1 :=
  ⟨fun n => (a.path n).symm, fun n => (a.in_edge n).symm, fun n => (a.out_edges n).symm,
   fun e => (a.command e).symm, fun e => (a.inputs e).symm, fun e => (a.outputs e).symm⟩

theorem sameGraph_set_mtime (h : Heap) (n : Nat) (m : timestamp_t) :
    SameGraph h (h.set_mtime n m) := by
  refine ⟨?_, ?_, ?_, fun _ => rfl, fun _ => rfl, fun _ => rfl⟩ <;>
  · intro k
    by_cases hk : k = n
    · subst hk; simp
    · rw [set_mtime_node_ne h n k m hk]

theorem sameGraph_set_dirty (h : Heap) (n : Nat) (d : Bool) :
    SameGraph h (h.set_dirty n d) := by
  refine ⟨?_, ?_, ?_, fun _ => rfl, fun _ => rfl, fun _ => rfl⟩ <;>
  · intro k
    by_cases hk : k = n
    · subst hk; simp
    · rw [set_dirty_node_ne h n k d hk]

theorem sameGraph_set_outputs_ready (h : Heap) (e : Nat) (b : Bool) :
    SameGraph h (h.set_outputs_ready e b) := by
  refine ⟨fun _ => rfl, fun _ => rfl, fun _ => rfl, ?_, ?_, ?_⟩ <;>
  · intro k
    by_cases hk : k = e
    · subst hk; simp
    · rw [set_outputs_ready_edge_ne h e k b hk]

theorem dep_congr {h h' : Heap} (a : SameGraph h h') (n i : Nat) : dep h' n i ↔ dep h n i := by
  unfold dep
  simp only [a.in_edge, a.inputs]

theorem dep_eq {h h' : Heap} (a : SameGraph h h') : dep h' = dep h := by
  funext n i
  exact propext (dep_congr a n i)

theorem reach_eq {h h' : Heap} (a : SameGraph h h') : Reach h' = Reach h := by
  unfold Reach
  rw [dep_eq a]

theorem ranked_congr {h h' : Heap} (a : SameGraph h h') {rank : Nat → Nat}
    (r : Ranked h rank) : Ranked h' rank := by
  intro n i d
  exact r n i ((dep_congr a n i).1 d)

theorem scan_order_congr {h h' : Heap} (a : SameGraph h h') (fuel node : Nat) :
    scan_order h' fuel node = scan_order h fuel node := by
  induction fuel generalizing node with
  | zero => rfl
  | succ k ih =>
    have e : scan_order h' k = scan_order h k := funext ih
    simp only [scan_order, a.in_edge, a.inputs, e]

theorem last_scanned_congr {h h' : Heap} (a : SameGraph h h') (order : List Nat) (e : Nat) :
    last_scanned h' order e = last_scanned h order e := by
  simp only [last_scanned, a.in_edge]

/-! ## The cached mtime -/

theorem wrap_s64_scaled_ne (t : Int) : wrap_s64 (t * 1000000000) ≠ -1 := by
  unfold wrap_s64
  norm_num
  omega

theorem stat_mtime_ne (sys : Sys W) (w : W) (p : String) : stat_mtime sys w p ≠ -1 := by
  unfold stat_mtime
  cases sys.stat w p with
  | none => simp
  | some t => exact wrap_s64_scaled_ne t

theorem node_mtime_eq (sys : Sys W) (w : W) (h : Heap) (n : Nat) :
    node_mtime sys w h n =
      if (h.node n).mtime ≠ -1 then (h.node n).mtime else stat_mtime sys w (h.node n).path := by
  unfold node_mtime node_stat
  split <;> rfl

theorem node_mtime_ne (sys : Sys W) (w : W) (h : Heap) (n : Nat) :
    node_mtime sys w h n ≠ -1 := by
  rw [node_mtime_eq]
  split
  · assumption
  · exact stat_mtime_ne sys w _

theorem node_mtime_known (sys : Sys W) (w : W) (h : Heap) (n : Nat)
    (hk : (h.node n).mtime ≠ -1) : node_mtime sys w h n = (h.node n).mtime := by
  rw [node_mtime_eq, if_pos hk]

theorem node_stat_eq (sys : Sys W) (w : W) (h : Heap) (n : Nat) :
    node_stat sys w h n = (h.set_mtime n (node_mtime sys w h n), node_mtime sys w h n) := by
  by_cases hk : (h.node n).mtime ≠ -1
  · rw [node_mtime_known sys w h n hk, set_mtime_self_eq]
    simp [node_stat, hk]
  · have e : node_mtime sys w h n = stat_mtime sys w (h.node n).path := by
      rw [node_mtime_eq, if_neg hk]
    rw [e]
    simp [node_stat, hk]

/-! ## The reference definition under a change of heap -/

theorem foldl_max_congr (f g : Nat → timestamp_t) :
    ∀ (l : List Nat) (acc : timestamp_t), (∀ i ∈ l, f i = g i) →
      l.foldl (fun a i => max a (f i)) acc = l.foldl (fun a i => max a (g i)) acc
  | [], _, _ => rfl
  | i :: l, acc, hfg => by
    simp only [List.foldl_cons]
    rw [hfg i (List.mem_cons_self i l)]
    exact foldl_max_congr f g l _ (fun j hj => hfg j (List.mem_cons_of_mem i hj))

theorem any_congr_mem (f g : Nat → Bool) :
    ∀ (l : List Nat), (∀ i ∈ l, f i = g i) → l.any f = l.any g
  | [], _ => rfl
  | i :: l, hfg => by
    simp only [List.any_cons]
    rw [hfg i (List.mem_cons_self i l),
      any_congr_mem f g l (fun j hj => hfg j (List.mem_cons_of_mem i hj))]

theorem spec_dirty_congr {h h' : Heap} (a : SameGraph h h') (n : Nat)
    (hm : (h'.node n).mtime = (h.node n).mtime)
    (hi : ∀ i, dep h n i → h'.node i = h.node i) : spec_dirty h' n = spec_dirty h n := by
  unfold spec_dirty
  rw [a.in_edge n, hm]
  cases hin : (h.node n).in_edge with
  | none => rfl
  | some e =>
    simp only [a.inputs e, spec_newest_input]
    have hd : ∀ i ∈ (h.edge e).inputs, h'.node i = h.node i := fun i hmem => hi i ⟨e, hin, hmem⟩
    rw [foldl_max_congr (fun i => (h'.node i).mtime) (fun i => (h.node i).mtime) _ _
        (fun i hmem => by simp only [hd i hmem]),
      any_congr_mem (fun i => (h'.node i).dirty) (fun i => (h.node i).dirty) _
        (fun i hmem => by simp only [hd i hmem])]

theorem good_congr {h : Heap} {S S' : Nat → Prop} (hs : ∀ m, S m ↔ S' m) (g : Good h S) :
    Good h S' := by
  intro n hn
  obtain ⟨a, b, c⟩ := g n ((hs n).2 hn)
  exact ⟨a, b, fun i d => (hs i).1 (c i d)⟩

theorem good_of_keep {h h' : Heap} {S : Nat → Prop} (a : SameGraph h h')
    (hk : ∀ m, S m → h'.node m = h.node m) (g : Good h S) : Good h' S := by
  intro n hn
  obtain ⟨g1, g2, g3⟩ := g n hn
  refine ⟨by rw [hk n hn]; exact g1, ?_, fun i d => g3 i ((dep_congr a n i).1 d)⟩
  rw [spec_dirty_congr a n (by rw [hk n hn]) (fun i d => hk i (g3 i d)), hk n hn]
  exact g2

theorem node_mtime_congr (sys : Sys W) (w : W) {h h' : Heap} (n : Nat)
    (hp : (h'.node n).path = (h.node n).path) (hm : (h'.node n).mtime = (h.node n).mtime) :
    node_mtime sys w h' n = node_mtime sys w h n := by
  rw [node_mtime_eq, node_mtime_eq, hp, hm]

/-! ## The order of a scan -/

theorem reach_of_dep {h : Heap} {n i m : Nat} (d : dep h n i) (r : Reach h i m) : Reach h n m :=
  Relation.ReflTransGen.head d r

theorem mem_scan_order {h : Heap} : ∀ (fuel n m : Nat), m ∈ scan_order h fuel n → Reach h n m
  | 0, _, _, hm => by simp [scan_order] at hm
  | fuel + 1, n, m, hm => by
    unfold scan_order at hm
    cases hin : (h.node n).in_edge with
    | none =>
      rw [hin] at hm
      simp only [List.mem_singleton] at hm
      subst hm
      exact Relation.ReflTransGen.refl
    | some e =>
      rw [hin] at hm
      simp only [List.mem_append, List.mem_flatMap, List.mem_singleton] at hm
      rcases hm with ⟨i, hi, hmi⟩ | hm
      · exact reach_of_dep ⟨e, hin, hi⟩ (mem_scan_order fuel i m hmi)
      · subst hm
        exact Relation.ReflTransGen.refl

theorem rank_le_of_reach {h : Heap} {rank : Nat → Nat} (r : Ranked h rank) {n m : Nat}
    (hr : Reach h n m) : rank m ≤ rank n := by
  induction hr with
  | refl => exact le_refl _
  | tail _ d ih => exact le_trans (le_of_lt (r _ _ d)) ih

theorem reach_cases {h : Heap} {n m : Nat} (hr : Reach h n m) :
    m = n ∨ ∃ i, dep h n i ∧ Reach h i m := by
  rcases Relation.ReflTransGen.cases_head hr with e | ⟨i, d, r⟩
  · exact Or.inl e.symm
  · exact Or.inr ⟨i, d, r⟩

theorem mem_of_last_scanned {h : Heap} {order : List Nat} {e m : Nat}
    (hl : last_scanned h order e = some m) : m ∈ order ∧ (h.node m).in_edge = some e := by
  unfold last_scanned at hl
  have h1 := List.mem_of_find?_eq_some hl
  have h2 := List.find?_some hl
  exact ⟨List.mem_reverse.1 h1, by simpa using h2⟩

theorem last_scanned_append (h : Heap) (o1 o2 : List Nat) (e : Nat) :
    last_scanned h (o1 ++ o2) e = (last_scanned h o2 e).or (last_scanned h o1 e) := by
  simp only [last_scanned, List.reverse_append, List.find?_append]

/-! ## What a scan leaves -/

theorem ScanPost.nil (sys : Sys W) (w : W) (h : Heap) (S : Nat → Prop) (g : Good h S) :
    ScanPost sys w h h S (fun _ => False) [] where
  same := SameGraph.refl h
  keep := fun _ _ => rfl
  good := good_congr (fun m => by simp) g
  frame := fun _ _ => rfl
  mtime := fun _ => Or.inr rfl
  ready := fun _ => rfl

theorem ScanPost.seq {sys : Sys W} {w : W} {h h1 h2 : Heap} {S R1 R2 : Nat → Prop}
    {o1 o2 : List Nat} (a : ScanPost sys w h h1 S R1 o1)
    (b : ScanPost sys w h1 h2 (fun m => S m ∨ R1 m) R2 o2) (ho : ∀ m ∈ o1, R1 m) :
    ScanPost sys w h h2 S (fun m => R1 m ∨ R2 m) (o1 ++ o2) where
  same := a.same.comp b.same
  keep := fun m hm => (b.keep m (Or.inl hm)).trans (a.keep m hm)
  good := good_congr (fun m => by simp only [or_assoc]) b.good
  frame := fun m hm => by
    rw [b.frame m (fun r => hm (Or.inr r)), a.frame m (fun r => hm (Or.inl r))]
  mtime := fun m => by
    rcases a.mtime m with e1 | e1
    · have e : node_mtime sys w h1 m = node_mtime sys w h m := by
        rw [node_mtime_known sys w h1 m (by rw [e1]; exact node_mtime_ne sys w h m), e1]
      rcases b.mtime m with e2 | e2
      · exact Or.inl (e2.trans e)
      · exact Or.inl (e2.trans e1)
    · have e : node_mtime sys w h1 m = node_mtime sys w h m :=
        node_mtime_congr sys w m (a.same.path m) e1
      rcases b.mtime m with e2 | e2
      · exact Or.inl (e2.trans e)
      · exact Or.inr (e2.trans e1)
  ready := fun e => by
    rw [last_scanned_append, b.ready e, last_scanned_congr a.same]
    cases h2e : last_scanned h o2 e with
    | some m => rfl
    | none =>
      simp only [Option.or]
      rw [a.ready e]
      cases h1e : last_scanned h o1 e with
      | none => rfl
      | some m =>
        simp only
        rw [b.keep m (Or.inr (ho m (mem_of_last_scanned h1e).1))]

theorem ite_gt_eq_max (x acc : timestamp_t) : (if x > acc then x else acc) = max acc x := by
  rcases le_or_lt x acc with hle | hlt
  · rw [if_neg (not_lt.2 hle), max_eq_left hle]
  · rw [if_pos hlt, max_eq_right (le_of_lt hlt)]

theorem scan_inputs_post (sys : Sys W) (w : W) (rank : Nat → Nat) (fuel : Nat)
    (ih : ∀ (h : Heap) (node : Nat) (S : Nat → Prop), Ranked h rank → Good h S →
      rank node < fuel →
      ∃ h', recompute_dirty sys w fuel h node = some (true, h') ∧
        ScanPost sys w h h' S (Reach h node) (scan_order h fuel node)) :
    ∀ (l : List Nat) (h : Heap) (S : Nat → Prop) (acc : timestamp_t), Ranked h rank →
      Good h S → (∀ i ∈ l, rank i < fuel) →
      ∃ h', scan_inputs (recompute_dirty sys w fuel) l h acc =
          some (true, h', l.foldl (fun a i => max a (h'.node i).mtime) acc) ∧
        ScanPost sys w h h' S (fun m => ∃ i ∈ l, Reach h i m) (l.flatMap (scan_order h fuel))
  | [], h, S, acc, _, g, _ => by
    refine ⟨h, rfl, ?_⟩
    have p := ScanPost.nil sys w h S g
    have e : (fun m => ∃ i ∈ ([] : List Nat), Reach h i m) = fun _ => False := by
      funext m; simp
    rw [e]
    exact p
  | i :: l, h, S, acc, r, g, hl => by
    obtain ⟨h1, e1, p1⟩ := ih h i S r g (hl i (List.mem_cons_self i l))
    obtain ⟨h2, e2, p2⟩ := scan_inputs_post sys w rank fuel ih l h1 (fun m => S m ∨ Reach h i m)
      (max acc (h1.node i).mtime) (ranked_congr p1.same r) p1.good
      (fun j hj => hl j (List.mem_cons_of_mem i hj))
    refine ⟨h2, ?_, ?_⟩
    · simp only [scan_inputs, e1, ite_gt_eq_max, e2, List.foldl_cons]
      rw [p2.keep i (Or.inr Relation.ReflTransGen.refl)]
    · have p := ScanPost.seq p1 p2 (fun m hm => mem_scan_order fuel i m hm)
      have eR : (fun m => Reach h i m ∨ ∃ j ∈ l, Reach h1 j m) =
          fun m => ∃ j ∈ i :: l, Reach h j m := by
        funext m
        rw [reach_eq p1.same]
        simp
      have eo : scan_order h fuel i ++ l.flatMap (scan_order h1 fuel) =
          (i :: l).flatMap (scan_order h fuel) := by
        have : scan_order h1 fuel = scan_order h fuel := funext (scan_order_congr p1.same fuel)
        rw [this]
        simp
      rw [eR, eo] at p
      exact p

theorem set_dirty_set_dirty (h : Heap) (n : Nat) (a b : Bool) :
    (h.set_dirty n a).set_dirty n b = h.set_dirty n b := by
  simp [Heap.set_dirty]

theorem not_reach_input {h : Heap} {rank : Nat → Nat} (r : Ranked h rank) {n i : Nat}
    (d : dep h n i) : ¬ Reach h i n := fun hr =>
  absurd (rank_le_of_reach r hr) (not_le.2 (r n i d))

theorem recompute_dirty_leaf (sys : Sys W) (w : W) (fuel : Nat) (h : Heap) (node : Nat)
    (hin : (h.node node).in_edge = none) :
    recompute_dirty sys w (fuel + 1) h node =
      some (true, (h.set_mtime node (node_mtime sys w h node)).set_dirty node
        (decide (node_mtime sys w h node = 0))) := by
  simp only [recompute_dirty, hin, node_stat_eq, set_mtime_node_self]

theorem scanPost_leaf (sys : Sys W) (w : W) (h h' : Heap) (node : Nat) (S : Nat → Prop)
    (g : Good h S) (hin : (h.node node).in_edge = none) (hsame : SameGraph h h')
    (hne : ∀ m, m ≠ node → h'.node m = h.node m) (hedge : h'.edge = h.edge)
    (hself : h'.node node = { h.node node with mtime := node_mtime sys w h node,
                                               dirty := decide (node_mtime sys w h node = 0) }) :
    ScanPost sys w h h' S (Reach h node) [node] := by
  have hreach : ∀ m, Reach h node m → m = node := by
    intro m hr
    rcases reach_cases hr with e | ⟨i, ⟨e, he, _⟩, _⟩
    · exact e
    · rw [hin] at he; cases he
  have hkeep : ∀ m, S m → h'.node m = h.node m := by
    intro m hm
    by_cases e : m = node
    · subst e
      obtain ⟨g1, g2, _⟩ := g m hm
      rw [hself, node_mtime_known sys w h m g1]
      have : (h.node m).dirty = decide ((h.node m).mtime = 0) := by
        rw [g2]; unfold spec_dirty; rw [hin]
      rw [← this]
    · exact hne m e
  refine ⟨hsame, hkeep, ?_, fun m hm => hne m (fun e => hm (e ▸ Relation.ReflTransGen.refl)),
    ?_, ?_⟩
  · intro m hm
    by_cases hS : S m
    · obtain ⟨a, b, c⟩ := good_of_keep hsame hkeep g m hS
      exact ⟨a, b, fun i d => Or.inl (c i d)⟩
    · have e : m = node := by
        rcases hm with hm | hm
        · exact absurd hm hS
        · exact hreach m hm
      subst e
      have hin' : (h'.node m).in_edge = none := by rw [hsame.in_edge, hin]
      refine ⟨?_, ?_, ?_⟩
      · rw [hself]; exact node_mtime_ne sys w h m
      · unfold spec_dirty
        rw [hin', hself]
      · rintro i ⟨e, he, _⟩
        rw [hin'] at he; cases he
  · intro m
    by_cases e : m = node
    · subst e; left; rw [hself]
    · right; rw [hne m e]
  · intro e
    have : last_scanned h [node] e = none := by
      simp [last_scanned, hin]
    rw [this, hedge]

theorem recompute_dirty_post_leaf (sys : Sys W) (w : W) (fuel : Nat) (h : Heap) (node : Nat)
    (S : Nat → Prop) (g : Good h S) (hin : (h.node node).in_edge = none) :
    ∃ h', recompute_dirty sys w (fuel + 1) h node = some (true, h') ∧
      ScanPost sys w h h' S (Reach h node) (scan_order h (fuel + 1) node) := by
  refine ⟨_, recompute_dirty_leaf sys w fuel h node hin, ?_⟩
  have eo : scan_order h (fuel + 1) node = [node] := by
    simp only [scan_order, hin]
  rw [eo]
  apply scanPost_leaf sys w h _ node S g hin
  · exact (sameGraph_set_mtime h node _).comp (sameGraph_set_dirty _ node _)
  · intro m hm
    rw [set_dirty_node_ne _ _ _ _ hm, set_mtime_node_ne _ _ _ _ hm]
  · rfl
  · simp

theorem scanPost_edge (sys : Sys W) (w : W) (rank : Nat → Nat) (h h1 h2 h' : Heap)
    (node e : Nat) (S : Nat → Prop) (o2 : List Nat)
    (r : Ranked h rank) (g : Good h S) (hin : (h.node node).in_edge = some e)
    (s1 : SameGraph h h1) (h1ne : ∀ m, m ≠ node → h1.node m = h.node m)
    (h1edge : h1.edge = h.edge)
    (h1self : h1.node node = { h.node node with mtime := node_mtime sys w h node })
    (p2 : ScanPost sys w h1 h2 S (fun m => ∃ i ∈ (h.edge e).inputs, Reach h i m) o2)
    (ho : ∀ m ∈ o2, ∃ i ∈ (h.edge e).inputs, Reach h i m)
    (s2 : SameGraph h2 h') (hne : ∀ m, m ≠ node → h'.node m = h2.node m)
    (hself : h'.node node = { h2.node node with dirty := spec_dirty h2 node })
    (hedge : ∀ k, k ≠ e → h'.edge k = h2.edge k)
    (hready : (h'.edge e).outputs_ready = !(h'.node node).dirty) :
    ScanPost sys w h h' S (Reach h node) (o2 ++ [node]) := by
  have hnR : ¬ ∃ i ∈ (h.edge e).inputs, Reach h i node := by
    rintro ⟨i, hi, hr⟩
    exact not_reach_input r ⟨e, hin, hi⟩ hr
  have hdep_ne : ∀ i, dep h node i → i ≠ node := by
    intro i d e
    subst e
    exact absurd (r _ _ d) (lt_irrefl _)
  have hk1 : ∀ m, S m → h1.node m = h.node m := by
    intro m hm
    by_cases e : m = node
    · subst e
      rw [h1self, node_mtime_known sys w h m (g m hm).1]
    · exact h1ne m e
  have h2node : h2.node node = h1.node node := p2.frame node hnR
  have s02 : SameGraph h h2 := s1.comp p2.same
  have hkeep : ∀ m, S m → h'.node m = h.node m := by
    intro m hm
    by_cases e : m = node
    · subst e
      obtain ⟨g1, g2, g3⟩ := g m hm
      have hd : spec_dirty h2 m = (h.node m).dirty := by
        rw [g2]
        apply spec_dirty_congr s02
        · rw [h2node, hk1 m hm]
        · intro i d
          rw [p2.keep i (g3 i d), hk1 i (g3 i d)]
      rw [hself, hd, h2node, hk1 m hm]
    · rw [hne m e, p2.keep m hm, hk1 m hm]
  have hF : ∀ m, (m ≠ node ∨ S node) → h'.node m = h2.node m := by
    intro m hm
    by_cases e : m = node
    · subst e
      have hS : S m := by
        rcases hm with hm | hm
        · exact absurd rfl hm
        · exact hm
      rw [hkeep m hS, p2.keep m hS, hk1 m hS]
    · exact hne m e
  have hmt : (h'.node node).mtime = node_mtime sys w h node := by
    rw [hself]
    show (h2.node node).mtime = _
    rw [h2node, h1self]
  refine ⟨s02.comp s2, hkeep, ?_, ?_, ?_, ?_⟩
  · intro m hm
    by_cases hmn : m = node
    · subst hmn
      refine ⟨?_, ?_, ?_⟩
      · rw [hmt]; exact node_mtime_ne sys w h m
      · have : (h'.node m).dirty = spec_dirty h2 m := by rw [hself]
        rw [this]
        symm
        apply spec_dirty_congr s2
        · rw [hself]
        · intro i d
          exact hne i (hdep_ne i ((dep_congr s02 m i).1 d))
      · intro i d
        exact Or.inr (Relation.ReflTransGen.single ((dep_congr (s02.comp s2) m i).1 d))
    · have hm2 : S m ∨ ∃ i ∈ (h.edge e).inputs, Reach h i m := by
        rcases hm with hm | hm
        · exact Or.inl hm
        · rcases reach_cases hm with e' | ⟨i, ⟨e', he', hi⟩, hr⟩
          · exact absurd e' hmn
          · rw [hin] at he'
            cases he'
            exact Or.inr ⟨i, hi, hr⟩
      obtain ⟨a, b, c⟩ := p2.good m hm2
      have hin2 : ∀ i, dep h2 m i → h'.node i = h2.node i := by
        intro i d
        apply hF
        by_cases e' : i = node
        · subst e'
          rcases c i d with hS | hR
          · exact Or.inr hS
          · exact absurd hR hnR
        · exact Or.inl e'
      refine ⟨by rw [hne m hmn]; exact a, ?_, ?_⟩
      · rw [spec_dirty_congr s2 m (by rw [hne m hmn]) hin2, hne m hmn]
        exact b
      · intro i d
        rcases c i ((dep_congr s2 m i).1 d) with hS | ⟨j, hj, hr⟩
        · exact Or.inl hS
        · exact Or.inr (reach_of_dep ⟨e, hin, hj⟩ hr)
  · intro m hm
    have hmn : m ≠ node := fun e' => hm (e' ▸ Relation.ReflTransGen.refl)
    have hR : ¬ ∃ i ∈ (h.edge e).inputs, Reach h i m := by
      rintro ⟨i, hi, hr⟩
      exact hm (reach_of_dep ⟨_, hin, hi⟩ hr)
    rw [hne m hmn, p2.frame m hR, h1ne m hmn]
  · intro m
    by_cases hmn : m = node
    · subst hmn; exact Or.inl hmt
    · rw [hne m hmn]
      rcases p2.mtime m with e2 | e2
      · left
        rw [e2]
        exact node_mtime_congr sys w m (by rw [h1ne m hmn]) (by rw [h1ne m hmn])
      · right
        rw [e2, h1ne m hmn]
  · intro k
    rw [last_scanned_append]
    by_cases ek : k = e
    · subst ek
      have : last_scanned h [node] k = some node := by
        simp [last_scanned, hin]
      rw [this]
      simpa using hready
    · have : last_scanned h [node] k = none := by
        simp only [last_scanned, List.reverse_singleton, List.find?_cons, hin]
        have : ¬ (e = k) := fun e' => ek e'.symm
        simp [this]
      rw [this, hedge k ek, p2.ready k, last_scanned_congr s1, h1edge]
      simp only [Option.or]
      cases hl : last_scanned h o2 k with
      | none => rfl
      | some m =>
        simp only
        have hm := ho m (mem_of_last_scanned hl).1
        have hmn : m ≠ node := fun e' => hnR (e' ▸ hm)
        rw [hne m hmn]

theorem recompute_dirty_edge (sys : Sys W) (w : W) (fuel : Nat) (h h2 : Heap) (node e : Nat)
    (newest : timestamp_t) (hin : (h.node node).in_edge = some e)
    (hs : scan_inputs (recompute_dirty sys w fuel) (h.edge e).inputs
      (h.set_mtime node (node_mtime sys w h node)) 0 = some (true, h2, newest))
    (hnode : ∀ i ∈ (h2.edge e).inputs, i ≠ node)
    (hd : spec_dirty h2 node =
      (decide (node_mtime sys w h node = 0) || decide (newest > node_mtime sys w h node)
        || (h2.edge e).inputs.any fun i => (h2.node i).dirty)) :
    recompute_dirty sys w (fuel + 1) h node =
      some (true, (h2.set_dirty node (spec_dirty h2 node)).set_outputs_ready e
        (!(spec_dirty h2 node))) := by
  have hany : ∀ d, ((h2.set_dirty node d).edge e).inputs.any
      (fun i => ((h2.set_dirty node d).node i).dirty) =
      (h2.edge e).inputs.any fun i => (h2.node i).dirty := by
    intro d
    rw [set_dirty_edge]
    exact any_congr_mem _ _ _ (fun i hi => by rw [set_dirty_node_ne _ _ _ _ (hnode i hi)])
  simp only [recompute_dirty, hin, node_stat_eq, set_mtime_edge, hs, hany]
  rw [hd]
  cases hb : (h2.edge e).inputs.any fun i => (h2.node i).dirty with
  | true => simp [set_dirty_set_dirty]
  | false => simp

/-- The scan of an acyclic graph: with more fuel than the rank of the node,
`recompute_dirty` returns true, and leaves what `ScanPost` says. -/
theorem recompute_dirty_post (sys : Sys W) (w : W) (rank : Nat → Nat) :
    ∀ (fuel : Nat) (h : Heap) (node : Nat) (S : Nat → Prop), Ranked h rank → Good h S →
      rank node < fuel →
      ∃ h', recompute_dirty sys w fuel h node = some (true, h') ∧
        ScanPost sys w h h' S (Reach h node) (scan_order h fuel node)
  | 0, _, _, _, _, _, hf => absurd hf (Nat.not_lt_zero _)
  | fuel + 1, h, node, S, r, g, hf => by
    cases hin : (h.node node).in_edge with
    | none => exact recompute_dirty_post_leaf sys w fuel h node S g hin
    | some e =>
      have s1 := sameGraph_set_mtime h node (node_mtime sys w h node)
      have h1ne : ∀ m, m ≠ node →
          (h.set_mtime node (node_mtime sys w h node)).node m = h.node m :=
        fun m hm => set_mtime_node_ne _ _ _ _ hm
      have hk1 : ∀ m, S m → (h.set_mtime node (node_mtime sys w h node)).node m = h.node m := by
        intro m hm
        by_cases hmn : m = node
        · subst hmn
          rw [node_mtime_known sys w h m (g m hm).1, set_mtime_self_eq]
        · exact h1ne m hmn
      have g1 := good_of_keep s1 hk1 g
      have hlt : ∀ i ∈ (h.edge e).inputs, rank i < fuel := fun i hi =>
        lt_of_lt_of_le (r node i ⟨e, hin, hi⟩) (Nat.lt_succ_iff.1 hf)
      obtain ⟨h2, e2, p2⟩ := scan_inputs_post sys w rank fuel
        (recompute_dirty_post sys w rank fuel) (h.edge e).inputs _ S 0 (ranked_congr s1 r) g1 hlt
      have s02 := s1.comp p2.same
      have hdep_ne : ∀ i ∈ (h.edge e).inputs, i ≠ node := by
        intro i hi hmn
        subst hmn
        exact absurd (r _ _ ⟨e, hin, hi⟩) (lt_irrefl _)
      have hnR : ¬ ∃ i ∈ (h.edge e).inputs,
          Reach (h.set_mtime node (node_mtime sys w h node)) i node := by
        rintro ⟨i, hi, hr⟩
        rw [reach_eq s1] at hr
        exact not_reach_input r ⟨e, hin, hi⟩ hr
      have h2node : h2.node node = (h.set_mtime node (node_mtime sys w h node)).node node :=
        p2.frame node hnR
      have hm2 : (h2.node node).mtime = node_mtime sys w h node := by
        rw [h2node]; simp
      have hd : spec_dirty h2 node =
          (decide (node_mtime sys w h node = 0)
            || decide ((h.edge e).inputs.foldl (fun a i => max a (h2.node i).mtime) 0
                > node_mtime sys w h node)
            || (h2.edge e).inputs.any fun i => (h2.node i).dirty) := by
        unfold spec_dirty
        rw [s02.in_edge, hin]
        simp only [hm2, spec_newest_input, s02.inputs]
      have hrun := recompute_dirty_edge sys w fuel h h2 node e _ hin e2
        (by rw [s02.inputs]; exact hdep_ne) hd
      refine ⟨_, hrun, ?_⟩
      have eo : scan_order h (fuel + 1) node =
          (h.edge e).inputs.flatMap (scan_order h fuel) ++ [node] := by
        simp only [scan_order, hin]
      have eo1 : scan_order (h.set_mtime node (node_mtime sys w h node)) fuel =
          scan_order h fuel := funext (scan_order_congr s1 fuel)
      rw [eo1, reach_eq s1] at p2
      rw [eo]
      apply scanPost_edge sys w rank h _ h2 _ node e S _ r g hin s1 h1ne rfl (by simp) p2
      · intro m hm
        obtain ⟨i, hi, hmi⟩ := List.mem_flatMap.1 hm
        exact ⟨i, hi, mem_scan_order fuel i m hmi⟩
      · exact (sameGraph_set_dirty h2 node _).comp (sameGraph_set_outputs_ready _ e _)
      · intro m hm
        rw [set_outputs_ready_node, set_dirty_node_ne _ _ _ _ hm]
      · simp
      · intro k hk
        rw [set_outputs_ready_edge_ne _ _ _ _ hk, set_dirty_edge]
      · simp

theorem reach_mem_scan_order {h : Heap} {rank : Nat → Nat} (r : Ranked h rank) :
    ∀ (fuel n m : Nat), rank n < fuel → Reach h n m → m ∈ scan_order h fuel n
  | 0, _, _, hf, _ => absurd hf (Nat.not_lt_zero _)
  | fuel + 1, n, m, hf, hr => by
    unfold scan_order
    cases hin : (h.node n).in_edge with
    | none =>
      rcases reach_cases hr with e | ⟨i, ⟨e, he, _⟩, _⟩
      · simp [e]
      · rw [hin] at he; cases he
    | some e =>
      simp only [List.mem_append, List.mem_flatMap, List.mem_singleton]
      rcases reach_cases hr with e' | ⟨i, ⟨e', he', hi⟩, hri⟩
      · exact Or.inr e'
      · rw [hin] at he'
        cases he'
        exact Or.inl ⟨i, hi, reach_mem_scan_order r fuel i m
          (lt_of_lt_of_le (r n i ⟨e, hin, hi⟩) (Nat.lt_succ_iff.1 hf)) hri⟩

theorem last_scanned_isSome {h : Heap} {order : List Nat} {e m : Nat} (hm : m ∈ order)
    (hin : (h.node m).in_edge = some e) : ∃ k, last_scanned h order e = some k := by
  unfold last_scanned
  cases hf : order.reverse.find? fun m => decide ((h.node m).in_edge = some e) with
  | some k => exact ⟨k, rfl⟩
  | none =>
    rw [List.find?_eq_none] at hf
    have := hf m (List.mem_reverse.2 hm)
    simp [hin] at this

theorem good_empty (h : Heap) : Good h (fun _ => False) := fun _ hn => hn.elim

theorem cc_ranked : Ranked cc_heap cc_rank := by
  rintro n i ⟨e, he, hi⟩
  match n with
  | 0 =>
    simp only [cc_heap, Option.some.injEq] at he
    subst he
    simp only [cc_heap, List.mem_singleton] at hi
    subst hi
    decide
  | 1 => simp [cc_heap] at he
  | n + 2 => simp [cc_heap] at he

/-- C8: on an acyclic graph, `recompute_dirty(node)` returns true with any fuel
above the rank of the node, and after it every node reachable from `node` has
the mtime `node_stat` reports and a dirty flag equal to the reference
definition of the spec (a leaf: dirty iff its mtime is 0; otherwise: dirty iff
its mtime is 0, or the newest input mtime is greater, or an input is dirty),
and the `outputs_ready` of its producing edge is the negation of the dirty flag
of the output of that edge scanned last. -/
theorem C8_recompute_dirty_refines_spec (sys : Sys W) (w : W) (h : Heap) (rank : Nat → Nat)
    (hrank : Ranked h rank) (node fuel : Nat) (hfuel : rank node < fuel) :
    ∃ h', recompute_dirty sys w fuel h node = some (true, h') ∧
      ∀ n, Reach h node n →
        (h'.node n).mtime = node_mtime sys w h n ∧
        (h'.node n).dirty = spec_dirty h' n ∧
        ∀ e, (h'.node n).in_edge = some e →
          ∃ m, last_scanned h' (scan_order h' fuel node) e = some m ∧
            (h'.edge e).outputs_ready = !(h'.node m).dirty := by
  obtain ⟨h', hrun, p⟩ := recompute_dirty_post sys w rank fuel h node (fun _ => False) hrank
    (good_empty h) hfuel
  refine ⟨h', hrun, fun n hn => ?_⟩
  obtain ⟨g1, g2, _⟩ := p.good n (Or.inr hn)
  refine ⟨?_, g2, ?_⟩
  · rcases p.mtime n with e | e
    · exact e
    · rw [e, node_mtime_known sys w h n (by rw [← e]; exact g1)]
  · intro e he
    rw [p.same.in_edge] at he
    obtain ⟨m, hm⟩ := last_scanned_isSome (reach_mem_scan_order hrank fuel node n hfuel hn) he
    rw [last_scanned_congr p.same, funext (scan_order_congr p.same fuel)]
    refine ⟨m, hm, ?_⟩
    rw [p.ready e, hm]

theorem C8_witness :
    Ranked cc_heap cc_rank ∧ cc_rank 0 < 2 ∧
    ∃ h', recompute_dirty files_sys [("in.c", 5)] 2 cc_heap 0 = some (true, h') ∧
      ∀ n, Reach cc_heap 0 n →
        (h'.node n).mtime = node_mtime files_sys [("in.c", 5)] cc_heap n ∧
        (h'.node n).dirty = spec_dirty h' n ∧
        ∀ e, (h'.node n).in_edge = some e →
          ∃ m, last_scanned h' (scan_order h' 2 0) e = some m ∧
            (h'.edge e).outputs_ready = !(h'.node m).dirty :=
  ⟨cc_ranked, by decide,
    C8_recompute_dirty_refines_spec files_sys [("in.c", 5)] cc_heap cc_rank cc_ranked 0 2
      (by decide)⟩

/-! ## A scan that finds nothing dirty -/

theorem foldl_max_le {α : Type} [LinearOrder α] (f : Nat → α) (b : α) :
    ∀ (l : List Nat) (acc : α), acc ≤ b → (∀ i ∈ l, f i ≤ b) →
      l.foldl (fun a i => max a (f i)) acc ≤ b
  | [], _, ha, _ => ha
  | i :: l, acc, ha, hl => by
    simp only [List.foldl_cons]
    exact foldl_max_le f b l _ (max_le ha (hl i (List.mem_cons_self i l)))
      (fun j hj => hl j (List.mem_cons_of_mem i hj))

theorem le_foldl_max {α : Type} [LinearOrder α] (f : Nat → α) :
    ∀ (l : List Nat) (acc : α),
      acc ≤ l.foldl (fun a i => max a (f i)) acc ∧
      ∀ i ∈ l, f i ≤ l.foldl (fun a i => max a (f i)) acc
  | [], acc => ⟨le_refl _, fun _ hi => by simp at hi⟩
  | i :: l, acc => by
    simp only [List.foldl_cons]
    obtain ⟨h1, h2⟩ := le_foldl_max f l (max acc (f i))
    refine ⟨le_trans (le_max_left _ _) h1, fun j hj => ?_⟩
    rcases List.mem_cons.1 hj with e | hj
    · subst e; exact le_trans (le_max_right _ _) h1
    · exact h2 j hj

theorem good_clean {h : Heap} {R : Nat → Prop} {rank : Nat → Nat} (r : Ranked h rank)
    (g : Good h R) (hm0 : ∀ n, R n → (h.node n).mtime ≠ 0)
    (hpos : ∀ n, R n → (h.node n).in_edge ≠ none → 0 ≤ (h.node n).mtime)
    (hle : ∀ n i, R n → dep h n i → (h.node i).mtime ≤ (h.node n).mtime) :
    ∀ (k n : Nat), rank n < k → R n → (h.node n).dirty = false
  | 0, _, hk, _ => absurd hk (Nat.not_lt_zero _)
  | k + 1, n, hk, hn => by
    obtain ⟨_, g2, g3⟩ := g n hn
    rw [g2]
    unfold spec_dirty
    cases hin : (h.node n).in_edge with
    | none => simpa using hm0 n hn
    | some e =>
      have h0 := hm0 n hn
      have h1 : spec_newest_input h (h.edge e).inputs ≤ (h.node n).mtime :=
        foldl_max_le _ _ _ _ (hpos n hn (by rw [hin]; simp))
          (fun i hi => hle n i hn ⟨e, hin, hi⟩)
      have h2 : ((h.edge e).inputs.any fun i => (h.node i).dirty) = false := by
        rw [List.any_eq_false]
        intro i hi
        have d : dep h n i := ⟨e, hin, hi⟩
        rw [good_clean r g hm0 hpos hle k i
          (lt_of_lt_of_le (r n i d) (Nat.lt_succ_iff.1 hk)) (g3 i d)]
        simp
      simp [h0, h2, not_lt.2 h1]

theorem build_of_clean (sys : Sys W) (w : W) (fuel : Nat) (h h' : Heap) (s : state_t)
    (target : Nat) (hs : recompute_dirty sys w fuel h target = some (true, h'))
    (hd : (h'.node target).dirty = false) :
    build sys fuel w h s target = some ⟨true, h', w, []⟩ := by
  simp [build, hs, hd]

theorem node_mtime_fresh (sys : Sys W) (w : W) {h : Heap} (hf : Fresh h) (n : Nat) :
    node_mtime sys w h n = stat_mtime sys w (h.node n).path := by
  rw [node_mtime_eq, if_neg (by simp [(hf.1 n).1])]

/-- After the scan of a fresh acyclic graph, the nodes reachable from the
target have the mtime the filesystem reports and satisfy the reference
definition; no other node is dirty. -/
theorem scan_fresh (sys : Sys W) (w : W) (h : Heap) (rank : Nat → Nat) (hrank : Ranked h rank)
    (hf : Fresh h) (target fuel : Nat) (hfuel : rank target < fuel) :
    ∃ h', recompute_dirty sys w fuel h target = some (true, h') ∧ SameGraph h h' ∧
      Good h' (Reach h target) ∧
      (∀ n, Reach h target n → (h'.node n).mtime = stat_mtime sys w (h.node n).path) ∧
      (∀ n, ¬ Reach h target n → (h'.node n).dirty = false) ∧
      ∀ e, (h'.edge e).outputs_ready =
        match last_scanned h (scan_order h fuel target) e with
        | some m => !(h'.node m).dirty
        | none => false := by
  obtain ⟨h', hrun, p⟩ := recompute_dirty_post sys w rank fuel h target (fun _ => False) hrank
    (good_empty h) hfuel
  refine ⟨h', hrun, p.same, good_congr (fun m => by simp) p.good, fun n hn => ?_, fun n hn => ?_,
    fun e => ?_⟩
  · obtain ⟨g1, _, _⟩ := p.good n (Or.inr hn)
    rcases p.mtime n with e | e
    · rw [e, node_mtime_fresh sys w hf]
    · rw [e] at g1
      exact absurd (hf.1 n).1 g1
  · rw [p.frame n hn]
    exact (hf.1 n).2
  · rw [p.ready e, hf.2 e]

theorem cc_fresh : Fresh cc_heap := by
  refine ⟨fun n => ?_, fun e => ?_⟩
  · match n with
    | 0 => exact ⟨rfl, rfl⟩
    | 1 => exact ⟨rfl, rfl⟩
    | n + 2 => exact ⟨rfl, rfl⟩
  · match e with
    | 0 => rfl
    | e + 1 => rfl

theorem cc_dep {n i : Nat} (d : dep cc_heap n i) : n = 0 ∧ i = 1 := by
  obtain ⟨e, he, hi⟩ := d
  match n with
  | 0 =>
    simp only [cc_heap, Option.some.injEq] at he
    subst he
    simp only [cc_heap, List.mem_singleton] at hi
    exact ⟨rfl, hi⟩
  | 1 => simp [cc_heap] at he
  | n + 2 => simp [cc_heap] at he

theorem cc_transGen {n i : Nat} (d : Relation.TransGen (dep cc_heap) n i) : n = 0 ∧ i = 1 := by
  induction d with
  | single d => exact cc_dep d
  | tail _ d ih =>
    have := cc_dep d
    omega

theorem cc_reach {n : Nat} (hr : Reach cc_heap 0 n) : n = 0 ∨ n = 1 := by
  rcases Relation.reflTransGen_iff_eq_or_transGen.1 hr with e | t
  · exact Or.inl e
  · exact Or.inr (cc_transGen t).2

/-- C3, as stated, fails: for `out.o: in.c | cc ...` with `out.o` present and
`in.c` missing, the timestamp of the only output (5 s) is newer than the
timestamp of its only input (0, missing), and `build` on the fresh state runs
the command. -/
theorem C3_counterexample :
    Acyclic cc_heap ∧ Fresh cc_heap ∧
    (∀ n i, Relation.TransGen (dep cc_heap) n i →
      stat_mtime files_sys [("out.o", 5)] (cc_heap.node i).path
        < stat_mtime files_sys [("out.o", 5)] (cc_heap.node n).path) ∧
    (build files_sys 2 [("out.o", 5)] cc_heap cc_state 0).map (fun r => (r.ok, r.log))
      = some (true, [(0, true)]) := by
  refine ⟨⟨cc_rank, cc_ranked⟩, cc_fresh, ?_, by decide⟩
  intro n i d
  obtain ⟨rfl, rfl⟩ := cc_transGen d
  decide

/-- C3, amended: on a fresh acyclic graph, when every leaf reachable from the
target exists (the filesystem does not report 0 for it) and every reachable
node with a producing edge has a positive timestamp that is newer than the
timestamps of all its transitive inputs, `build` returns true with every fuel
above the rank of the target, executes no command and leaves the world as it
is. -/
theorem C3_up_to_date_noop (sys : Sys W) (w : W) (h : Heap) (s : state_t) (target : Nat)
    (rank : Nat → Nat) (hrank : Ranked h rank) (hfresh : Fresh h)
    (hleaf : ∀ n, Reach h target n → (h.node n).in_edge = none →
      stat_mtime sys w (h.node n).path ≠ 0)
    (hout : ∀ n, Reach h target n → (h.node n).in_edge ≠ none →
      0 < stat_mtime sys w (h.node n).path)
    (hnewer : ∀ n i, Reach h target n → Relation.TransGen (dep h) n i →
      stat_mtime sys w (h.node i).path < stat_mtime sys w (h.node n).path)
    (fuel : Nat) (hfuel : rank target < fuel) :
    ∃ r, build sys fuel w h s target = some r ∧ r.ok = true ∧ r.log = [] ∧ r.world = w := by
  obtain ⟨h', hrun, hsame, hgood, hmt, _, _⟩ :=
    scan_fresh sys w h rank hrank hfresh target fuel hfuel
  have hclean : (h'.node target).dirty = false := by
    apply good_clean (ranked_congr hsame hrank) hgood ?_ ?_ ?_ (rank target + 1) target
      (Nat.lt_succ_self _) Relation.ReflTransGen.refl
    · intro n hn
      rw [hmt n hn]
      cases hin : (h.node n).in_edge with
      | none => exact hleaf n hn hin
      | some e => exact ne_of_gt (hout n hn (by rw [hin]; simp))
    · intro n hn hin
      rw [hmt n hn]
      rw [hsame.in_edge] at hin
      exact le_of_lt (hout n hn hin)
    · intro n i hn d
      have d' := (dep_congr hsame n i).1 d
      rw [hmt n hn, hmt i (Relation.ReflTransGen.tail hn d')]
      exact le_of_lt (hnewer n i hn (Relation.TransGen.single d'))
  exact ⟨_, build_of_clean sys w fuel h h' s target hrun hclean, rfl, rfl, rfl⟩

theorem C3_witness :
    Ranked cc_heap cc_rank ∧ Fresh cc_heap ∧ cc_rank 0 < 2 ∧
    ∃ r, build files_sys 2 [("out.o", 5), ("in.c", 3)] cc_heap cc_state 0 = some r ∧
      r.ok = true ∧ r.log = [] ∧ r.world = [("out.o", 5), ("in.c", 3)] :=
  ⟨cc_ranked, cc_fresh, by decide,
    C3_up_to_date_noop files_sys [("out.o", 5), ("in.c", 3)] cc_heap cc_state 0 cc_rank
      cc_ranked cc_fresh
      (by
        intro n hn _
        rcases cc_reach hn with rfl | rfl <;> decide)
      (by
        intro n hn _
        rcases cc_reach hn with rfl | rfl
        · decide
        · contradiction)
      (by
        intro n i _ d
        obtain ⟨rfl, rfl⟩ := cc_transGen d
        decide)
      2 (by decide)⟩

/-! ## The plan -/

theorem plan_update_ready_fold (h : Heap) :
    ∀ (l r p : List Nat),
      l.foldl (fun (acc : List Nat × List Nat) edge =>
        if edge_all_inputs_ready h edge then (acc.1 ++ [edge], acc.2)
        else (acc.1, acc.2 ++ [edge])) (r, p) =
      (r ++ l.filter (fun e => edge_all_inputs_ready h e),
       p ++ l.filter (fun e => !edge_all_inputs_ready h e))
  | [], r, p => by simp
  | e :: l, r, p => by
    simp only [List.foldl_cons]
    cases hb : edge_all_inputs_ready h e with
    | true => simp [plan_update_ready_fold h l, hb]
    | false => simp [plan_update_ready_fold h l, hb]

/-- The list form of `plan_update_ready`: the pending edges that pass
`edge_all_inputs_ready` go to the end of `ready`, in order, and the others stay
in `pending`, in order. -/
theorem plan_update_ready_eq (h : Heap) (plan : plan_t) :
    plan_update_ready h plan =
      { ready := plan.ready ++ plan.pending.filter (fun e => edge_all_inputs_ready h e),
        pending := plan.pending.filter (fun e => !edge_all_inputs_ready h e) } := by
  simp [plan_update_ready, plan_update_ready_fold]

/-! ## One edge executed -/

theorem set_mtime_set_mtime (h : Heap) (n : Nat) (a b : timestamp_t) :
    (h.set_mtime n a).set_mtime n b = h.set_mtime n b := by
  simp [Heap.set_mtime]

theorem restat_step (sys : Sys W) (w : W) (h : Heap) (o : Nat) :
    (node_stat sys w (h.set_mtime o (-1)) o).1 =
      h.set_mtime o (stat_mtime sys w (h.node o).path) := by
  rw [node_stat_eq, node_mtime_eq]
  simp [set_mtime_set_mtime]

theorem restat_fold_aux (sys : Sys W) (w : W) :
    ∀ (l : List Nat) (h : Heap),
      (l.foldl (fun hh o => hh.set_mtime o (stat_mtime sys w (hh.node o).path)) h).edge
        = h.edge ∧
      ∀ n, (l.foldl (fun hh o => hh.set_mtime o (stat_mtime sys w (hh.node o).path)) h).node n =
        if n ∈ l then { h.node n with mtime := stat_mtime sys w (h.node n).path } else h.node n
  | [], h => by simp
  | o :: l, h => by
    rw [List.foldl_cons]
    obtain ⟨h1, h2⟩ := restat_fold_aux sys w l (h.set_mtime o (stat_mtime sys w (h.node o).path))
    refine ⟨by rw [h1]; rfl, fun n => ?_⟩
    rw [h2 n]
    by_cases hno : n = o
    · subst hno
      by_cases hl : n ∈ l <;> simp [hl]
    · rw [set_mtime_node_ne _ _ _ _ hno]
      simp [hno]

theorem restat_fold (sys : Sys W) (w : W) (l : List Nat) (h : Heap) :
    (l.foldl (fun hh o => (node_stat sys w (hh.set_mtime o (-1)) o).1) h).edge = h.edge ∧
    ∀ n, (l.foldl (fun hh o => (node_stat sys w (hh.set_mtime o (-1)) o).1) h).node n =
      if n ∈ l then { h.node n with mtime := stat_mtime sys w (h.node n).path }
      else h.node n := by
  have hfun : (fun (hh : Heap) (o : Nat) => (node_stat sys w (hh.set_mtime o (-1)) o).1) =
      fun hh o => hh.set_mtime o (stat_mtime sys w (hh.node o).path) := by
    funext hh o
    exact restat_step sys w hh o
  rw [hfun]
  exact restat_fold_aux sys w l h

/-- A failed command: `execute_edge` returns false and the heap is as
before. -/
theorem execute_edge_fail (sys : Sys W) (w : W) (h : Heap) (edge : Nat)
    (hr : (sys.system w (h.edge edge).command).1 ≠ 0) :
    execute_edge sys w h edge = ⟨false, h, (sys.system w (h.edge edge).command).2⟩ := by
  simp [execute_edge, hr]

/-- What a successful `execute_edge` leaves. -/
theorem execute_edge_ok (sys : Sys W) (w : W) (h : Heap) (edge : Nat)
    (hr : (sys.system w (h.edge edge).command).1 = 0) :
    (execute_edge sys w h edge).ok = true ∧
    (execute_edge sys w h edge).world = (sys.system w (h.edge edge).command).2 ∧
    (∀ k, (execute_edge sys w h edge).heap.edge k =
      if k = edge then { h.edge k with outputs_ready := true } else h.edge k) ∧
    ∀ n, (execute_edge sys w h edge).heap.node n =
      if n ∈ (h.edge edge).outputs then
        { h.node n with
          mtime := stat_mtime sys (sys.system w (h.edge edge).command).2 (h.node n).path }
      else h.node n := by
  have hf := restat_fold sys (sys.system w (h.edge edge).command).2
    ((h.set_outputs_ready edge true).edge edge).outputs (h.set_outputs_ready edge true)
  simp only [execute_edge, hr, ne_eq, not_true_eq_false, if_false]
  refine ⟨trivial, trivial, fun k => ?_, fun n => ?_⟩
  · rw [hf.1]
    by_cases hk : k = edge
    · subst hk; simp
    · rw [set_outputs_ready_edge_ne _ _ _ _ hk, if_neg hk]
  · rw [hf.2 n]
    simp

theorem execute_edge_ok_iff (sys : Sys W) (w : W) (h : Heap) (edge : Nat) :
    (execute_edge sys w h edge).ok = true ↔ (sys.system w (h.edge edge).command).1 = 0 := by
  by_cases hr : (sys.system w (h.edge edge).command).1 = 0
  · simp [(execute_edge_ok sys w h edge hr).1, hr]
  · simp [execute_edge_fail sys w h edge hr, hr]

theorem execute_edge_world (sys : Sys W) (w : W) (h : Heap) (edge : Nat) :
    (execute_edge sys w h edge).world = (sys.system w (h.edge edge).command).2 := by
  by_cases hr : (sys.system w (h.edge edge).command).1 = 0
  · exact (execute_edge_ok sys w h edge hr).2.1
  · rw [execute_edge_fail sys w h edge hr]

/-! ## The execute loop -/

theorem execute_loop_nil (sys : Sys W) (fuel : Nat) (w : W) (h : Heap) (plan : plan_t)
    (hr : plan.ready = []) : execute_loop sys fuel w h plan = some ⟨true, h, w, plan, []⟩ := by
  cases fuel <;> simp [execute_loop, hr]

theorem execute_loop_zero (sys : Sys W) (w : W) (h : Heap) (r pend : List Nat) (e : Nat) :
    execute_loop sys 0 w h ⟨r ++ [e], pend⟩ = none := by
  simp [execute_loop]

theorem execute_loop_succ (sys : Sys W) (fuel : Nat) (w : W) (h : Heap) (r pend : List Nat)
    (e : Nat) :
    execute_loop sys (fuel + 1) w h ⟨r ++ [e], pend⟩ =
      if (execute_edge sys w h e).ok = false then
        some ⟨false, (execute_edge sys w h e).heap, (execute_edge sys w h e).world, ⟨r, pend⟩,
          [(e, false)]⟩
      else
        (execute_loop sys fuel (execute_edge sys w h e).world (execute_edge sys w h e).heap
          (plan_update_ready (execute_edge sys w h e).heap ⟨r, pend⟩)).map
          fun out => { out with log := (e, true) :: out.log } := by
  simp only [execute_loop, List.getLast?_concat, List.dropLast_concat]
  cases hb : (execute_edge sys w h e).ok with
  | false => simp
  | true =>
    simp only [Bool.not_true, Bool.false_eq_true, if_false]
    cases execute_loop sys fuel (execute_edge sys w h e).world (execute_edge sys w h e).heap
      (plan_update_ready (execute_edge sys w h e).heap ⟨r, pend⟩) <;> rfl

/-- Induction over the iterations of the execute loop. -/
theorem execute_loop_induction (sys : Sys W) (P : W → Heap → plan_t → loop_result W → Prop)
    (hdone : ∀ w h plan, plan.ready = [] → P w h plan ⟨true, h, w, plan, []⟩)
    (hfail : ∀ w h r e pend, (execute_edge sys w h e).ok = false →
      P w h ⟨r ++ [e], pend⟩
        ⟨false, (execute_edge sys w h e).heap, (execute_edge sys w h e).world, ⟨r, pend⟩,
          [(e, false)]⟩)
    (hstep : ∀ w h r e pend out, (execute_edge sys w h e).ok = true →
      P (execute_edge sys w h e).world (execute_edge sys w h e).heap
        (plan_update_ready (execute_edge sys w h e).heap ⟨r, pend⟩) out →
      P w h ⟨r ++ [e], pend⟩ { out with log := (e, true) :: out.log }) :
    ∀ (fuel : Nat) (w : W) (h : Heap) (plan : plan_t) (out : loop_result W),
      execute_loop sys fuel w h plan = some out → P w h plan out := by
  intro fuel
  induction fuel with
  | zero =>
    intro w h plan out hrun
    obtain ⟨ready, pend⟩ := plan
    rcases List.eq_nil_or_concat ready with hr | ⟨r, e, hr⟩ <;> try rw [List.concat_eq_append] at hr
    · rw [execute_loop_nil sys 0 w h _ hr] at hrun
      cases hrun
      exact hdone w h _ hr
    · subst hr
      rw [execute_loop_zero] at hrun
      cases hrun
  | succ fuel ih =>
    intro w h plan out hrun
    obtain ⟨ready, pend⟩ := plan
    rcases List.eq_nil_or_concat ready with hr | ⟨r, e, hr⟩ <;> try rw [List.concat_eq_append] at hr
    · rw [execute_loop_nil sys _ w h _ hr] at hrun
      cases hrun
      exact hdone w h _ hr
    · subst hr
      rw [execute_loop_succ] at hrun
      cases hb : (execute_edge sys w h e).ok with
      | false =>
        rw [if_pos hb] at hrun
        cases hrun
        exact hfail w h r e pend hb
      | true =>
        rw [if_neg (by simp [hb])] at hrun
        cases hsub : execute_loop sys fuel (execute_edge sys w h e).world
            (execute_edge sys w h e).heap
            (plan_update_ready (execute_edge sys w h e).heap ⟨r, pend⟩) with
        | none => rw [hsub] at hrun; cases hrun
        | some out' =>
          rw [hsub] at hrun
          cases hrun
          exact hstep w h r e pend out' hb (ih _ _ _ _ hsub)

/-- The execute loop returns: with fuel for one iteration per edge of the plan,
it has a result. -/
theorem execute_loop_terminates (sys : Sys W) :
    ∀ (fuel : Nat) (w : W) (h : Heap) (plan : plan_t),
      plan.ready.length + plan.pending.length ≤ fuel →
      ∃ out, execute_loop sys fuel w h plan = some out := by
  intro fuel
  induction fuel with
  | zero =>
    intro w h plan hl
    have : plan.ready = [] := List.length_eq_zero.1 (by omega)
    exact ⟨_, execute_loop_nil sys 0 w h plan this⟩
  | succ fuel ih =>
    intro w h plan hl
    obtain ⟨ready, pend⟩ := plan
    rcases List.eq_nil_or_concat ready with hr | ⟨r, e, hr⟩ <;> try rw [List.concat_eq_append] at hr
    · exact ⟨_, execute_loop_nil sys _ w h _ hr⟩
    · subst hr
      rw [execute_loop_succ]
      cases hb : (execute_edge sys w h e).ok with
      | false => exact ⟨_, by rw [if_pos rfl]⟩
      | true =>
        rw [if_neg (by simp)]
        obtain ⟨out, ho⟩ := ih (execute_edge sys w h e).world (execute_edge sys w h e).heap
          (plan_update_ready (execute_edge sys w h e).heap ⟨r, pend⟩) (by
            rw [plan_update_ready_eq]
            simp only [List.length_append, List.length_singleton] at hl ⊢
            have := List.length_filter_le (fun e' =>
              edge_all_inputs_ready (execute_edge sys w h e).heap e') pend
            have hsum : (pend.filter (fun e' =>
                edge_all_inputs_ready (execute_edge sys w h e).heap e')).length +
              (pend.filter (fun e' =>
                !edge_all_inputs_ready (execute_edge sys w h e).heap e')).length = pend.length := by
              have := List.length_eq_length_filter_add (l := pend) (fun e' =>
                edge_all_inputs_ready (execute_edge sys w h e).heap e')
              omega
            omega)
        exact ⟨_, by rw [ho]; rfl⟩

/-! ## The planning loop -/

theorem edge_dirty_congr {h h' : Heap} (hn : h'.node = h.node) (a : SameGraph h h') (e : Nat) :
    edge_dirty h' e = edge_dirty h e := by
  simp only [edge_dirty, hn, a.outputs]

theorem edge_all_inputs_ready_mono {h h' : Heap} (a : SameGraph h h')
    (hm : ∀ e, (h.edge e).outputs_ready = true → (h'.edge e).outputs_ready = true) (e : Nat)
    (hr : edge_all_inputs_ready h e = true) : edge_all_inputs_ready h' e = true := by
  simp only [edge_all_inputs_ready, List.all_eq_true, a.in_edge, a.inputs] at hr ⊢
  intro i hi
  have := hr i hi
  cases hin : (h.node i).in_edge with
  | none => rfl
  | some p =>
    rw [hin] at this
    exact hm p this

theorem planPost_nil (h : Heap) (plan : plan_t) : PlanPost h [] plan h plan where
  node := rfl
  same := SameGraph.refl h
  flag := fun e => by simp
  perm := by simp
  ready_sub := ⟨[], by simp⟩
  pending_sub := ⟨[], by simp⟩
  ready_mem := fun e he => by simp at he
  ready_ok := fun e he => Or.inl he

theorem plan_add_edge_eq (h : Heap) (plan : plan_t) (e : Nat) :
    plan_add_edge h plan e =
      if edge_dirty h e = true then
        if edge_all_inputs_ready h e = true then (h, { plan with ready := plan.ready ++ [e] })
        else (h, { plan with pending := plan.pending ++ [e] })
      else (h.set_outputs_ready e true, plan) := by
  by_cases hd : ((h.edge e).outputs.any fun o => (h.node o).dirty) = true <;>
    simp [plan_add_edge, edge_dirty, hd]

theorem plan_add_edge_node (h : Heap) (plan : plan_t) (e : Nat) :
    (plan_add_edge h plan e).1.node = h.node := by
  rw [plan_add_edge_eq]
  split
  · split <;> rfl
  · rfl

theorem plan_add_edge_same (h : Heap) (plan : plan_t) (e : Nat) :
    SameGraph h (plan_add_edge h plan e).1 := by
  rw [plan_add_edge_eq]
  split
  · split <;> exact SameGraph.refl h
  · exact sameGraph_set_outputs_ready h e true

theorem plan_add_edge_flag (h : Heap) (plan : plan_t) (e k : Nat) :
    ((plan_add_edge h plan e).1.edge k).outputs_ready =
      ((h.edge k).outputs_ready || (decide (k = e) && !edge_dirty h e)) := by
  rw [plan_add_edge_eq]
  cases hd : edge_dirty h e with
  | false =>
    simp only [Bool.false_eq_true, if_false, Bool.not_false, Bool.and_true]
    by_cases hk : k = e
    · subst hk; simp
    · rw [set_outputs_ready_edge_ne _ _ _ _ hk]; simp [hk]
  | true =>
    simp only [if_true, Bool.not_true, Bool.and_false, Bool.or_false]
    split <;> rfl

theorem plan_add_edge_plan (h : Heap) (plan : plan_t) (e : Nat) :
    (plan_add_edge h plan e).2 =
      if edge_dirty h e = true then
        if edge_all_inputs_ready h e = true then { plan with ready := plan.ready ++ [e] }
        else { plan with pending := plan.pending ++ [e] }
      else plan := by
  rw [plan_add_edge_eq]
  split
  · split <;> rfl
  · rfl

theorem plan_edges_cons (h : Heap) (plan : plan_t) (e : Nat) (es : List Nat) :
    plan_edges h (e :: es) plan =
      plan_edges (plan_add_edge h plan e).1 es (plan_add_edge h plan e).2 := by
  simp [plan_edges]

theorem planPost_cons (h h1 h' : Heap) (plan plan1 plan' : plan_t) (e : Nat) (es : List Nat)
    (hn : h1.node = h.node) (hs : SameGraph h h1)
    (hflag : ∀ k, (h1.edge k).outputs_ready =
      ((h.edge k).outputs_ready || (decide (k = e) && !edge_dirty h e)))
    (hplan : plan1 =
      if edge_dirty h e = true then
        if edge_all_inputs_ready h e = true then { plan with ready := plan.ready ++ [e] }
        else { plan with pending := plan.pending ++ [e] }
      else plan)
    (ih : PlanPost h1 es plan1 h' plan') : PlanPost h (e :: es) plan h' plan' := by
  have hd : ∀ k, edge_dirty h1 k = edge_dirty h k := edge_dirty_congr hn hs
  have hfd : (fun k => edge_dirty h1 k) = fun k => edge_dirty h k := funext hd
  refine ⟨ih.node.trans hn, hs.comp ih.same, fun k => ?_, ?_, ?_, ?_, ?_, ?_⟩
  · rw [ih.flag k, hflag, hd]
    by_cases hk : k = e
    · subst hk
      by_cases hm : k ∈ es <;> cases edge_dirty h k <;> cases (h.edge k).outputs_ready <;>
        simp [hm]
    · simp [hk]
  · refine ih.perm.trans ?_
    rw [hfd]
    by_cases hde : edge_dirty h e = true
    · by_cases hre : edge_all_inputs_ready h e = true
      · rw [if_pos hde, if_pos hre] at hplan
        subst hplan
        simp only [List.filter_cons, hde, if_true, List.append_assoc]
        refine List.Perm.append_left _ ?_
        simp only [← List.append_assoc]
        refine List.Perm.trans (List.Perm.append_right _ List.perm_append_comm) ?_
        simp only [List.append_assoc]
        refine List.Perm.append_left _ ?_
        simp
      · rw [if_pos hde, if_neg hre] at hplan
        subst hplan
        simp only [List.filter_cons, hde, if_true, List.append_assoc]
        simp
    · rw [if_neg hde] at hplan
      subst hplan
      simp [List.filter_cons, hde]
  · obtain ⟨A, hA, hsub⟩ := ih.ready_sub
    by_cases hde : edge_dirty h e = true
    · by_cases hre : edge_all_inputs_ready h e = true
      · rw [if_pos hde, if_pos hre] at hplan
        subst hplan
        exact ⟨e :: A, by rw [hA]; simp, hsub.cons₂ e⟩
      · rw [if_pos hde, if_neg hre] at hplan
        subst hplan
        exact ⟨A, hA, hsub.cons e⟩
    · rw [if_neg hde] at hplan
      subst hplan
      exact ⟨A, hA, hsub.cons e⟩
  · obtain ⟨B, hB, hsub⟩ := ih.pending_sub
    by_cases hde : edge_dirty h e = true
    · by_cases hre : edge_all_inputs_ready h e = true
      · rw [if_pos hde, if_pos hre] at hplan
        subst hplan
        exact ⟨B, hB, hsub.cons e⟩
      · rw [if_pos hde, if_neg hre] at hplan
        subst hplan
        exact ⟨e :: B, by rw [hB]; simp, hsub.cons₂ e⟩
    · rw [if_neg hde] at hplan
      subst hplan
      exact ⟨B, hB, hsub.cons e⟩
  · intro k hk hdk hrk
    rcases List.mem_cons.1 hk with hke | hk
    · subst hke
      obtain ⟨A, hA, _⟩ := ih.ready_sub
      rw [if_pos hdk, if_pos hrk] at hplan
      subst hplan
      rw [hA]
      simp
    · apply ih.ready_mem k hk (by rw [hd]; exact hdk)
      apply edge_all_inputs_ready_mono hs _ k hrk
      intro p hp
      rw [hflag, hp]
      rfl
  · intro k hk
    rcases ih.ready_ok k hk with hk1 | hk1
    · by_cases hde : edge_dirty h e = true
      · by_cases hre : edge_all_inputs_ready h e = true
        · rw [if_pos hde, if_pos hre] at hplan
          subst hplan
          rcases List.mem_append.1 hk1 with hk2 | hk2
          · exact Or.inl hk2
          · right
            simp only [List.mem_singleton] at hk2
            subst hk2
            apply edge_all_inputs_ready_mono (hs.comp ih.same) _ k hre
            intro p hp
            rw [ih.flag, hflag, hp]
            rfl
        · rw [if_pos hde, if_neg hre] at hplan
          subst hplan
          exact Or.inl hk1
      · rw [if_neg hde] at hplan
        subst hplan
        exact Or.inl hk1
    · exact Or.inr hk1

/-- What the planning loop leaves. -/
theorem plan_edges_post :
    ∀ (es : List Nat) (h : Heap) (plan : plan_t),
      PlanPost h es plan (plan_edges h es plan).1 (plan_edges h es plan).2
  | [], h, plan => planPost_nil h plan
  | e :: es, h, plan => by
    rw [plan_edges_cons]
    exact planPost_cons h _ _ plan _ _ e es (plan_add_edge_node h plan e)
      (plan_add_edge_same h plan e) (plan_add_edge_flag h plan e) (plan_add_edge_plan h plan e)
      (plan_edges_post es _ _)

theorem plan_edges_length (h : Heap) (es : List Nat) :
    (plan_edges h es plan_create).2.ready.length + (plan_edges h es plan_create).2.pending.length
      ≤ es.length := by
  have hp := (plan_edges_post es h plan_create).perm.length_eq
  have h0 : plan_create.ready.length = 0 := rfl
  have h1 : plan_create.pending.length = 0 := rfl
  simp only [List.length_append, h0, h1] at hp
  have := List.length_filter_le (fun e => edge_dirty h e) es
  omega

/-! ## The log of the execute loop -/

theorem execute_loop_log (sys : Sys W) (fuel : Nat) (w : W) (h : Heap) (plan : plan_t)
    (out : loop_result W) (hrun : execute_loop sys fuel w h plan = some out) :
    (out.ok = true → ∀ x ∈ out.log, x.2 = true) ∧
    (out.ok = false → ∃ pre e, out.log = pre ++ [(e, false)] ∧ ∀ x ∈ pre, x.2 = true) := by
  refine execute_loop_induction sys
    (fun _ _ _ out => (out.ok = true → ∀ x ∈ out.log, x.2 = true) ∧
      (out.ok = false → ∃ pre e, out.log = pre ++ [(e, false)] ∧ ∀ x ∈ pre, x.2 = true))
    ?_ ?_ ?_ fuel w h plan out hrun
  · intro w h plan _
    exact ⟨fun _ x hx => by simp at hx, fun hok => by simp at hok⟩
  · intro w h r e pend _
    exact ⟨fun hok => by simp at hok, fun _ => ⟨[], e, rfl, fun x hx => by simp at hx⟩⟩
  · intro w h r e pend out _ ih
    refine ⟨fun hok x hx => ?_, fun hok => ?_⟩
    · rcases List.mem_cons.1 hx with hx | hx
      · rw [hx]
      · exact ih.1 hok x hx
    · obtain ⟨pre, e', hl, hpre⟩ := ih.2 hok
      refine ⟨(e, true) :: pre, e', by simp [hl], fun x hx => ?_⟩
      rcases List.mem_cons.1 hx with hx | hx
      · rw [hx]
      · exact hpre x hx

theorem log_shape {l pre : List (Nat × Bool)} {e : Nat} (hl : l = pre ++ [(e, false)])
    (hpre : ∀ x ∈ pre, x.2 = true) (k e' : Nat) (hk : l[k]? = some (e', false)) :
    l.length = k + 1 ∧ ∀ j, j < k → ∃ e'', l[j]? = some (e'', true) := by
  subst hl
  have hlen : k < (pre ++ [(e, false)]).length := by
    rcases Nat.lt_or_ge k (pre ++ [(e, false)]).length with hlt | hge
    · exact hlt
    · rw [List.getElem?_eq_none hge] at hk
      cases hk
  simp only [List.length_append, List.length_singleton] at hlen ⊢
  have hkp : ¬ k < pre.length := by
    intro hlt
    rw [List.getElem?_append_left hlt, List.getElem?_eq_getElem hlt] at hk
    have := hpre _ (List.getElem_mem hlt)
    simp only [Option.some.injEq] at hk
    rw [hk] at this
    cases this
  refine ⟨by omega, fun j hj => ?_⟩
  have hjp : j < pre.length := by omega
  rw [List.getElem?_append_left hjp, List.getElem?_eq_getElem hjp]
  refine ⟨pre[j].1, ?_⟩
  have := hpre _ (List.getElem_mem hjp)
  rw [← this]

theorem build_of_dirty (sys : Sys W) (w : W) (fuel : Nat) (h h1 : Heap) (s : state_t)
    (target : Nat) (out : loop_result W)
    (hs : recompute_dirty sys w fuel h target = some (true, h1))
    (hd : (h1.node target).dirty = true)
    (hl : execute_loop sys fuel w (plan_edges h1 s.edges plan_create).1
      (plan_edges h1 s.edges plan_create).2 = some out) :
    build sys fuel w h s target =
      some ⟨out.ok && decide (out.plan.pending = []), out.heap, out.world, out.log⟩ := by
  simp only [build, hs, hd, hl]
  cases hok : out.ok with
  | false => simp
  | true =>
    cases hp : out.plan.pending with
    | nil => simp
    | cons a l => simp

/-- The call of `build` returns when its scan does: with fuel for one iteration
per edge of the edge list, the execute loop has a result. -/
theorem build_terminates (sys : Sys W) (w : W) (fuel : Nat) (h : Heap) (s : state_t)
    (target : Nat) (hscan : (recompute_dirty sys w fuel h target).isSome = true)
    (hfuel : s.edges.length ≤ fuel) :
    ∃ r, build sys fuel w h s target = some r := by
  cases hs : recompute_dirty sys w fuel h target with
  | none => rw [hs] at hscan; cases hscan
  | some bh =>
    obtain ⟨b, h1⟩ := bh
    cases b with
    | false => exact ⟨⟨false, h1, w, []⟩, by simp [build, hs]⟩
    | true =>
      cases hd : (h1.node target).dirty with
      | false => exact ⟨_, build_of_clean sys w fuel h h1 s target hs hd⟩
      | true =>
        obtain ⟨out, hl⟩ := execute_loop_terminates sys fuel w
          (plan_edges h1 s.edges plan_create).1 (plan_edges h1 s.edges plan_create).2
          (le_trans (plan_edges_length h1 s.edges) hfuel)
        exact ⟨_, build_of_dirty sys w fuel h h1 s target out hs hd hl⟩

/-- The log of a call of `build`: when it returned true every logged call of
`execute_edge` returned true, and a logged call that returned false is the last
of the log. -/
theorem build_log (sys : Sys W) (w : W) (fuel : Nat) (h : Heap) (s : state_t) (target : Nat)
    (r : build_result W) (hb : build sys fuel w h s target = some r) :
    (r.ok = true → ∀ x ∈ r.log, x.2 = true) ∧
    ∀ k e, r.log[k]? = some (e, false) →
      r.ok = false ∧ r.log.length = k + 1 ∧ ∀ j, j < k → ∃ e', r.log[j]? = some (e', true) := by
  cases hs : recompute_dirty sys w fuel h target with
  | none => simp [build, hs] at hb
  | some bh =>
    obtain ⟨b, h1⟩ := bh
    cases b with
    | false =>
      simp only [build, hs, Option.some.injEq] at hb
      subst hb
      exact ⟨fun _ x hx => by simp at hx, fun k e hk => by simp at hk⟩
    | true =>
      cases hd : (h1.node target).dirty with
      | false =>
        rw [build_of_clean sys w fuel h h1 s target hs hd] at hb
        simp only [Option.some.injEq] at hb
        subst hb
        exact ⟨fun _ x hx => by simp at hx, fun k e hk => by simp at hk⟩
      | true =>
        cases hl : execute_loop sys fuel w (plan_edges h1 s.edges plan_create).1
            (plan_edges h1 s.edges plan_create).2 with
        | none => simp [build, hs, hd, hl] at hb
        | some out =>
          rw [build_of_dirty sys w fuel h h1 s target out hs hd hl] at hb
          simp only [Option.some.injEq] at hb
          subst hb
          obtain ⟨p1, p2⟩ := execute_loop_log sys fuel w _ _ out hl
          refine ⟨fun hok => p1 (by simp at hok; exact hok.1), fun k e hk => ?_⟩
          cases hok : out.ok with
          | true =>
            have := p1 hok _ (List.getElem?_mem hk)
            cases this
          | false =>
            obtain ⟨pre, e', hlog, hpre⟩ := p2 hok
            exact ⟨by simp, log_shape hlog hpre k e hk⟩

/-- C9: when the scan of `build` returns, `build` returns, and a call of
`execute_edge` that returned false (its command failed) is terminal: `build`
returns false, that call is the last of the log (nothing is executed after it
and the edge is not retried), and every call before it returned true. -/
theorem C9_command_failure_is_terminal (sys : Sys W) (w : W) (fuel : Nat) (h : Heap)
    (s : state_t) (target : Nat)
    (hscan : (recompute_dirty sys w fuel h target).isSome = true)
    (hfuel : s.edges.length ≤ fuel) :
    ∃ r, build sys fuel w h s target = some r ∧
      ∀ k e, r.log[k]? = some (e, false) →
        r.ok = false ∧ r.log.length = k + 1 ∧
        ∀ j, j < k → ∃ e', r.log[j]? = some (e', true) := by
  obtain ⟨r, hb⟩ := build_terminates sys w fuel h s target hscan hfuel
  exact ⟨r, hb, (build_log sys w fuel h s target r hb).2⟩

theorem C9_witness :
    (recompute_dirty fail_sys [("in.c", 3)] 2 cc_heap 0).isSome = true ∧
    cc_state.edges.length ≤ 2 ∧
    ∃ r, build fail_sys 2 [("in.c", 3)] cc_heap cc_state 0 = some r ∧
      ∀ k e, r.log[k]? = some (e, false) →
        r.ok = false ∧ r.log.length = k + 1 ∧
        ∀ j, j < k → ∃ e', r.log[j]? = some (e', true) :=
  ⟨by decide, by decide,
    C9_command_failure_is_terminal fail_sys [("in.c", 3)] 2 cc_heap cc_state 0 (by decide)
      (by decide)⟩

/-! ## The ready list is a stack -/

theorem execute_loop_mono (sys : Sys W) :
    ∀ (fuel : Nat) (w : W) (h : Heap) (plan : plan_t) (out : loop_result W),
      execute_loop sys fuel w h plan = some out → execute_loop sys (fuel + 1) w h plan = some out := by
  intro fuel
  induction fuel with
  | zero =>
    intro w h plan out hrun
    obtain ⟨ready, pend⟩ := plan
    rcases List.eq_nil_or_concat ready with hr | ⟨r, e, hr⟩ <;>
      try rw [List.concat_eq_append] at hr
    · rw [execute_loop_nil sys _ w h _ hr] at hrun ⊢
      exact hrun
    · subst hr
      rw [execute_loop_zero] at hrun
      cases hrun
  | succ fuel ih =>
    intro w h plan out hrun
    obtain ⟨ready, pend⟩ := plan
    rcases List.eq_nil_or_concat ready with hr | ⟨r, e, hr⟩ <;>
      try rw [List.concat_eq_append] at hr
    · rw [execute_loop_nil sys _ w h _ hr] at hrun ⊢
      exact hrun
    · subst hr
      rw [execute_loop_succ] at hrun ⊢
      cases hb : (execute_edge sys w h e).ok with
      | false =>
        rw [if_pos hb] at hrun
        rw [if_pos rfl]
        exact hrun
      | true =>
        rw [hb, if_neg (by simp)] at hrun
        rw [if_neg (by simp)]
        cases hsub : execute_loop sys fuel (execute_edge sys w h e).world
            (execute_edge sys w h e).heap
            (plan_update_ready (execute_edge sys w h e).heap ⟨r, pend⟩) with
        | none => rw [hsub] at hrun; cases hrun
        | some out' =>
          rw [hsub] at hrun
          rw [ih _ _ _ _ hsub]
          exact hrun

theorem execute_loop_mono_le (sys : Sys W) (fuel fuel' : Nat) (w : W) (h : Heap)
    (plan : plan_t) (out : loop_result W) (hrun : execute_loop sys fuel w h plan = some out)
    (hle : fuel ≤ fuel') : execute_loop sys fuel' w h plan = some out := by
  induction hle with
  | refl => exact hrun
  | step _ ih => exact execute_loop_mono sys _ w h plan out ih

theorem plan_update_ready_append (h : Heap) (r r2 pend : List Nat) :
    plan_update_ready h ⟨r ++ r2, pend⟩ =
      ⟨r ++ (plan_update_ready h ⟨r2, pend⟩).ready, (plan_update_ready h ⟨r2, pend⟩).pending⟩ := by
  simp [plan_update_ready_eq]

/-- The stack discipline of the execute loop: the loop started with `r ++ r2`
in `ready` first does all that the loop started with `r2` does, and touches the
edges of `r` only when that loop has run to its end. -/
theorem execute_loop_stack (sys : Sys W) (fuel : Nat) (w : W) (h : Heap) (plan : plan_t)
    (out2 : loop_result W) (hrun : execute_loop sys fuel w h plan = some out2) (r : List Nat) :
    (out2.ok = false → ∃ f, execute_loop sys f w h ⟨r ++ plan.ready, plan.pending⟩ =
      some { out2 with plan := ⟨r ++ out2.plan.ready, out2.plan.pending⟩ }) ∧
    (out2.ok = true → ∀ f1 out1,
      execute_loop sys f1 out2.world out2.heap ⟨r, out2.plan.pending⟩ = some out1 →
      ∃ f, execute_loop sys f w h ⟨r ++ plan.ready, plan.pending⟩ =
        some { out1 with log := out2.log ++ out1.log }) := by
  refine execute_loop_induction sys
    (fun w h plan out2 =>
      (out2.ok = false → ∃ f, execute_loop sys f w h ⟨r ++ plan.ready, plan.pending⟩ =
        some { out2 with plan := ⟨r ++ out2.plan.ready, out2.plan.pending⟩ }) ∧
      (out2.ok = true → ∀ f1 out1,
        execute_loop sys f1 out2.world out2.heap ⟨r, out2.plan.pending⟩ = some out1 →
        ∃ f, execute_loop sys f w h ⟨r ++ plan.ready, plan.pending⟩ =
          some { out1 with log := out2.log ++ out1.log }))
    ?_ ?_ ?_ fuel w h plan out2 hrun
  · intro w h plan hr
    refine ⟨fun hok => by simp at hok, fun _ f1 out1 h1 => ⟨f1, ?_⟩⟩
    rw [hr, List.append_nil]
    simpa using h1
  · intro w h r2 e pend hb
    refine ⟨fun _ => ⟨1, ?_⟩, fun hok => by simp at hok⟩
    rw [← List.append_assoc, execute_loop_succ, if_pos hb]
  · intro w h r2 e pend out hb ih
    have hplan : plan_update_ready (execute_edge sys w h e).heap ⟨r ++ r2, pend⟩ =
        ⟨r ++ (plan_update_ready (execute_edge sys w h e).heap ⟨r2, pend⟩).ready,
          (plan_update_ready (execute_edge sys w h e).heap ⟨r2, pend⟩).pending⟩ :=
      plan_update_ready_append _ r r2 pend
    refine ⟨fun hok => ?_, fun hok f1 out1 h1 => ?_⟩
    · obtain ⟨f, hf⟩ := ih.1 hok
      refine ⟨f + 1, ?_⟩
      rw [← List.append_assoc, execute_loop_succ, if_neg (by simp [hb]), hplan, hf]
      rfl
    · obtain ⟨f, hf⟩ := ih.2 hok f1 out1 h1
      refine ⟨f + 1, ?_⟩
      rw [← List.append_assoc, execute_loop_succ, if_neg (by simp [hb]), hplan, hf]
      rfl

theorem execute_loop_first (sys : Sys W) (fuel : Nat) (w : W) (h : Heap) (r pend : List Nat)
    (e : Nat) (out : loop_result W)
    (hrun : execute_loop sys fuel w h ⟨r ++ [e], pend⟩ = some out) :
    ∃ b rest, out.log = (e, b) :: rest := by
  cases fuel with
  | zero => rw [execute_loop_zero] at hrun; cases hrun
  | succ fuel =>
    rw [execute_loop_succ] at hrun
    cases hb : (execute_edge sys w h e).ok with
    | false =>
      rw [if_pos hb] at hrun
      cases hrun
      exact ⟨false, [], rfl⟩
    | true =>
      rw [if_neg (by simp [hb])] at hrun
      cases hsub : execute_loop sys fuel (execute_edge sys w h e).world
          (execute_edge sys w h e).heap
          (plan_update_ready (execute_edge sys w h e).heap ⟨r, pend⟩) with
      | none => rw [hsub] at hrun; cases hrun
      | some out' =>
        rw [hsub] at hrun
        cases hrun
        exact ⟨true, out'.log, rfl⟩

/-- C10: the ready list is a stack.  (1) Every iteration of the execute loop
executes the last element of `ready`.  (2) After the planning loop `ready` is in
edge-list order, so the first edge `build` executes is the last edge of the edge
list that was dirty and ready at plan construction.  (3) `plan_update_ready`
puts the edges it moves after the older edges of `ready`, and (4) the loop
started with `older ++ newer` in `ready` first does all that the loop started
with `newer` does (on a failure it stops there, with `older` still in `ready`),
and executes the edges of `older` only after that. -/
theorem C10_ready_is_lifo (sys : Sys W) :
    (∀ (fuel : Nat) (w : W) (h : Heap) (r pend : List Nat) (e : Nat) (out : loop_result W),
      execute_loop sys fuel w h ⟨r ++ [e], pend⟩ = some out →
      ∃ b rest, out.log = (e, b) :: rest) ∧
    (∀ (fuel : Nat) (w : W) (h h1 : Heap) (s : state_t) (target : Nat) (res : build_result W)
      (r : List Nat) (e : Nat),
      recompute_dirty sys w fuel h target = some (true, h1) →
      (h1.node target).dirty = true →
      (plan_edges h1 s.edges plan_create).2.ready = r ++ [e] →
      build sys fuel w h s target = some res →
      (r ++ [e]).Sublist s.edges ∧ ∃ b rest, res.log = (e, b) :: rest) ∧
    (∀ (h : Heap) (older pend : List Nat),
      (plan_update_ready h ⟨older, pend⟩).ready =
        older ++ pend.filter (fun e => edge_all_inputs_ready h e)) ∧
    (∀ (fuel : Nat) (w : W) (h : Heap) (older newer pend : List Nat) (out2 : loop_result W),
      execute_loop sys fuel w h ⟨newer, pend⟩ = some out2 →
      (out2.ok = false → ∃ f, execute_loop sys f w h ⟨older ++ newer, pend⟩ =
        some { out2 with plan := ⟨older ++ out2.plan.ready, out2.plan.pending⟩ }) ∧
      (out2.ok = true → ∀ f1 out1,
        execute_loop sys f1 out2.world out2.heap ⟨older, out2.plan.pending⟩ = some out1 →
        ∃ f, execute_loop sys f w h ⟨older ++ newer, pend⟩ =
          some { out1 with log := out2.log ++ out1.log })) := by
  refine ⟨fun fuel w h r pend e out hrun => execute_loop_first sys fuel w h r pend e out hrun,
    ?_, fun h older pend => by rw [plan_update_ready_eq], ?_⟩
  · intro fuel w h h1 s target res r e hs hd hready hb
    obtain ⟨A, hA, hsub⟩ := (plan_edges_post s.edges h1 plan_create).ready_sub
    have hA' : A = r ++ [e] := by
      rw [hready] at hA
      simpa [plan_create] using hA.symm
    refine ⟨hA' ▸ hsub, ?_⟩
    cases hl : execute_loop sys fuel w (plan_edges h1 s.edges plan_create).1
        (plan_edges h1 s.edges plan_create).2 with
    | none => simp [build, hs, hd, hl] at hb
    | some out =>
      rw [build_of_dirty sys w fuel h h1 s target out hs hd hl] at hb
      simp only [Option.some.injEq] at hb
      subst hb
      have hplan : (plan_edges h1 s.edges plan_create).2 =
          ⟨r ++ [e], (plan_edges h1 s.edges plan_create).2.pending⟩ := by
        rw [← hready]
      rw [hplan] at hl
      exact execute_loop_first sys fuel w _ r _ e out hl
  · intro fuel w h older newer pend out2 hrun
    exact execute_loop_stack sys fuel w h ⟨newer, pend⟩ out2 hrun older

set_option maxRecDepth 100000 in
/-- The plan of `build` on `lifo_graph`: `A` and `B` are ready, in edge-list
order, and `C` and `T` are pending. -/
theorem lifo_plan_eq :
    lifo_graph.2.edges = [0, 1, 2, 3] ∧ (lifo_scan.node 5).dirty = true ∧
    (plan_edges lifo_scan lifo_graph.2.edges plan_create).2.ready = [0] ++ [1] ∧
    lifo_plan.2.pending = [2, 3] := by
  decide

set_option maxRecDepth 100000 in
/-- The order in which the execute loop runs the edges of `lifo_graph`: `B`,
the ready edge added last, then `C`, which `plan_update_ready` moved to ready
after `B`, then the older ready edge `A`, then `T`. -/
theorem lifo_logs :
    lifo_out.log = [(1, true), (2, true), (0, true), (3, true)] ∧
    lifo_build.log = [(1, true), (2, true), (0, true), (3, true)] ∧
    lifo_newer.ok = true ∧ lifo_newer.log = [(1, true), (2, true)] ∧
    lifo_newer.plan.pending = [3] ∧ lifo_older.log = [(0, true), (3, true)] := by
  decide

set_option maxRecDepth 100000 in
/-- After `B` has run, `plan_update_ready` puts `C` behind the older edge `A`
in ready and leaves `T` pending. -/
theorem lifo_moved :
    (plan_update_ready (execute_edge files_sys lifo_files lifo_plan.1 1).heap
      ⟨[0], [2, 3]⟩).ready = [0, 2] ∧
    (plan_update_ready (execute_edge files_sys lifo_files lifo_plan.1 1).heap
      ⟨[0], [2, 3]⟩).pending = [3] := by
  decide

set_option maxRecDepth 100000 in
/-- The scan, the build and the loops on `lifo_graph` return. -/
theorem lifo_runs :
    recompute_dirty files_sys lifo_files 5 lifo_graph.1 5 = some (true, lifo_scan) ∧
    build files_sys 5 lifo_files lifo_graph.1 lifo_graph.2 5 = some lifo_build ∧
    execute_loop files_sys 5 lifo_files lifo_plan.1 ⟨[0] ++ [1], [2, 3]⟩ = some lifo_out ∧
    execute_loop files_sys 5 lifo_files lifo_plan.1 ⟨[1], [2, 3]⟩ = some lifo_newer ∧
    execute_loop files_sys 5 lifo_newer.world lifo_newer.heap ⟨[0], lifo_newer.plan.pending⟩ =
      some lifo_older :=
  ⟨rfl, rfl, rfl, rfl, rfl⟩

/-- C10 on `lifo_graph` (`a: x | A`, `b: y | B`, `c: b | C`, `t: a c | T`, only
`x` and `y` on disk, every command succeeding).  After planning, ready is
`[A, B]` and pending is `[C, T]`.  The loop runs `B` first, the ready edge added
last (parts 1 and 2); after `B`, `plan_update_ready` moves `C` behind `A`
(part 3), and `C` runs before `A`; the loop started with `[A] ++ [B]` does what
the loop started with `[B]` does, log `[B, C]`, and then what the loop started
with `[A]` does, log `[A, T]` (part 4). -/
theorem C10_witness :
    lifo_graph.2.edges = [0, 1, 2, 3] ∧
    (plan_edges lifo_scan lifo_graph.2.edges plan_create).2.ready = [0] ++ [1] ∧
    lifo_plan.2.pending = [2, 3] ∧
    execute_loop files_sys 5 lifo_files lifo_plan.1 ⟨[0] ++ [1], [2, 3]⟩ = some lifo_out ∧
    lifo_out.log = [(1, true), (2, true), (0, true), (3, true)] ∧
    (∃ b rest, lifo_out.log = (1, b) :: rest) ∧
    recompute_dirty files_sys lifo_files 5 lifo_graph.1 5 = some (true, lifo_scan) ∧
    (lifo_scan.node 5).dirty = true ∧
    build files_sys 5 lifo_files lifo_graph.1 lifo_graph.2 5 = some lifo_build ∧
    lifo_build.log = [(1, true), (2, true), (0, true), (3, true)] ∧
    (([0] ++ [1]).Sublist lifo_graph.2.edges ∧ ∃ b rest, lifo_build.log = (1, b) :: rest) ∧
    (plan_update_ready (execute_edge files_sys lifo_files lifo_plan.1 1).heap
      ⟨[0], [2, 3]⟩).ready =
      [0] ++ [2, 3].filter (fun e =>
        edge_all_inputs_ready (execute_edge files_sys lifo_files lifo_plan.1 1).heap e) ∧
    (plan_update_ready (execute_edge files_sys lifo_files lifo_plan.1 1).heap
      ⟨[0], [2, 3]⟩).ready = [0, 2] ∧
    execute_loop files_sys 5 lifo_files lifo_plan.1 ⟨[1], [2, 3]⟩ = some lifo_newer ∧
    lifo_newer.ok = true ∧ lifo_newer.log = [(1, true), (2, true)] ∧
    execute_loop files_sys 5 lifo_newer.world lifo_newer.heap ⟨[0], lifo_newer.plan.pending⟩ =
      some lifo_older ∧
    lifo_older.log = [(0, true), (3, true)] ∧
    ∃ f, execute_loop files_sys f lifo_files lifo_plan.1 ⟨[0] ++ [1], [2, 3]⟩ =
      some { lifo_older with log := lifo_newer.log ++ lifo_older.log } :=
  ⟨lifo_plan_eq.1, lifo_plan_eq.2.2.1, lifo_plan_eq.2.2.2, lifo_runs.2.2.1, lifo_logs.1,
    (C10_ready_is_lifo files_sys).1 5 lifo_files lifo_plan.1 [0] [2, 3] 1 lifo_out
      lifo_runs.2.2.1,
    lifo_runs.1, lifo_plan_eq.2.1, lifo_runs.2.1, lifo_logs.2.1,
    (C10_ready_is_lifo files_sys).2.1 5 lifo_files lifo_graph.1 lifo_scan lifo_graph.2 5
      lifo_build [0] 1 lifo_runs.1 lifo_plan_eq.2.1 lifo_plan_eq.2.2.1 lifo_runs.2.1,
    (C10_ready_is_lifo files_sys).2.2.1
      (execute_edge files_sys lifo_files lifo_plan.1 1).heap [0] [2, 3],
    lifo_moved.1, lifo_runs.2.2.2.1, lifo_logs.2.2.1, lifo_logs.2.2.2.1, lifo_runs.2.2.2.2,
    lifo_logs.2.2.2.2.2,
    ((C10_ready_is_lifo files_sys).2.2.2 5 lifo_files lifo_plan.1 [0] [1] [2, 3] lifo_newer
      lifo_runs.2.2.2.1).2 lifo_logs.2.2.1 5 lifo_older lifo_runs.2.2.2.2⟩

/-! ## What the execute loop leaves -/

theorem execute_edge_frame (sys : Sys W) (w : W) (h : Heap) (e : Nat) :
    SameGraph h (execute_edge sys w h e).heap ∧
    (∀ n, ((execute_edge sys w h e).heap.node n).dirty = (h.node n).dirty) ∧
    (∀ k, (h.edge k).outputs_ready = true →
      ((execute_edge sys w h e).heap.edge k).outputs_ready = true) ∧
    ((execute_edge sys w h e).ok = true →
      ((execute_edge sys w h e).heap.edge e).outputs_ready = true) := by
  by_cases hr : (sys.system w (h.edge e).command).1 = 0
  · obtain ⟨_, _, he, hn⟩ := execute_edge_ok sys w h e hr
    refine ⟨⟨?_, ?_, ?_, ?_, ?_, ?_⟩, ?_, ?_, ?_⟩
    · intro n; rw [hn]; split <;> rfl
    · intro n; rw [hn]; split <;> rfl
    · intro n; rw [hn]; split <;> rfl
    · intro k; rw [he]; split <;> rfl
    · intro k; rw [he]; split <;> rfl
    · intro k; rw [he]; split <;> rfl
    · intro n; rw [hn]; split <;> rfl
    · intro k hk; rw [he]; split
      · rfl
      · exact hk
    · intro _; rw [he, if_pos rfl]
  · rw [execute_edge_fail sys w h e hr]
    exact ⟨SameGraph.refl h, fun _ => rfl, fun _ hk => hk, fun hok => by simp at hok⟩

theorem filter_perm_split (p : Nat → Bool) (l : List Nat) :
    (l.filter p ++ l.filter (fun e => !p e)).Perm l := by
  induction l with
  | nil => simp
  | cons a l ih =>
    cases hp : p a with
    | true =>
      simp only [List.filter_cons, hp, if_true, Bool.not_true, Bool.false_eq_true, if_false,
        List.cons_append]
      exact ih.cons a
    | false =>
      simp only [List.filter_cons, hp, Bool.false_eq_true, if_false, Bool.not_false, if_true]
      exact List.perm_middle.trans (ih.cons a)

/-- What the execute loop leaves. -/
theorem execute_loop_post (sys : Sys W) (fuel : Nat) (w : W) (h : Heap) (plan : plan_t)
    (out : loop_result W) (hrun : execute_loop sys fuel w h plan = some out) :
    LoopPost w h plan out := by
  refine execute_loop_induction sys (fun w h plan out => LoopPost w h plan out)
    ?_ ?_ ?_ fuel w h plan out hrun
  · intro w h plan hr
    exact ⟨SameGraph.refl h, fun _ => rfl, fun _ hk => hk, by simp, fun _ => hr,
      fun _ e he => by simp at he, fun _ => Or.inl ⟨rfl, rfl, rfl, rfl⟩⟩
  · intro w h r e pend hb
    obtain ⟨f1, f2, f3, _⟩ := execute_edge_frame sys w h e
    refine ⟨f1, f2, f3, ?_, fun hok => by simp at hok, fun hok => by simp at hok,
      fun hok => by simp at hok⟩
    simp only [List.map_cons, List.map_nil, List.singleton_append, List.append_assoc]
    exact (@List.perm_middle _ e r pend).symm
  · intro w h r e pend out hb ih
    obtain ⟨f1, f2, f3, f4⟩ := execute_edge_frame sys w h e
    have hplan := plan_update_ready_eq (execute_edge sys w h e).heap ⟨r, pend⟩
    refine ⟨f1.comp ih.same, fun n => (ih.dirty n).trans (f2 n),
      fun k hk => ih.mono k (f3 k hk), ?_, ih.ready_nil, ?_, fun hok => Or.inr ⟨by simp, ?_⟩⟩
    · have h1 := ih.perm
      rw [hplan] at h1
      simp only [List.map_cons, List.cons_append, List.append_assoc] at h1 ⊢
      refine ((h1.trans ?_).cons e).trans
        (@List.perm_middle _ e r pend).symm
      exact (filter_perm_split _ pend).append_left r
    · intro hok k hk
      simp only [List.map_cons, List.mem_cons] at hk
      rcases hk with hk | hk
      · subst hk
        exact ih.mono k (f4 hb)
      · exact ih.done hok k hk
    · rcases ih.stuck hok with ⟨_, hh, hp, _⟩ | ⟨_, hs⟩
      · intro k hk
        show edge_all_inputs_ready out.heap k = false
        rw [hp, hplan] at hk
        rw [hh]
        simp only [List.mem_filter] at hk
        simpa using hk.2
      · exact hs

/-! ## No dirty edge is left behind -/

theorem rank_lt_edge_rank (h : Heap) (rank : Nat → Nat) {e i : Nat}
    (hi : i ∈ (h.edge e).inputs) : rank i < edge_rank h rank e :=
  Nat.lt_of_succ_le ((le_foldl_max (fun i => rank i + 1) (h.edge e).inputs 0).2 i hi)

theorem edge_rank_le {h : Heap} {rank : Nat → Nat} (r : Ranked h rank) {i p : Nat}
    (hin : (h.node i).in_edge = some p) : edge_rank h rank p ≤ rank i :=
  foldl_max_le (fun j => rank j + 1) (rank i) (h.edge p).inputs 0 (Nat.zero_le _)
    (fun j hj => r i j ⟨p, hin, hj⟩)

theorem not_ready_input {h : Heap} {e : Nat} (hr : edge_all_inputs_ready h e = false) :
    ∃ i ∈ (h.edge e).inputs, ∃ p, (h.node i).in_edge = some p ∧
      (h.edge p).outputs_ready = false := by
  unfold edge_all_inputs_ready at hr
  rw [List.all_eq_false] at hr
  obtain ⟨i, hi, hn⟩ := hr
  refine ⟨i, hi, ?_⟩
  cases hin : (h.node i).in_edge with
  | none => rw [hin] at hn; simp at hn
  | some p =>
    rw [hin] at hn
    exact ⟨p, rfl, by simpa using hn⟩

theorem ready_of_inputs {h : Heap} {e : Nat}
    (hr : ∀ i ∈ (h.edge e).inputs, ∀ p, (h.node i).in_edge = some p →
      (h.edge p).outputs_ready = true) : edge_all_inputs_ready h e = true := by
  unfold edge_all_inputs_ready
  rw [List.all_eq_true]
  intro i hi
  cases hin : (h.node i).in_edge with
  | none => rfl
  | some p => exact hr i hi p hin

/-- After the scan of a fresh graph, among the edges that produce a dirty node
one has all its inputs ready. -/
theorem scan_dirty_ready (h h1 : Heap) (rank : Nat → Nat) (target fuel : Nat)
    (hrank : Ranked h rank) (hsame : SameGraph h h1) (hfuel : rank target < fuel)
    (hready : ∀ e, (h1.edge e).outputs_ready =
      match last_scanned h (scan_order h fuel target) e with
      | some m => !(h1.node m).dirty
      | none => false) :
    ∀ (k E n : Nat), edge_rank h rank E < k → Reach h target n → (h1.node n).dirty = true →
      (h.node n).in_edge = some E →
      ∃ E' n', Reach h target n' ∧ (h1.node n').dirty = true ∧ (h.node n').in_edge = some E' ∧
        edge_all_inputs_ready h1 E' = true
  | 0, _, _, hk, _, _, _ => absurd hk (Nat.not_lt_zero _)
  | k + 1, E, n, hk, hn, hd, hin => by
    cases hr : edge_all_inputs_ready h1 E with
    | true => exact ⟨E, n, hn, hd, hin, hr⟩
    | false =>
      obtain ⟨i, hi, p, hip, hp⟩ := not_ready_input hr
      rw [hsame.inputs] at hi
      rw [hsame.in_edge] at hip
      have hri : Reach h target i := Relation.ReflTransGen.tail hn ⟨E, hin, hi⟩
      obtain ⟨m, hm⟩ := last_scanned_isSome (reach_mem_scan_order hrank fuel target i hfuel hri) hip
      rw [hready p, hm] at hp
      obtain ⟨hmo, hmin⟩ := mem_of_last_scanned hm
      have hlt : edge_rank h rank p < k :=
        lt_of_le_of_lt (edge_rank_le hrank hip)
          (lt_of_lt_of_le (rank_lt_edge_rank h rank hi) (Nat.lt_succ_iff.1 hk))
      exact scan_dirty_ready h h1 rank target fuel hrank hsame hfuel hready k p m hlt
        (mem_scan_order fuel target m hmo) (by simpa using hp) hmin

theorem edge_dirty_iff {h : Heap} {e : Nat} :
    edge_dirty h e = true ↔ ∃ o ∈ (h.edge e).outputs, (h.node o).dirty = true := by
  simp [edge_dirty, List.any_eq_true]

/-- After the scan of a fresh graph, when some edge of the list has a dirty
output, some edge of the list has a dirty output and all its inputs ready. -/
theorem dirty_edge_ready_of_mem (h h1 : Heap) (s : state_t) (rank : Nat → Nat)
    (target fuel : Nat) (hrank : Ranked h rank) (hb : Built h)
    (hl : ∀ n e, (h.node n).in_edge = some e → e ∈ s.edges) (hsame : SameGraph h h1)
    (hfuel : rank target < fuel)
    (hclean : ∀ n, ¬ Reach h target n → (h1.node n).dirty = false)
    (hready : ∀ e, (h1.edge e).outputs_ready =
      match last_scanned h (scan_order h fuel target) e with
      | some m => !(h1.node m).dirty
      | none => false)
    (e0 : Nat) (hd0 : edge_dirty h1 e0 = true) :
    ∃ E, E ∈ s.edges ∧ edge_dirty h1 E = true ∧ edge_all_inputs_ready h1 E = true := by
  obtain ⟨o, ho, hdo⟩ := edge_dirty_iff.1 hd0
  rw [hsame.outputs] at ho
  have hro : Reach h target o := by
    by_contra hn
    rw [hclean o hn] at hdo
    cases hdo
  cases hin : (h.node o).in_edge with
  | none => exact absurd hin (hb.2 e0 o ho)
  | some E0 =>
    obtain ⟨E, n, hn, hd, hnE, hr⟩ := scan_dirty_ready h h1 rank target fuel hrank hsame hfuel
      hready (edge_rank h rank E0 + 1) E0 o (Nat.lt_succ_self _) hro hdo hin
    refine ⟨E, hl n E hnE, edge_dirty_iff.2 ⟨n, ?_, hd⟩, hr⟩
    rw [hsame.outputs]
    exact hb.1 n E hnE

/-- The same for an edge list that holds each edge once. -/
theorem dirty_edge_ready (h h1 : Heap) (s : state_t) (rank : Nat → Nat) (target fuel : Nat)
    (hrank : Ranked h rank) (hb : Built h) (hl : Listed h s) (hsame : SameGraph h h1)
    (hfuel : rank target < fuel)
    (hclean : ∀ n, ¬ Reach h target n → (h1.node n).dirty = false)
    (hready : ∀ e, (h1.edge e).outputs_ready =
      match last_scanned h (scan_order h fuel target) e with
      | some m => !(h1.node m).dirty
      | none => false)
    (e0 : Nat) (hd0 : edge_dirty h1 e0 = true) :
    ∃ E, E ∈ s.edges ∧ edge_dirty h1 E = true ∧ edge_all_inputs_ready h1 E = true :=
  dirty_edge_ready_of_mem h h1 s rank target fuel hrank hb hl.2 hsame hfuel hclean hready e0 hd0

/-- At the end of a loop that ran to its end on an acyclic graph, when every
edge of the list is ready or pending and every pending edge fails the readiness
test, no edge is pending. -/
theorem pending_nil_of_stuck (h : Heap) (s : state_t) (rank : Nat → Nat) (pending : List Nat)
    (hrank : Ranked h rank) (hl : ∀ n e, (h.node n).in_edge = some e → e ∈ s.edges)
    (hinv : ∀ e ∈ s.edges, (h.edge e).outputs_ready = true ∨ e ∈ pending)
    (hstuck : ∀ e ∈ pending, edge_all_inputs_ready h e = false) : pending = [] := by
  have hall : ∀ (k i p : Nat), rank i < k → (h.node i).in_edge = some p →
      (h.edge p).outputs_ready = true := by
    intro k
    induction k with
    | zero => intro i p hk; exact absurd hk (Nat.not_lt_zero _)
    | succ k ih =>
      intro i p hk hin
      rcases hinv p (hl i p hin) with hr | hp
      · exact hr
      · obtain ⟨i', hi', p', hin', hp'⟩ := not_ready_input (hstuck p hp)
        have := ih i' p' (lt_of_lt_of_le (hrank i i' ⟨p, hin, hi'⟩) (Nat.lt_succ_iff.1 hk)) hin'
        rw [this] at hp'
        cases hp'
  cases hp : pending with
  | nil => rfl
  | cons e l =>
    have he : e ∈ pending := by rw [hp]; exact List.mem_cons_self e l
    have h1 := hstuck e he
    rw [ready_of_inputs (fun i _ p hin => hall (rank i + 1) i p (Nat.lt_succ_self _) hin)] at h1
    cases h1

theorem good_clean_down {h : Heap} {R : Nat → Prop} (g : Good h R) {n : Nat} (hn : R n)
    (hd : (h.node n).dirty = false) : ∀ m, Reach h n m → (h.node m).dirty = false := by
  intro m hr
  induction hr with
  | refl => exact hd
  | @tail a b hab d ih =>
    have hRa : R a := by
      clear ih d
      induction hab with
      | refl => exact hn
      | tail _ d' ih' => exact (g _ ih').2.2 _ d'
    obtain ⟨_, g2, _⟩ := g a hRa
    obtain ⟨e, he, hb⟩ := d
    rw [g2] at ih
    unfold spec_dirty at ih
    rw [he] at ih
    simp only [Bool.or_eq_false_iff, List.any_eq_false] at ih
    simpa using ih.2 b hb

/-- The edges `build` executes on a fresh acyclic graph whose edge list holds
every producing edge: when every executed command succeeds, `build` returns true
and the log holds exactly the entries of the list with a dirty output after the
scan. -/
theorem build_runs_dirty_of_mem (sys : Sys W) (w : W) (h : Heap) (s : state_t)
    (rank : Nat → Nat) (target fuel : Nat) (hrank : Ranked h rank) (hfresh : Fresh h)
    (hb : Built h) (hl : ∀ n e, (h.node n).in_edge = some e → e ∈ s.edges)
    (hfuel : rank target < fuel) (hfuel2 : s.edges.length ≤ fuel) :
    ∃ h1 r, recompute_dirty sys w fuel h target = some (true, h1) ∧
      build sys fuel w h s target = some r ∧
      ((∀ x ∈ r.log, x.2 = true) →
        r.ok = true ∧
        (r.log.map Prod.fst).Perm (s.edges.filter (fun e => edge_dirty h1 e))) := by
  obtain ⟨h1, hrun, hsame, hgood, _, hclean, hready⟩ :=
    scan_fresh sys w h rank hrank hfresh target fuel hfuel
  refine ⟨h1, ?_⟩
  cases hd : (h1.node target).dirty with
  | false =>
    refine ⟨_, hrun, build_of_clean sys w fuel h h1 s target hrun hd, fun _ => ⟨rfl, ?_⟩⟩
    have hnone : ∀ e, edge_dirty h1 e = false := by
      intro e
      cases hde : edge_dirty h1 e with
      | false => rfl
      | true =>
        obtain ⟨o, _, hdo⟩ := edge_dirty_iff.1 hde
        have hro : Reach h target o := by
          by_contra hn
          rw [hclean o hn] at hdo
          cases hdo
        rw [← reach_eq hsame] at hro
        have hg : Good h1 (Reach h1 target) := by rw [reach_eq hsame]; exact hgood
        rw [good_clean_down hg Relation.ReflTransGen.refl hd o hro] at hdo
        cases hdo
    simp [hnone]
  | true =>
    have hpp := plan_edges_post s.edges h1 plan_create
    obtain ⟨out, hloop⟩ := execute_loop_terminates sys fuel w
      (plan_edges h1 s.edges plan_create).1 (plan_edges h1 s.edges plan_create).2
      (le_trans (plan_edges_length h1 s.edges) hfuel2)
    have hlp := execute_loop_post sys fuel w _ _ out hloop
    refine ⟨_, hrun, build_of_dirty sys w fuel h h1 s target out hrun hd hloop, fun hall => ?_⟩
    have hok : out.ok = true := by
      cases hok : out.ok with
      | true => rfl
      | false =>
        obtain ⟨pre, e, hlog, _⟩ := (execute_loop_log sys fuel w _ _ out hloop).2 hok
        have := hall (e, false) (by
          show (e, false) ∈ out.log
          rw [hlog]; simp)
        cases this
    have hperm0 : ((plan_edges h1 s.edges plan_create).2.ready ++
        (plan_edges h1 s.edges plan_create).2.pending).Perm
        (s.edges.filter (fun e => edge_dirty h1 e)) := by
      have := hpp.perm
      simpa [plan_create] using this
    have hs01 : SameGraph h (plan_edges h1 s.edges plan_create).1 := hsame.comp hpp.same
    have hpend : out.plan.pending = [] := by
      rcases hlp.stuck hok with ⟨_, _, hplan, _⟩ | ⟨_, hst⟩
      · have hrn : (plan_edges h1 s.edges plan_create).2.ready = [] := by
          rw [← hplan]; exact hlp.ready_nil hok
        have hnone : ∀ e, edge_dirty h1 e = false := by
          intro e
          cases hde : edge_dirty h1 e with
          | false => rfl
          | true =>
            obtain ⟨E, hE, hdE, hrE⟩ := dirty_edge_ready_of_mem h h1 s rank target fuel hrank hb hl
              hsame hfuel hclean hready e hde
            have := hpp.ready_mem E hE hdE hrE
            rw [hrn] at this
            simp at this
        have hfil : s.edges.filter (fun e => edge_dirty h1 e) = [] := by simp [hnone]
        rw [hfil, hrn] at hperm0
        rw [hplan]
        simpa using hperm0
      · apply pending_nil_of_stuck out.heap s rank out.plan.pending
          (ranked_congr (hs01.comp hlp.same) hrank)
          (fun n e hin => hl n e (by rw [← (hs01.comp hlp.same).in_edge]; exact hin)) ?_ hst
        intro e he
        by_cases hde : edge_dirty h1 e = true
        · have hmem : e ∈ (plan_edges h1 s.edges plan_create).2.ready ++
              (plan_edges h1 s.edges plan_create).2.pending :=
            hperm0.mem_iff.2 (List.mem_filter.2 ⟨he, hde⟩)
          have hmem2 := hlp.perm.mem_iff.2 hmem
          rw [hlp.ready_nil hok, List.append_nil] at hmem2
          rcases List.mem_append.1 hmem2 with hm | hm
          · exact Or.inl (hlp.done hok e hm)
          · exact Or.inr hm
        · left
          apply hlp.mono
          rw [hpp.flag e]
          simp [he, hde]
    refine ⟨by simp [hok, hpend], ?_⟩
    have hp := hlp.perm
    rw [hlp.ready_nil hok, hpend] at hp
    simp only [List.append_nil] at hp
    exact hp.trans hperm0

/-- The edges `build` executes on a fresh acyclic graph whose edge list holds
each edge once: when every executed command succeeds, `build` returns true and
the log holds exactly the edges of the list with a dirty output after the
scan. -/
theorem build_runs_dirty (sys : Sys W) (w : W) (h : Heap) (s : state_t) (rank : Nat → Nat)
    (target fuel : Nat) (hrank : Ranked h rank) (hfresh : Fresh h) (hb : Built h)
    (hl : Listed h s) (hfuel : rank target < fuel) (hfuel2 : s.edges.length ≤ fuel) :
    ∃ h1 r, recompute_dirty sys w fuel h target = some (true, h1) ∧
      build sys fuel w h s target = some r ∧
      ((∀ x ∈ r.log, x.2 = true) →
        r.ok = true ∧
        (r.log.map Prod.fst).Perm (s.edges.filter (fun e => edge_dirty h1 e))) :=
  build_runs_dirty_of_mem sys w h s rank target fuel hrank hfresh hb hl.2 hfuel hfuel2

/-! ## A returning scan, on any graph -/

theorem node_mtime_set_mtime (sys : Sys W) (w : W) (h : Heap) (n m : Nat) :
    node_mtime sys w (h.set_mtime n (node_mtime sys w h n)) m = node_mtime sys w h m := by
  by_cases hmn : m = n
  · subst hmn
    rw [node_mtime_known sys w _ m (by simp; exact node_mtime_ne sys w h m)]
    simp
  · exact node_mtime_congr sys w m (by rw [set_mtime_node_ne _ _ _ _ hmn])
      (by rw [set_mtime_node_ne _ _ _ _ hmn])

theorem callPost_refl (sys : Sys W) (w : W) (h : Heap) (R : Nat → Prop) :
    CallPost sys w h h R :=
  ⟨SameGraph.refl h, fun _ => rfl, fun _ _ => rfl, fun _ _ hs => hs⟩

theorem callPost_seq {sys : Sys W} {w : W} {h h1 h2 : Heap} {R1 R2 : Nat → Prop}
    (a : CallPost sys w h h1 R1) (b : CallPost sys w h1 h2 R2) :
    CallPost sys w h h2 (fun m => R1 m ∨ R2 m) :=
  ⟨a.same.comp b.same, fun m => (b.mtime m).trans (a.mtime m),
    fun m hm => by rw [b.frame m (fun r => hm (Or.inr r)), a.frame m (fun r => hm (Or.inl r))],
    fun n hn hs => b.leaf n (by rw [a.same.in_edge]; exact hn) (a.leaf n hn hs)⟩

theorem callPost_mono {sys : Sys W} {w : W} {h h' : Heap} {R R' : Nat → Prop}
    (a : CallPost sys w h h' R) (hR : ∀ m, R m → R' m) : CallPost sys w h h' R' :=
  ⟨a.same, a.mtime, fun m hm => a.frame m (fun r => hm (hR m r)), a.leaf⟩

theorem scan_inputs_call (sys : Sys W) (w : W) (fuel : Nat)
    (ih : ∀ (h : Heap) (n : Nat) (b : Bool) (h' : Heap),
      recompute_dirty sys w fuel h n = some (b, h') →
      b = true ∧ CallPost sys w h h' (Reach h n) ∧ ((h.node n).in_edge = none → Settled h' n)) :
    ∀ (l : List Nat) (h : Heap) (acc : timestamp_t) (b : Bool) (h' : Heap)
      (newest : timestamp_t),
      scan_inputs (recompute_dirty sys w fuel) l h acc = some (b, h', newest) →
      b = true ∧ CallPost sys w h h' (fun m => ∃ i ∈ l, Reach h i m) ∧
        ∀ n ∈ l, (h.node n).in_edge = none → Settled h' n
  | [], h, acc, b, h', newest, hrun => by
    simp only [scan_inputs, Option.some.injEq, Prod.mk.injEq] at hrun
    obtain ⟨rfl, rfl, _⟩ := hrun
    exact ⟨rfl, callPost_refl sys w h _, fun n hn => by simp at hn⟩
  | i :: l, h, acc, b, h', newest, hrun => by
    cases hc : recompute_dirty sys w fuel h i with
    | none => simp [scan_inputs, hc] at hrun
    | some bh =>
      obtain ⟨b1, h1⟩ := bh
      obtain ⟨hb1, p1, l1⟩ := ih h i b1 h1 hc
      subst hb1
      simp only [scan_inputs, hc] at hrun
      obtain ⟨hb, p2, l2⟩ := scan_inputs_call sys w fuel ih l h1 _ b h' newest hrun
      refine ⟨hb, ?_, ?_⟩
      · refine callPost_mono (callPost_seq p1 p2) ?_
        intro m hm
        rcases hm with hm | ⟨j, hj, hm⟩
        · exact ⟨i, List.mem_cons_self i l, hm⟩
        · rw [reach_eq p1.same] at hm
          exact ⟨j, List.mem_cons_of_mem i hj, hm⟩
      · intro n hn hin
        rcases List.mem_cons.1 hn with hn | hn
        · subst hn
          exact p2.leaf n (by rw [p1.same.in_edge]; exact hin) (l1 hin)
        · exact l2 n hn (by rw [p1.same.in_edge]; exact hin)

/-- What a call of `recompute_dirty` that returns leaves, on any graph: it
returns true, changes nothing but mtimes and flags of the nodes reachable from
`n`, keeps what `node_stat` reports, leaves a leaf dirty iff its mtime is 0, and
leaves `n` dirty when an input of its producing edge is a leaf that `node_stat`
reports missing. -/
theorem recompute_dirty_call (sys : Sys W) (w : W) :
    ∀ (fuel : Nat) (h : Heap) (n : Nat) (b : Bool) (h' : Heap),
      recompute_dirty sys w fuel h n = some (b, h') →
      b = true ∧ CallPost sys w h h' (Reach h n) ∧
        ((h.node n).in_edge = none → Settled h' n) ∧
        ∀ e L, (h.node n).in_edge = some e → L ∈ (h.edge e).inputs →
          (h.node L).in_edge = none → node_mtime sys w h L = 0 → (h'.node n).dirty = true
  | 0, _, _, _, _, hrun => by simp [recompute_dirty] at hrun
  | fuel + 1, h, n, b, h', hrun => by
    have ih : ∀ (h : Heap) (n : Nat) (b : Bool) (h' : Heap),
        recompute_dirty sys w fuel h n = some (b, h') →
        b = true ∧ CallPost sys w h h' (Reach h n) ∧
          ((h.node n).in_edge = none → Settled h' n) := fun h n b h' hr =>
      ⟨(recompute_dirty_call sys w fuel h n b h' hr).1,
        (recompute_dirty_call sys w fuel h n b h' hr).2.1,
        (recompute_dirty_call sys w fuel h n b h' hr).2.2.1⟩
    cases hin : (h.node n).in_edge with
    | none =>
      rw [recompute_dirty_leaf sys w fuel h n hin] at hrun
      simp only [Option.some.injEq, Prod.mk.injEq] at hrun
      obtain ⟨rfl, rfl⟩ := hrun
      have hne : ∀ m, m ≠ n → ((h.set_mtime n (node_mtime sys w h n)).set_dirty n
          (decide (node_mtime sys w h n = 0))).node m = h.node m := by
        intro m hm
        rw [set_dirty_node_ne _ _ _ _ hm, set_mtime_node_ne _ _ _ _ hm]
      have hself : Settled ((h.set_mtime n (node_mtime sys w h n)).set_dirty n
          (decide (node_mtime sys w h n = 0))) n := by
        unfold Settled
        simp only [set_dirty_node_self, set_mtime_node_self]
        exact ⟨node_mtime_ne sys w h n, trivial⟩
      refine ⟨rfl, ⟨(sameGraph_set_mtime h n _).comp (sameGraph_set_dirty _ n _), ?_, ?_, ?_⟩,
        fun _ => hself, fun e L he => by cases he⟩
      · intro m
        by_cases hmn : m = n
        · subst hmn
          rw [node_mtime_known sys w _ m hself.1]
          simp
        · exact node_mtime_congr sys w m (by rw [hne m hmn]) (by rw [hne m hmn])
      · intro m hm
        exact hne m (fun e => hm (e ▸ Relation.ReflTransGen.refl))
      · intro L _ hs
        by_cases hLn : L = n
        · subst hLn; exact hself
        · unfold Settled
          rw [hne L hLn]
          exact hs
    | some e =>
      simp only [recompute_dirty, hin, node_stat_eq, set_mtime_edge] at hrun
      cases hsc : scan_inputs (recompute_dirty sys w fuel) (h.edge e).inputs
          (h.set_mtime n (node_mtime sys w h n)) 0 with
      | none => rw [hsc] at hrun; cases hrun
      | some r =>
        obtain ⟨b2, h2, newest⟩ := r
        obtain ⟨hb2, p2, l2⟩ := scan_inputs_call sys w fuel ih _ _ _ b2 h2 newest hsc
        subst hb2
        rw [hsc] at hrun
        simp only [Option.some.injEq, Prod.mk.injEq] at hrun
        obtain ⟨rfl, rfl⟩ := hrun
        have s1 := sameGraph_set_mtime h n (node_mtime sys w h n)
        have p1 : CallPost sys w h (h.set_mtime n (node_mtime sys w h n)) (fun m => m = n) := by
          refine ⟨s1, node_mtime_set_mtime sys w h n, fun m hm => set_mtime_node_ne _ _ _ _ hm,
            ?_⟩
          intro L hL hs
          have hLn : L ≠ n := by
            intro e'; subst e'; rw [hin] at hL; cases hL
          unfold Settled
          rw [set_mtime_node_ne _ _ _ _ hLn]
          exact hs
        have p12 := callPost_seq p1 p2
        -- the stores after the loop touch only the dirty flag of `n` and the flag of `e`
        have hfin : ∀ (hx : Heap), (∀ m, m ≠ n → hx.node m = h2.node m) →
            (hx.node n).mtime = (h2.node n).mtime → (hx.node n).path = (h2.node n).path →
            SameGraph h2 hx →
            CallPost sys w h hx (Reach h n) := by
          intro hx hne hmt hpath hsx
          refine ⟨p12.same.comp hsx, ?_, ?_, ?_⟩
          · intro m
            rw [← p12.mtime m]
            by_cases hmn : m = n
            · subst hmn
              exact node_mtime_congr sys w m hpath hmt
            · exact node_mtime_congr sys w m (by rw [hne m hmn]) (by rw [hne m hmn])
          · intro m hm
            have hmn : m ≠ n := fun e' => hm (e' ▸ Relation.ReflTransGen.refl)
            rw [hne m hmn]
            apply p12.frame
            rintro (e' | ⟨i, hi, hr⟩)
            · exact hmn e'
            · rw [reach_eq s1] at hr
              exact hm (reach_of_dep ⟨e, hin, hi⟩ hr)
          · intro L hL hs
            have hLn : L ≠ n := by
              intro e'; subst e'; rw [hin] at hL; cases hL
            unfold Settled
            rw [hne L hLn]
            exact p12.leaf L hL hs
        refine ⟨rfl, ?_, ?_, ?_⟩
        · apply hfin
          · intro m hm
            rw [set_outputs_ready_node]
            split
            · rw [set_dirty_node_ne _ _ _ _ hm, set_dirty_node_ne _ _ _ _ hm]
            · rw [set_dirty_node_ne _ _ _ _ hm]
          · rw [set_outputs_ready_node]
            split <;> simp
          · rw [set_outputs_ready_node]
            split <;> simp
          · refine SameGraph.comp ?_ (sameGraph_set_outputs_ready _ e _)
            split
            · exact (sameGraph_set_dirty h2 n _).comp (sameGraph_set_dirty _ n _)
            · exact sameGraph_set_dirty h2 n _
        · intro hn
          cases hn
        · intro e' L he' hL hLleaf hLm
          cases he'
          have hLn : L ≠ n := by
            intro e'; subst e'; rw [hin] at hLleaf; cases hLleaf
          have hs2 : Settled h2 L := l2 L hL (by rw [s1.in_edge]; exact hLleaf)
          have hm2 : (h2.node L).mtime = 0 := by
            rw [← node_mtime_known sys w h2 L hs2.1, p12.mtime L, hLm]
          have hd2 : (h2.node L).dirty = true := by
            rw [hs2.2, hm2]; rfl
          have hany : ((h2.set_dirty n (decide (node_mtime sys w h n = 0) ||
              decide (newest > node_mtime sys w h n))).edge e).inputs.any
              (fun i => ((h2.set_dirty n (decide (node_mtime sys w h n = 0) ||
              decide (newest > node_mtime sys w h n))).node i).dirty) = true := by
            rw [List.any_eq_true]
            refine ⟨L, ?_, ?_⟩
            · rw [set_dirty_edge, p12.same.inputs]; exact hL
            · rw [set_dirty_node_ne _ _ _ _ hLn]; exact hd2
          rw [set_outputs_ready_node, if_pos hany]
          simp

/-! ## A target whose inputs are leaves -/

theorem filter_eq_singleton (p : Nat → Bool) (e : Nat) :
    ∀ (l : List Nat), l.count e = 1 → (∀ x ∈ l, p x = true ↔ x = e) → l.filter p = [e]
  | [], hc, _ => by simp at hc
  | a :: l, hc, hp => by
    by_cases hae : a = e
    · subst hae
      have hpa : p a = true := (hp a (List.mem_cons_self a l)).2 rfl
      have hnot : a ∉ l := by
        intro hmem
        have := List.count_pos_iff.2 hmem
        simp only [List.count_cons_self] at hc
        omega
      have hnil : l.filter p = [] := by
        rw [List.filter_eq_nil_iff]
        intro x hx hpx
        have := (hp x (List.mem_cons_of_mem a hx)).1 hpx
        subst this
        exact hnot hx
      simp [List.filter_cons, hpa, hnil]
    · have hpa : ¬ p a = true := fun hpa => hae ((hp a (List.mem_cons_self a l)).1 hpa)
      have hc' : l.count e = 1 := by
        rw [List.count_cons_of_ne (fun h => hae h.symm)] at hc
        exact hc
      simp only [List.filter_cons, hpa, if_false]
      exact filter_eq_singleton p e l hc' (fun x hx => hp x (List.mem_cons_of_mem a hx))

theorem scan_inputs_leaves (sys : Sys W) (w : W) (fuel : Nat) :
    ∀ (l : List Nat) (h : Heap) (acc : timestamp_t), (∀ i ∈ l, (h.node i).in_edge = none) →
      ∃ h' newest, scan_inputs (recompute_dirty sys w (fuel + 1)) l h acc = some (true, h', newest)
  | [], h, acc, _ => ⟨h, acc, rfl⟩
  | i :: l, h, acc, hl => by
    have hi := hl i (List.mem_cons_self i l)
    have hs : SameGraph h ((h.set_mtime i (node_mtime sys w h i)).set_dirty i
        (decide (node_mtime sys w h i = 0))) :=
      (sameGraph_set_mtime h i _).comp (sameGraph_set_dirty _ i _)
    obtain ⟨h', newest, hrun⟩ := scan_inputs_leaves sys w fuel l
      ((h.set_mtime i (node_mtime sys w h i)).set_dirty i (decide (node_mtime sys w h i = 0)))
      (if (((h.set_mtime i (node_mtime sys w h i)).set_dirty i
          (decide (node_mtime sys w h i = 0))).node i).mtime > acc
        then (((h.set_mtime i (node_mtime sys w h i)).set_dirty i
          (decide (node_mtime sys w h i = 0))).node i).mtime else acc)
      (fun j hj => by rw [hs.in_edge]; exact hl j (List.mem_cons_of_mem i hj))
    refine ⟨h', newest, ?_⟩
    simp only [scan_inputs, recompute_dirty_leaf sys w fuel h i hi]
    exact hrun

theorem recompute_dirty_isSome_of_scan (sys : Sys W) (w : W) (fuel : Nat) (h h2 : Heap)
    (node e : Nat) (newest : timestamp_t) (hin : (h.node node).in_edge = some e)
    (hsc : scan_inputs (recompute_dirty sys w fuel) (h.edge e).inputs
      (h.set_mtime node (node_mtime sys w h node)) 0 = some (true, h2, newest)) :
    (recompute_dirty sys w (fuel + 1) h node).isSome = true := by
  simp only [recompute_dirty, hin, node_stat_eq, set_mtime_edge, hsc]
  rfl

theorem recompute_dirty_leaves (sys : Sys W) (w : W) (fuel : Nat) (h : Heap) (target e : Nat)
    (hin : (h.node target).in_edge = some e)
    (hl : ∀ i ∈ (h.edge e).inputs, (h.node i).in_edge = none) :
    (recompute_dirty sys w (fuel + 2) h target).isSome = true := by
  obtain ⟨h', newest, hrun⟩ := scan_inputs_leaves sys w fuel (h.edge e).inputs
    (h.set_mtime target (node_mtime sys w h target)) 0
    (fun i hi => by rw [(sameGraph_set_mtime h target _).in_edge]; exact hl i hi)
  exact recompute_dirty_isSome_of_scan sys w (fuel + 1) h h' target e newest hin hrun

theorem reach_leaf {h : Heap} {n m : Nat} (hn : (h.node n).in_edge = none)
    (hr : Reach h n m) : m = n := by
  rcases reach_cases hr with e | ⟨i, ⟨e, he, _⟩, _⟩
  · exact e
  · rw [hn] at he; cases he

theorem append_eq_singleton_of_mem {l1 l2 : List Nat} {e : Nat} (h : l1 ++ l2 = [e])
    (hm : e ∈ l1) : l1 = [e] ∧ l2 = [] := by
  cases l1 with
  | nil => simp at hm
  | cons a l =>
    simp only [List.cons_append, List.cons.injEq, List.append_eq_nil] at h
    obtain ⟨rfl, rfl, rfl⟩ := h
    exact ⟨rfl, rfl⟩

/-- The build of a target whose producing edge has only leaves as inputs, one of
them missing: the plan is that edge alone, and the result of `build` is the
result of its command. -/
theorem build_leaves (sys : Sys W) (w : W) (h : Heap) (s : state_t) (target e L fuel : Nat)
    (hin : (h.node target).in_edge = some e) (hL : L ∈ (h.edge e).inputs)
    (hmiss : node_mtime sys w h L = 0) (hfresh : Fresh h) (hone : OneProducer h)
    (hout : target ∈ (h.edge e).outputs) (hcount : s.edges.count e = 1)
    (hleaves : ∀ i ∈ (h.edge e).inputs, (h.node i).in_edge = none) (hfuel : 2 ≤ fuel) :
    ∃ r, build sys fuel w h s target = some r ∧ r.log = [(e, r.ok)] ∧
      (r.ok = true ↔ (sys.system w (h.edge e).command).1 = 0) ∧
      r.world = (sys.system w (h.edge e).command).2 := by
  obtain ⟨f, rfl⟩ : ∃ f, fuel = f + 2 := ⟨fuel - 2, by omega⟩
  have hsome := recompute_dirty_leaves sys w f h target e hin hleaves
  cases hs : recompute_dirty sys w (f + 2) h target with
  | none => rw [hs] at hsome; cases hsome
  | some bh =>
    obtain ⟨b, h1⟩ := bh
    obtain ⟨hb, p, _, hdirty⟩ := recompute_dirty_call sys w (f + 2) h target b h1 hs
    subst hb
    have hd : (h1.node target).dirty = true := hdirty e L hin hL (hleaves L hL) hmiss
    -- the only edge with a dirty output is `e`
    have hiff : ∀ x ∈ s.edges, edge_dirty h1 x = true ↔ x = e := by
      intro x _
      constructor
      · intro hx
        obtain ⟨o, ho, hdo⟩ := edge_dirty_iff.1 hx
        rw [p.same.outputs] at ho
        have hro : Reach h target o := by
          by_contra hn
          rw [p.frame o hn, (hfresh.1 o).2] at hdo
          cases hdo
        have hot : o = target := by
          rcases reach_cases hro with e' | ⟨i, ⟨e', he', hi⟩, hr⟩
          · exact e'
          · rw [hin] at he'
            cases he'
            have := reach_leaf (hleaves i hi) hr
            subst this
            have hn := hleaves o hi
            rw [hone x o ho] at hn
            cases hn
        subst hot
        have := hone x o ho
        rw [hin] at this
        cases this
        rfl
      · intro hx
        subst hx
        exact edge_dirty_iff.2 ⟨target, by rw [p.same.outputs]; exact hout, hd⟩
    have hfil : s.edges.filter (fun x => edge_dirty h1 x) = [e] :=
      filter_eq_singleton _ e s.edges hcount hiff
    have he : e ∈ s.edges := List.count_pos_iff.1 (by omega)
    have hpp := plan_edges_post s.edges h1 plan_create
    have hready : edge_all_inputs_ready h1 e = true :=
      ready_of_inputs (fun i hi p' hp' => by
        rw [p.same.inputs] at hi
        rw [p.same.in_edge, hleaves i hi] at hp'
        cases hp')
    have hmem := hpp.ready_mem e he ((hiff e he).2 rfl) hready
    have hperm := hpp.perm
    rw [hfil] at hperm
    have happ : (plan_edges h1 s.edges plan_create).2.ready ++
        (plan_edges h1 s.edges plan_create).2.pending = [e] := by
      have : (plan_create.ready ++ plan_create.pending ++ [e]) = [e] := rfl
      rw [this] at hperm
      exact List.perm_singleton.1 hperm
    obtain ⟨hr1, hp1⟩ := append_eq_singleton_of_mem happ hmem
    have hplan : (plan_edges h1 s.edges plan_create).2 = ⟨[] ++ [e], []⟩ := by
      cases hq : (plan_edges h1 s.edges plan_create).2 with
      | mk ready pending =>
        rw [hq] at hr1 hp1
        simp only at hr1 hp1
        rw [hr1, hp1]
        rfl
    have hcmd : ((plan_edges h1 s.edges plan_create).1.edge e).command = (h.edge e).command := by
      rw [hpp.same.command, p.same.command]
    have hloop := execute_loop_succ sys (f + 1) w (plan_edges h1 s.edges plan_create).1 [] []
      e
    rw [← hplan] at hloop
    by_cases hret : (sys.system w (h.edge e).command).1 = 0
    · have hok : (execute_edge sys w (plan_edges h1 s.edges plan_create).1 e).ok = true :=
        (execute_edge_ok_iff sys w _ e).2 (by rw [hcmd]; exact hret)
      rw [if_neg (by simp [hok]), execute_loop_nil sys (f + 1)
        (execute_edge sys w (plan_edges h1 s.edges plan_create).1 e).world
        (execute_edge sys w (plan_edges h1 s.edges plan_create).1 e).heap
        (plan_update_ready (execute_edge sys w (plan_edges h1 s.edges plan_create).1 e).heap
          ⟨[], []⟩) (by rw [plan_update_ready_eq]; rfl)] at hloop
      refine ⟨_, build_of_dirty sys w (f + 2) h h1 s target _ hs hd hloop, ?_, ?_, ?_⟩
      · simp [plan_update_ready_eq]
      · simp [plan_update_ready_eq, hret]
      · simp [execute_edge_world, hcmd]
    · have hok : (execute_edge sys w (plan_edges h1 s.edges plan_create).1 e).ok = false := by
        cases hb : (execute_edge sys w (plan_edges h1 s.edges plan_create).1 e).ok with
        | false => rfl
        | true =>
          exact absurd ((execute_edge_ok_iff sys w _ e).1 hb) (by rw [hcmd]; exact hret)
      rw [if_pos hok] at hloop
      refine ⟨_, build_of_dirty sys w (f + 2) h h1 s target _ hs hd hloop, ?_, ?_, ?_⟩
      · simp
      · simp [hret]
      · simp [execute_edge_world, hcmd]

theorem cc_one : OneProducer cc_heap := by
  intro e n hn
  match e with
  | 0 =>
    simp only [cc_heap, List.mem_singleton] at hn
    subst hn
    rfl
  | e + 1 => simp [cc_heap] at hn

theorem cc_built : Built cc_heap := by
  refine ⟨fun n e hin => ?_, fun e n hn => by rw [cc_one e n hn]; simp⟩
  match n with
  | 0 =>
    simp only [cc_heap, Option.some.injEq] at hin
    subst hin
    simp [cc_heap]
  | 1 => simp [cc_heap] at hin
  | n + 2 => simp [cc_heap] at hin

theorem cc_listed : Listed cc_heap cc_state := by
  refine ⟨by decide, fun n e hin => ?_⟩
  match n with
  | 0 =>
    simp only [cc_heap, Option.some.injEq] at hin
    subst hin
    simp [cc_state]
  | 1 => simp [cc_heap] at hin
  | n + 2 => simp [cc_heap] at hin

/-- C2: on a fresh acyclic graph built with the graph functions, whose edge
list holds each edge once, `build` returns with every fuel above the rank of
the target and the number of edges, and in a run in which every executed
command succeeds the log of the calls of `execute_edge` holds every edge with a
dirty output after the scan exactly once, and holds no other edge. -/
theorem C2_build_rebuilds_stale_subset (sys : Sys W) (w : W) (h : Heap) (s : state_t)
    (rank : Nat → Nat) (target fuel : Nat) (hrank : Ranked h rank) (hfresh : Fresh h)
    (hbuilt : Built h) (hlisted : Listed h s) (hfuel : rank target < fuel)
    (hfuel2 : s.edges.length ≤ fuel) :
    ∃ h1 r, recompute_dirty sys w fuel h target = some (true, h1) ∧
      build sys fuel w h s target = some r ∧
      ((∀ x ∈ r.log, x.2 = true) →
        (∀ e ∈ s.edges, edge_dirty h1 e = true → (r.log.map Prod.fst).count e = 1) ∧
        ∀ e ∈ r.log.map Prod.fst, e ∈ s.edges ∧ edge_dirty h1 e = true) := by
  obtain ⟨h1, r, hscan, hbuild, hlog⟩ :=
    build_runs_dirty sys w h s rank target fuel hrank hfresh hbuilt hlisted hfuel hfuel2
  refine ⟨h1, r, hscan, hbuild, fun hall => ?_⟩
  obtain ⟨_, hperm⟩ := hlog hall
  refine ⟨fun e he hd => ?_, fun e he => ?_⟩
  · rw [hperm.count_eq]
    exact List.count_eq_one_of_mem (hlisted.1.filter _) (List.mem_filter.2 ⟨he, hd⟩)
  · have := hperm.mem_iff.1 he
    rw [List.mem_filter] at this
    exact this

theorem C2_witness :
    Ranked cc_heap cc_rank ∧ Fresh cc_heap ∧ Built cc_heap ∧ Listed cc_heap cc_state ∧
    cc_rank 0 < 2 ∧ cc_state.edges.length ≤ 2 ∧
    ∃ h1 r, recompute_dirty files_sys [("in.c", 3)] 2 cc_heap 0 = some (true, h1) ∧
      build files_sys 2 [("in.c", 3)] cc_heap cc_state 0 = some r ∧
      ((∀ x ∈ r.log, x.2 = true) →
        (∀ e ∈ cc_state.edges, edge_dirty h1 e = true → (r.log.map Prod.fst).count e = 1) ∧
        ∀ e ∈ r.log.map Prod.fst, e ∈ cc_state.edges ∧ edge_dirty h1 e = true) :=
  ⟨cc_ranked, cc_fresh, cc_built, cc_listed, by decide, by decide,
    C2_build_rebuilds_stale_subset files_sys [("in.c", 3)] cc_heap cc_state cc_rank 0 2
      cc_ranked cc_fresh cc_built cc_listed (by decide) (by decide)⟩

/-! ## Two inputs on which the code misses the spec -/

/-- C1, the failing input: in `two_out_graph`, with `src` and `o2` present and
`o1` missing, the scan leaves `o1` (an output of `gen`, and an input of `link`
with `gen` as producing edge) dirty, and `build` executes `link` (edge 1) before
`gen` (edge 0). -/
theorem C1_two_outputs_consumer_runs_first :
    (recompute_dirty files_sys [("src", 1), ("o2", 5)] 3 two_out_graph.1 3).map
      (fun r => (r.1, (r.2.node 0).dirty, (r.2.node 0).in_edge, (r.2.edge 0).outputs,
        (r.2.edge 1).inputs)) = some (true, true, some 0, [0, 1], [0, 1]) ∧
    two_out_graph.2.edges = [0, 1] ∧
    (build files_sys 3 [("src", 1), ("o2", 5)] two_out_graph.1 two_out_graph.2 3).map
      (fun r => (r.ok, r.log)) = some (true, [(1, true), (0, true)]) := by
  decide

theorem cycle_scan_none (sys : Sys W) (w : W) :
    ∀ (fuel : Nat) (h : Heap) (n : Nat), SameGraph cycle_heap h → (n = 0 ∨ n = 1) →
      recompute_dirty sys w fuel h n = none
  | 0, _, _, _, _ => rfl
  | fuel + 1, h, n, hs, hn => by
    have s1 := hs.comp (sameGraph_set_mtime h n (node_mtime sys w h n))
    rcases hn with rfl | rfl
    · have hin : (h.node 0).in_edge = some 0 := by rw [hs.in_edge]; rfl
      have hinp : (h.edge 0).inputs = [1] := by rw [hs.inputs]; rfl
      simp only [recompute_dirty, hin, node_stat_eq, set_mtime_edge, hinp, scan_inputs,
        cycle_scan_none sys w fuel _ 1 s1 (Or.inr rfl)]
    · have hin : (h.node 1).in_edge = some 1 := by rw [hs.in_edge]; rfl
      have hinp : (h.edge 1).inputs = [0] := by rw [hs.inputs]; rfl
      simp only [recompute_dirty, hin, node_stat_eq, set_mtime_edge, hinp, scan_inputs,
        cycle_scan_none sys w fuel _ 0 s1 (Or.inl rfl)]

/-- C5, the failing input: for the two lines `a: b | touch a` and
`b: a | touch b`, whatever the filesystem and the commands, the call
`build(s, b)` does not return: the recursion of `recompute_dirty` has no
end. -/
theorem C5_cycle_build_never_returns (sys : Sys W) (w : W) (fuel : Nat) :
    build sys fuel w cycle_heap cycle_state 1 = none := by
  simp only [build, cycle_scan_none sys w fuel cycle_heap 1 (SameGraph.refl _) (Or.inr rfl)]

/-! ## One leaf touched -/

theorem spec_dirty_edge {h : Heap} {n e : Nat} (hin : (h.node n).in_edge = some e) :
    spec_dirty h n =
      (decide ((h.node n).mtime = 0)
        || decide (spec_newest_input h (h.edge e).inputs > (h.node n).mtime)
        || (h.edge e).inputs.any fun i => (h.node i).dirty) := by
  unfold spec_dirty
  rw [hin]

theorem spec_dirty_leaf {h : Heap} {n : Nat} (hin : (h.node n).in_edge = none) :
    spec_dirty h n = decide ((h.node n).mtime = 0) := by
  unfold spec_dirty
  rw [hin]

theorem spec_dirty_false {h : Heap} {n e : Nat} (hin : (h.node n).in_edge = some e)
    (hd : spec_dirty h n = false) :
    (h.node n).mtime ≠ 0 ∧ spec_newest_input h (h.edge e).inputs ≤ (h.node n).mtime ∧
      ∀ i ∈ (h.edge e).inputs, (h.node i).dirty = false := by
  unfold spec_dirty at hd
  rw [hin] at hd
  simp only [Bool.or_eq_false_iff, decide_eq_false_iff_not, List.any_eq_false] at hd
  exact ⟨hd.1.1, not_lt.1 hd.1.2, fun i hi => by simpa using hd.2 i hi⟩

theorem transGen_dep_cases {h : Heap} {n L : Nat} (ht : Relation.TransGen (dep h) n L) :
    dep h n L ∨ ∃ i, dep h n i ∧ Relation.TransGen (dep h) i L := by
  obtain ⟨i, d, hr⟩ := Relation.TransGen.head'_iff.1 ht
  rcases Relation.reflTransGen_iff_eq_or_transGen.1 hr with e | t
  · subst e; exact Or.inl d
  · exact Or.inr ⟨i, d, t⟩

theorem in_edge_of_transGen {h : Heap} {n L : Nat} (ht : Relation.TransGen (dep h) n L) :
    (h.node n).in_edge ≠ none := by
  obtain ⟨i, ⟨e, he, _⟩, _⟩ := Relation.TransGen.head'_iff.1 ht
  rw [he]; simp

/-- The dirty nodes after one leaf `L` was touched, on a graph that was clean:
a reachable node with a producing edge is dirty iff `L` is among its transitive
inputs. -/
theorem touched_dirty_iff (h h0 h1 : Heap) (rank : Nat → Nat) (target L : Nat)
    (ts ts' : Nat → timestamp_t) (hrank : Ranked h rank) (hleaf : (h.node L).in_edge = none)
    (s0 : SameGraph h h0) (s1 : SameGraph h h1)
    (g0 : Good h0 (Reach h target)) (g1 : Good h1 (Reach h target))
    (m0 : ∀ n, Reach h target n → (h0.node n).mtime = ts n)
    (m1 : ∀ n, Reach h target n → (h1.node n).mtime = ts' n)
    (hclean : ∀ n, Reach h target n → (h0.node n).dirty = false)
    (hsame : ∀ n, n ≠ L → ts' n = ts n)
    (hraise : ∀ n, (h.node n).in_edge ≠ none → ts n < ts' L) :
    ∀ (k n : Nat), rank n < k → Reach h target n → (h.node n).in_edge ≠ none →
      ((h1.node n).dirty = true ↔ Relation.TransGen (dep h) n L)
  | 0, _, hk, _, _ => absurd hk (Nat.not_lt_zero _)
  | k + 1, n, hk, hn, hne => by
    have ih := touched_dirty_iff h h0 h1 rank target L ts ts' hrank hleaf s0 s1 g0 g1 m0 m1
      hclean hsame hraise k
    cases hin : (h.node n).in_edge with
    | none => exact absurd hin hne
    | some e =>
      have hnL : n ≠ L := by
        intro e'; subst e'; rw [hleaf] at hin; cases hin
      have hin0 : (h0.node n).in_edge = some e := by rw [s0.in_edge]; exact hin
      have hin1 : (h1.node n).in_edge = some e := by rw [s1.in_edge]; exact hin
      have hreach : ∀ i ∈ (h.edge e).inputs, Reach h target i := fun i hi =>
        Relation.ReflTransGen.tail hn ⟨e, hin, hi⟩
      have hlt : ∀ i ∈ (h.edge e).inputs, rank i < k := fun i hi =>
        lt_of_lt_of_le (hrank n i ⟨e, hin, hi⟩) (Nat.lt_succ_iff.1 hk)
      -- what the clean scan says about `n`
      have hd0 : spec_dirty h0 n = false := by
        rw [← (g0 n hn).2.1]; exact hclean n hn
      obtain ⟨hne0, hnew0, _⟩ := spec_dirty_false hin0 hd0
      rw [m0 n hn] at hne0 hnew0
      rw [s0.inputs] at hnew0
      have hmt1 : (h1.node n).mtime = ts n := by rw [m1 n hn, hsame n hnL]
      have hd1 : (h1.node n).dirty = spec_dirty h1 n := (g1 n hn).2.1
      constructor
      · intro hd
        rw [hd1, spec_dirty_edge hin1, hmt1, s1.inputs] at hd
        simp only [Bool.or_eq_true, decide_eq_true_eq, List.any_eq_true] at hd
        rcases hd with (hz | hgt) | ⟨i, hi, hdi⟩
        · exact absurd hz hne0
        · by_cases hLin : L ∈ (h.edge e).inputs
          · exact Relation.TransGen.single ⟨e, hin, hLin⟩
          · exfalso
            have hcongr : spec_newest_input h1 (h.edge e).inputs =
                spec_newest_input h0 (h.edge e).inputs := by
              unfold spec_newest_input
              apply foldl_max_congr
              intro i hi
              have hiL : i ≠ L := fun e' => hLin (e' ▸ hi)
              show (h1.node i).mtime = (h0.node i).mtime
              rw [m1 i (hreach i hi), m0 i (hreach i hi), hsame i hiL]
            rw [hcongr] at hgt
            exact absurd hgt (not_lt.2 hnew0)
        · cases hini : (h.node i).in_edge with
          | none =>
            have hdi' := (g1 i (hreach i hi)).2.1
            rw [spec_dirty_leaf (by rw [s1.in_edge]; exact hini), hdi, m1 i (hreach i hi)] at hdi'
            have hz : ts' i = 0 := by simpa using hdi'.symm
            by_cases hiL : i = L
            · subst hiL
              exact Relation.TransGen.single ⟨e, hin, hi⟩
            · exfalso
              have hdi0 := (g0 i (hreach i hi)).2.1
              rw [hclean i (hreach i hi), spec_dirty_leaf (by rw [s0.in_edge]; exact hini),
                m0 i (hreach i hi), ← hsame i hiL, hz] at hdi0
              simp at hdi0
          | some p =>
            have := (ih i (hlt i hi) (hreach i hi) (by rw [hini]; simp)).1 hdi
            exact Relation.TransGen.head ⟨e, hin, hi⟩ this
      · intro ht
        rw [hd1, spec_dirty_edge hin1, hmt1, s1.inputs]
        simp only [Bool.or_eq_true, decide_eq_true_eq, List.any_eq_true]
        rcases transGen_dep_cases ht with ⟨e', he', hL⟩ | ⟨i, ⟨e', he', hi⟩, hti⟩
        · rw [hin] at he'
          cases he'
          left; right
          have h1L := (le_foldl_max (fun i => (h1.node i).mtime) (h.edge e).inputs 0).2 L hL
          rw [m1 L (hreach L hL)] at h1L
          exact lt_of_lt_of_le (hraise n hne) h1L
        · rw [hin] at he'
          cases he'
          right
          exact ⟨i, hi, (ih i (hlt i hi) (hreach i hi) (in_edge_of_transGen hti)).2 hti⟩

/-- On a fresh acyclic graph whose reachable leaves exist and whose reachable
outputs are positive and not older than their inputs, the scan marks no node
dirty. -/
theorem scan_all_clean (sys : Sys W) (w : W) (h : Heap) (target : Nat)
    (rank : Nat → Nat) (hrank : Ranked h rank) (hfresh : Fresh h)
    (hleaf : ∀ n, Reach h target n → (h.node n).in_edge = none →
      stat_mtime sys w (h.node n).path ≠ 0)
    (hout : ∀ n, Reach h target n → (h.node n).in_edge ≠ none →
      0 < stat_mtime sys w (h.node n).path)
    (hnewer : ∀ n i, Reach h target n → dep h n i →
      stat_mtime sys w (h.node i).path ≤ stat_mtime sys w (h.node n).path)
    (fuel : Nat) (hfuel : rank target < fuel) :
    ∃ h', recompute_dirty sys w fuel h target = some (true, h') ∧
      ∀ n, (h'.node n).dirty = false := by
  obtain ⟨h', hrun, hsame, hgood, hmt, hclean, _⟩ :=
    scan_fresh sys w h rank hrank hfresh target fuel hfuel
  refine ⟨h', hrun, fun n => ?_⟩
  by_cases hn : Reach h target n
  · apply good_clean (ranked_congr hsame hrank) hgood ?_ ?_ ?_ (rank n + 1) n
      (Nat.lt_succ_self _) hn
    · intro m hm
      rw [hmt m hm]
      cases hin : (h.node m).in_edge with
      | none => exact hleaf m hm hin
      | some e => exact ne_of_gt (hout m hm (by rw [hin]; simp))
    · intro m hm hin
      rw [hmt m hm]
      rw [hsame.in_edge] at hin
      exact le_of_lt (hout m hm hin)
    · intro m i hm d
      have d' := (dep_congr hsame m i).1 d
      rw [hmt m hm, hmt i (Relation.ReflTransGen.tail hm d')]
      exact hnewer m i hm d'
  · exact hclean n hn

/-! ## The timestamps a build leaves -/

/-- C12: `node_stat` on a node whose mtime is unknown (-1) returns what the
filesystem reports for the path of the node and stores that value in the node,
changing nothing else.  From then on, in every filesystem state and in every
heap in which the node still holds the stored value, `node_stat` returns the
stored value and changes nothing, whatever `stat` and the filesystem of the
later call are: the later call does not depend on them.  Once the mtime of the
node is set to -1 again, `node_stat` returns what the filesystem reports at
that time. -/
theorem C12_node_stat_memoized (sys sys2 : Sys W) (w1 w2 : W) (h : Heap) (n : Nat)
    (hunk : (h.node n).mtime = -1) :
    (node_stat sys w1 h n).2 = stat_mtime sys w1 (h.node n).path ∧
    (node_stat sys w1 h n).1 = h.set_mtime n (stat_mtime sys w1 (h.node n).path) ∧
    node_stat sys2 w2 (node_stat sys w1 h n).1 n =
      ((node_stat sys w1 h n).1, stat_mtime sys w1 (h.node n).path) ∧
    (∀ h2 : Heap, (h2.node n).mtime = stat_mtime sys w1 (h.node n).path →
      node_stat sys2 w2 h2 n = (h2, stat_mtime sys w1 (h.node n).path)) ∧
    (node_stat sys2 w2 ((node_stat sys w1 h n).1.set_mtime n (-1)) n).2 =
      stat_mtime sys2 w2 (h.node n).path := by
  have hne := stat_mtime_ne sys w1 (h.node n).path
  have hlater : ∀ h2 : Heap, (h2.node n).mtime = stat_mtime sys w1 (h.node n).path →
      node_stat sys2 w2 h2 n = (h2, stat_mtime sys w1 (h.node n).path) := by
    intro h2 h2m
    unfold node_stat
    rw [if_pos (by rw [h2m]; exact hne), h2m]
  have hfirst : node_stat sys w1 h n =
      (h.set_mtime n (stat_mtime sys w1 (h.node n).path),
        stat_mtime sys w1 (h.node n).path) := by
    unfold node_stat
    rw [if_neg (by rw [hunk]; simp)]
  refine ⟨by rw [hfirst], by rw [hfirst], ?_, hlater, ?_⟩
  · rw [hfirst]
    exact hlater _ (by simp)
  · rw [hfirst]
    unfold node_stat
    rw [if_neg (by simp)]
    simp [Heap.set_mtime]

/-- C12 at the node `in.c` of the small graph: the file has timestamp 3 at
the first call and timestamp 9 at the later calls. -/
theorem C12_witness :
    (cc_heap.node 1).mtime = -1 ∧
    (node_stat files_sys [("in.c", 3)] cc_heap 1).2 =
      stat_mtime files_sys [("in.c", 3)] (cc_heap.node 1).path ∧
    (node_stat files_sys [("in.c", 3)] cc_heap 1).1 =
      cc_heap.set_mtime 1 (stat_mtime files_sys [("in.c", 3)] (cc_heap.node 1).path) ∧
    node_stat files_sys [("in.c", 9)] (node_stat files_sys [("in.c", 3)] cc_heap 1).1 1 =
      ((node_stat files_sys [("in.c", 3)] cc_heap 1).1,
        stat_mtime files_sys [("in.c", 3)] (cc_heap.node 1).path) ∧
    (∀ h2 : Heap, (h2.node 1).mtime = stat_mtime files_sys [("in.c", 3)] (cc_heap.node 1).path →
      node_stat files_sys [("in.c", 9)] h2 1 =
        (h2, stat_mtime files_sys [("in.c", 3)] (cc_heap.node 1).path)) ∧
    (node_stat files_sys [("in.c", 9)]
      ((node_stat files_sys [("in.c", 3)] cc_heap 1).1.set_mtime 1 (-1)) 1).2 =
      stat_mtime files_sys [("in.c", 9)] (cc_heap.node 1).path :=
  ⟨rfl, C12_node_stat_memoized files_sys files_sys [("in.c", 3)] [("in.c", 9)] cc_heap 1 rfl⟩

/-! ## `plan_update_ready` -/

/-- C15: after `plan_update_ready` the ready list is the old ready list
followed by the old pending edges that satisfy `edge_all_inputs_ready`, in
their old order; the pending list is the old pending edges that do not satisfy
it, in their old order; and ready followed by pending after the call is a
permutation of ready followed by pending before it. -/
theorem C15_plan_update_ready_repartitions (h : Heap) (plan : plan_t) :
    (plan_update_ready h plan).ready =
      plan.ready ++ plan.pending.filter (fun e => edge_all_inputs_ready h e) ∧
    (plan_update_ready h plan).pending =
      plan.pending.filter (fun e => !edge_all_inputs_ready h e) ∧
    ((plan_update_ready h plan).ready ++ (plan_update_ready h plan).pending).Perm
      (plan.ready ++ plan.pending) := by
  rw [plan_update_ready_eq]
  refine ⟨rfl, rfl, ?_⟩
  show (plan.ready ++ plan.pending.filter (fun e => edge_all_inputs_ready h e) ++
    plan.pending.filter (fun e => !edge_all_inputs_ready h e)).Perm (plan.ready ++ plan.pending)
  rw [List.append_assoc]
  exact (filter_perm_split (fun e => edge_all_inputs_ready h e) plan.pending).append_left _

/-! ## `execute_edge` -/

/-- C16: when the command of the edge returns a non-zero result,
`execute_edge` returns false and the heap after the call is the heap before
it: no field of any node or edge has changed. -/
theorem C16_execute_edge_failure_changes_nothing (sys : Sys W) (w : W) (h : Heap) (edge : Nat)
    (hfail : (sys.system w (h.edge edge).command).1 ≠ 0) :
    (execute_edge sys w h edge).ok = false ∧ (execute_edge sys w h edge).heap = h ∧
    ((execute_edge sys w h edge).heap.edge edge).outputs_ready = (h.edge edge).outputs_ready ∧
    ∀ n, ((execute_edge sys w h edge).heap.node n).mtime = (h.node n).mtime ∧
      ((execute_edge sys w h edge).heap.node n).dirty = (h.node n).dirty := by
  rw [execute_edge_fail sys w h edge hfail]
  exact ⟨rfl, rfl, rfl, fun _ => ⟨rfl, rfl⟩⟩

/-- C16 at the edge of the small graph, with a command that fails. -/
theorem C16_witness :
    (fail_sys.system [("in.c", 3)] (cc_heap.edge 0).command).1 ≠ 0 ∧
    (execute_edge fail_sys [("in.c", 3)] cc_heap 0).ok = false ∧
    (execute_edge fail_sys [("in.c", 3)] cc_heap 0).heap = cc_heap ∧
    ((execute_edge fail_sys [("in.c", 3)] cc_heap 0).heap.edge 0).outputs_ready =
      (cc_heap.edge 0).outputs_ready ∧
    ∀ n, ((execute_edge fail_sys [("in.c", 3)] cc_heap 0).heap.node n).mtime =
        (cc_heap.node n).mtime ∧
      ((execute_edge fail_sys [("in.c", 3)] cc_heap 0).heap.node n).dirty =
        (cc_heap.node n).dirty :=
  ⟨by decide, C16_execute_edge_failure_changes_nothing fail_sys [("in.c", 3)] cc_heap 0
    (by decide)⟩

/-- C17: when the command of the edge returns 0, `execute_edge` returns true
and sets `outputs_ready` of the edge; the mtime of every output node of the
edge becomes what the filesystem reports for its path in the world the command
left, whatever value was cached before, and that is 0 when the file is missing;
every node that is not an output of the edge is unchanged, the dirty flag of
every node is unchanged, every other edge is unchanged, and the links of the
graph are unchanged. -/
theorem C17_execute_edge_success_refreshes_outputs (sys : Sys W) (w : W) (h : Heap)
    (edge : Nat) (hok : (sys.system w (h.edge edge).command).1 = 0) :
    (execute_edge sys w h edge).ok = true ∧
    ((execute_edge sys w h edge).heap.edge edge).outputs_ready = true ∧
    (∀ o ∈ (h.edge edge).outputs,
      ((execute_edge sys w h edge).heap.node o).mtime =
        stat_mtime sys (sys.system w (h.edge edge).command).2 (h.node o).path ∧
      (sys.stat (sys.system w (h.edge edge).command).2 (h.node o).path = none →
        ((execute_edge sys w h edge).heap.node o).mtime = 0)) ∧
    (∀ n, n ∉ (h.edge edge).outputs → (execute_edge sys w h edge).heap.node n = h.node n) ∧
    (∀ n, ((execute_edge sys w h edge).heap.node n).dirty = (h.node n).dirty) ∧
    (∀ k, k ≠ edge → (execute_edge sys w h edge).heap.edge k = h.edge k) ∧
    SameGraph h (execute_edge sys w h edge).heap := by
  obtain ⟨h1, _, he, hn⟩ := execute_edge_ok sys w h edge hok
  have hm : ∀ o ∈ (h.edge edge).outputs,
      ((execute_edge sys w h edge).heap.node o).mtime =
        stat_mtime sys (sys.system w (h.edge edge).command).2 (h.node o).path := by
    intro o ho
    rw [hn o, if_pos ho]
  refine ⟨h1, ?_, ?_, ?_, (execute_edge_frame sys w h edge).2.1, ?_,
    (execute_edge_frame sys w h edge).1⟩
  · rw [he edge, if_pos rfl]
  · intro o ho
    refine ⟨hm o ho, fun hnone => ?_⟩
    rw [hm o ho]
    unfold stat_mtime
    rw [hnone]
  · intro n hno
    rw [hn n, if_neg hno]
  · intro k hk
    rw [he k, if_neg hk]

/-- C17 at the edge of the small graph, with a command that succeeds in a
world where `out.o` has timestamp 5. -/
theorem C17_witness :
    (files_sys.system [("out.o", 5)] (cc_heap.edge 0).command).1 = 0 ∧
    (execute_edge files_sys [("out.o", 5)] cc_heap 0).ok = true ∧
    ((execute_edge files_sys [("out.o", 5)] cc_heap 0).heap.edge 0).outputs_ready = true ∧
    (∀ o ∈ (cc_heap.edge 0).outputs,
      ((execute_edge files_sys [("out.o", 5)] cc_heap 0).heap.node o).mtime =
        stat_mtime files_sys (files_sys.system [("out.o", 5)] (cc_heap.edge 0).command).2
          (cc_heap.node o).path ∧
      (files_sys.stat (files_sys.system [("out.o", 5)] (cc_heap.edge 0).command).2
          (cc_heap.node o).path = none →
        ((execute_edge files_sys [("out.o", 5)] cc_heap 0).heap.node o).mtime = 0)) ∧
    (∀ n, n ∉ (cc_heap.edge 0).outputs →
      (execute_edge files_sys [("out.o", 5)] cc_heap 0).heap.node n = cc_heap.node n) ∧
    (∀ n, ((execute_edge files_sys [("out.o", 5)] cc_heap 0).heap.node n).dirty =
      (cc_heap.node n).dirty) ∧
    (∀ k, k ≠ 0 → (execute_edge files_sys [("out.o", 5)] cc_heap 0).heap.edge k =
      cc_heap.edge k) ∧
    SameGraph cc_heap (execute_edge files_sys [("out.o", 5)] cc_heap 0).heap :=
  ⟨rfl, C17_execute_edge_success_refreshes_outputs files_sys [("out.o", 5)] cc_heap 0 rfl⟩

/-! ## The return value of `build` when every command succeeds -/

/-- C13: on a fresh acyclic graph in which the producing edge of every node
lists the node in its outputs, every node in the outputs of an edge has a
producing edge, and the edge list holds every producing edge, `build` returns
with every fuel above the rank of the target and the length of the edge list,
and in a run in which every executed command succeeds it returns true: the
execute loop does not end with an edge in pending.  An edge may have more than
one output here. -/
theorem C13_no_false_cycle_report (sys : Sys W) (w : W) (h : Heap) (s : state_t)
    (rank : Nat → Nat) (target fuel : Nat) (hrank : Ranked h rank) (hfresh : Fresh h)
    (hbuilt : Built h) (hlisted : ∀ n e, (h.node n).in_edge = some e → e ∈ s.edges)
    (hfuel : rank target < fuel) (hfuel2 : s.edges.length ≤ fuel) :
    ∃ r, build sys fuel w h s target = some r ∧ ((∀ x ∈ r.log, x.2 = true) → r.ok = true) := by
  obtain ⟨_, r, _, hb, hall⟩ := build_runs_dirty_of_mem sys w h s rank target fuel hrank hfresh
    hbuilt hlisted hfuel hfuel2
  exact ⟨r, hb, fun hx => (hall hx).1⟩

/-- C13 on the small graph, in a world where `out.o` is missing and every
command succeeds. -/
theorem C13_witness :
    Ranked cc_heap cc_rank ∧ Fresh cc_heap ∧ Built cc_heap ∧
    (∀ n e, (cc_heap.node n).in_edge = some e → e ∈ cc_state.edges) ∧
    cc_rank 0 < 2 ∧ cc_state.edges.length ≤ 2 ∧
    (build files_sys 2 [("in.c", 3)] cc_heap cc_state 0).map (fun r => (r.ok, r.log)) =
      some (true, [(0, true)]) ∧
    ∃ r, build files_sys 2 [("in.c", 3)] cc_heap cc_state 0 = some r ∧
      ((∀ x ∈ r.log, x.2 = true) → r.ok = true) :=
  ⟨cc_ranked, cc_fresh, cc_built, cc_listed.2, by decide, by decide, by decide,
    C13_no_false_cycle_report files_sys [("in.c", 3)] cc_heap cc_state cc_rank 0 2
      cc_ranked cc_fresh cc_built cc_listed.2 (by decide) (by decide)⟩

/-! ## The short cut of `build` for a clean target -/

/-- C20: on an acyclic graph `recompute_dirty(target)` returns with every fuel
above the rank of the target, and when it leaves the target clean, every node
reachable from the target through producing edge and inputs is clean, its flag
agrees with the staleness rule (`spec_dirty`), and `build` returns true without
a call of `execute_edge`.  When the graph was fresh before the scan, no edge at
all has a dirty output then, and planning over any edge list would leave ready
and pending empty: the short cut skips no edge that the plan would hold. -/
theorem C20_noop_shortcut_sound (sys : Sys W) (w : W) (h : Heap) (s : state_t)
    (rank : Nat → Nat) (target fuel : Nat) (hrank : Ranked h rank)
    (hfuel : rank target < fuel) :
    ∃ h1, recompute_dirty sys w fuel h target = some (true, h1) ∧
      ((h1.node target).dirty = false →
        (∀ n, Reach h target n → (h1.node n).dirty = false ∧ spec_dirty h1 n = false) ∧
        build sys fuel w h s target = some ⟨true, h1, w, []⟩ ∧
        (Fresh h →
          (∀ e, edge_dirty h1 e = false) ∧
          ∀ es : List Nat, (plan_edges h1 es plan_create).2 = plan_create)) := by
  obtain ⟨h1, hrun, hpost⟩ := recompute_dirty_post sys w rank fuel h target (fun _ => False)
    hrank (good_empty h) hfuel
  refine ⟨h1, hrun, fun hd => ?_⟩
  have hg : Good h1 (fun m => False ∨ Reach h1 target m) := by
    rw [reach_eq hpost.same]
    exact hpost.good
  have hclean : ∀ n, Reach h target n → (h1.node n).dirty = false := by
    intro n hn
    rw [← reach_eq hpost.same] at hn
    exact good_clean_down hg (Or.inr Relation.ReflTransGen.refl) hd n hn
  refine ⟨fun n hn => ⟨hclean n hn, ?_⟩, build_of_clean sys w fuel h h1 s target hrun hd,
    fun hfresh => ?_⟩
  · rw [← (hg n (Or.inr (by rw [reach_eq hpost.same]; exact hn))).2.1]
    exact hclean n hn
  · have hall : ∀ n, (h1.node n).dirty = false := by
      intro n
      by_cases hn : Reach h target n
      · exact hclean n hn
      · rw [hpost.frame n hn]
        exact (hfresh.1 n).2
    have hnone : ∀ e, edge_dirty h1 e = false := by
      intro e
      simp [edge_dirty, hall]
    refine ⟨hnone, fun es => ?_⟩
    have hpp := plan_edges_post es h1 plan_create
    have hperm := hpp.perm
    have hfil : es.filter (fun e => edge_dirty h1 e) = [] := by simp [hnone]
    rw [hfil] at hperm
    have hnil : (plan_edges h1 es plan_create).2.ready ++
        (plan_edges h1 es plan_create).2.pending = [] := by
      have := hperm.length_eq
      simp only [plan_create, List.append_nil, List.length_nil] at this
      exact List.eq_nil_of_length_eq_zero this
    obtain ⟨hr, hp⟩ := List.append_eq_nil.1 hnil
    cases hpl : (plan_edges h1 es plan_create).2 with
    | mk rdy pnd =>
      rw [hpl] at hr hp
      simp only at hr hp
      rw [hr, hp]
      rfl

/-- C20 on the small graph, in a world where `out.o` is newer than `in.c`. -/
theorem C20_witness :
    Ranked cc_heap cc_rank ∧ cc_rank 0 < 2 ∧ Fresh cc_heap ∧
    (recompute_dirty files_sys [("in.c", 3), ("out.o", 5)] 2 cc_heap 0).map
      (fun r => (r.1, (r.2.node 0).dirty)) = some (true, false) ∧
    ∃ h1, recompute_dirty files_sys [("in.c", 3), ("out.o", 5)] 2 cc_heap 0 = some (true, h1) ∧
      ((h1.node 0).dirty = false →
        (∀ n, Reach cc_heap 0 n → (h1.node n).dirty = false ∧ spec_dirty h1 n = false) ∧
        build files_sys 2 [("in.c", 3), ("out.o", 5)] cc_heap cc_state 0 =
          some ⟨true, h1, [("in.c", 3), ("out.o", 5)], []⟩ ∧
        (Fresh cc_heap →
          (∀ e, edge_dirty h1 e = false) ∧
          ∀ es : List Nat, (plan_edges h1 es plan_create).2 = plan_create)) :=
  ⟨cc_ranked, by decide, cc_fresh, by decide,
    C20_noop_shortcut_sound files_sys [("in.c", 3), ("out.o", 5)] cc_heap cc_state cc_rank 0 2
      cc_ranked (by decide)⟩

/-! ## `plan_add_edge` -/

/-- The readiness test of `edge_all_inputs_ready`, input by input. -/
theorem edge_all_inputs_ready_iff (h : Heap) (e : Nat) :
    edge_all_inputs_ready h e = true ↔
      ∀ i ∈ (h.edge e).inputs, (h.node i).in_edge = none ∨
        ∃ p, (h.node i).in_edge = some p ∧ (h.edge p).outputs_ready = true := by
  unfold edge_all_inputs_ready
  rw [List.all_eq_true]
  refine forall_congr' fun i => forall_congr' fun _ => ?_
  cases (h.node i).in_edge with
  | none => simp
  | some p => simp

/-- C14, the counterexample: in `twice_graph`, with no file on disk and target
`o`, the scan leaves `o` dirty, and planning over the edge list `[e, p, e, e2]`
leaves `ready = [e, e2]` and `pending = [e]`: the edge `e` is in both. -/
theorem C14_counterexample :
    (recompute_dirty files_sys [] 3 twice_graph.1 0).map
      (fun r => (r.1, (r.2.node 0).dirty,
        (plan_edges r.2 twice_graph.2.edges plan_create).2.ready,
        (plan_edges r.2 twice_graph.2.edges plan_create).2.pending)) =
      some (true, true, [0, 2], [0]) ∧
    twice_graph.2.edges = [0, 1, 0, 2] := by
  decide

/-- C14, amended: `plan_add_edge` changes no node and no other edge.  When no
output of the edge is dirty it sets `outputs_ready` of the edge and leaves ready
and pending as they were.  Otherwise it leaves the heap as it was, and appends
the edge to ready when every input node has no producing edge or a producing
edge with `outputs_ready` set, and to pending when some input node fails that.
After `plan_add_edge` has been applied to every entry of an edge list in order,
starting from the empty plan, ready and pending are sublists of the edge list
(their entries are in addition order), ready followed by pending is a
permutation of the entries with a dirty output, and when the edge list holds
each edge once, ready and pending share no edge. -/
theorem C14_plan_add_edge_classifies (h : Heap) (plan : plan_t) (e : Nat) (es : List Nat) :
    (plan_add_edge h plan e).1.node = h.node ∧
    (∀ k, k ≠ e → (plan_add_edge h plan e).1.edge k = h.edge k) ∧
    ((∀ o ∈ (h.edge e).outputs, (h.node o).dirty = false) →
      ((plan_add_edge h plan e).1.edge e).outputs_ready = true ∧
      (plan_add_edge h plan e).2 = plan) ∧
    ((∃ o ∈ (h.edge e).outputs, (h.node o).dirty = true) →
      (plan_add_edge h plan e).1 = h ∧
      ((∀ i ∈ (h.edge e).inputs, (h.node i).in_edge = none ∨
          ∃ p, (h.node i).in_edge = some p ∧ (h.edge p).outputs_ready = true) →
        (plan_add_edge h plan e).2 = { plan with ready := plan.ready ++ [e] }) ∧
      ((¬ ∀ i ∈ (h.edge e).inputs, (h.node i).in_edge = none ∨
          ∃ p, (h.node i).in_edge = some p ∧ (h.edge p).outputs_ready = true) →
        (plan_add_edge h plan e).2 = { plan with pending := plan.pending ++ [e] })) ∧
    (plan_edges h es plan_create).2.ready.Sublist es ∧
    (plan_edges h es plan_create).2.pending.Sublist es ∧
    ((plan_edges h es plan_create).2.ready ++ (plan_edges h es plan_create).2.pending).Perm
      (es.filter (fun k => edge_dirty h k)) ∧
    (es.Nodup →
      (plan_edges h es plan_create).2.ready.Disjoint (plan_edges h es plan_create).2.pending) := by
  have hpp := plan_edges_post es h plan_create
  have hperm : ((plan_edges h es plan_create).2.ready ++
      (plan_edges h es plan_create).2.pending).Perm (es.filter (fun k => edge_dirty h k)) := by
    have := hpp.perm
    simpa [plan_create] using this
  refine ⟨plan_add_edge_node h plan e, ?_, ?_, ?_, ?_, ?_, hperm, ?_⟩
  · intro k hk
    rw [plan_add_edge_eq]
    by_cases hd : edge_dirty h e = true
    · rw [if_pos hd]
      by_cases hr : edge_all_inputs_ready h e = true
      · rw [if_pos hr]
      · rw [if_neg hr]
    · rw [if_neg hd]
      simp [Heap.set_outputs_ready, Function.update_noteq hk]
  · intro hclean
    have hd : ¬ edge_dirty h e = true := by
      intro hd
      obtain ⟨o, ho, hdo⟩ := edge_dirty_iff.1 hd
      rw [hclean o ho] at hdo
      cases hdo
    rw [plan_add_edge_eq, if_neg hd]
    exact ⟨by simp [Heap.set_outputs_ready], rfl⟩
  · rintro ⟨o, ho, hdo⟩
    have hd : edge_dirty h e = true := edge_dirty_iff.2 ⟨o, ho, hdo⟩
    rw [plan_add_edge_eq, if_pos hd]
    refine ⟨?_, fun hr => ?_, fun hr => ?_⟩
    · by_cases hr : edge_all_inputs_ready h e = true
      · rw [if_pos hr]
      · rw [if_neg hr]
    · rw [if_pos ((edge_all_inputs_ready_iff h e).2 hr)]
    · rw [if_neg (fun hc => hr ((edge_all_inputs_ready_iff h e).1 hc))]
  · obtain ⟨A, hA, hsub⟩ := hpp.ready_sub
    rw [hA]
    simpa [plan_create] using hsub
  · obtain ⟨B, hB, hsub⟩ := hpp.pending_sub
    rw [hB]
    simpa [plan_create] using hsub
  · intro hnd
    have hn : ((plan_edges h es plan_create).2.ready ++
        (plan_edges h es plan_create).2.pending).Nodup :=
      hperm.nodup_iff.2 (hnd.filter _)
    exact List.disjoint_of_nodup_append hn

/-- C14, amended, at the small graph with `out.o` marked dirty: the edge list
holds its one edge once, the edge has a dirty output and its input is a source,
so the edge is appended to ready. -/
theorem C14_witness :
    [0].Nodup ∧ (∃ o ∈ ((cc_heap.set_dirty 0 true).edge 0).outputs,
      ((cc_heap.set_dirty 0 true).node o).dirty = true) ∧
    (plan_add_edge (cc_heap.set_dirty 0 true) plan_create 0).2 = { ready := [0], pending := [] } ∧
    (plan_edges (cc_heap.set_dirty 0 true) [0] plan_create).2.ready.Disjoint
      (plan_edges (cc_heap.set_dirty 0 true) [0] plan_create).2.pending :=
  ⟨by decide, ⟨0, by decide, by decide⟩, rfl,
    (C14_plan_add_edge_classifies (cc_heap.set_dirty 0 true) plan_create 0 [0]).2.2.2.2.2.2.2
      (by decide)⟩

/-! ## The encoding of timestamps -/

/-- For a file whose `st_mtime` is positive and at most 9223372036 seconds,
the scaling of `node_stat` does not wrap: the timestamp is `st_mtime * 10^9`
and positive. -/
theorem stat_mtime_pos (sys : Sys W) (w : W) (p : String) (t : Int)
    (hstat : sys.stat w p = some t) (hpos : 0 < t) (hmax : t ≤ 9223372036) :
    stat_mtime sys w p = t * 1000000000 ∧ 0 < stat_mtime sys w p := by
  have hw : wrap_s64 (t * 1000000000) = t * 1000000000 := by
    unfold wrap_s64
    have h1 : (t * 1000000000 + 2 ^ 63) % 2 ^ 64 = t * 1000000000 + 2 ^ 63 :=
      Int.emod_eq_of_lt (by norm_num; omega) (by norm_num; omega)
    rw [h1]
    omega
  unfold stat_mtime
  rw [hstat]
  show wrap_s64 (t * 1000000000) = t * 1000000000 ∧ 0 < wrap_s64 (t * 1000000000)
  rw [hw]
  exact ⟨rfl, by omega⟩

/-- The timestamp of a path is 0 when the file is missing. -/
theorem stat_mtime_missing (sys : Sys W) (w : W) (p : String) (hstat : sys.stat w p = none) :
    stat_mtime sys w p = 0 := by
  unfold stat_mtime
  rw [hstat]

/-- C19: `node_stat` on the node `in.c` of the small graph, whose mtime is
unknown.  When the file exists with `st_mtime = 0` the call returns 0, the
value it returns when the file is missing; when the file exists with
`st_mtime = -1` it returns -1000000000, which is negative; and when the file
exists with `st_mtime = 9223372037` the product leaves the 64-bit range and
the call returns a negative value. -/
theorem C19_existing_file_not_positive :
    (cc_heap.node 1).mtime = -1 ∧
    files_sys.stat [("in.c", 0)] (cc_heap.node 1).path = some 0 ∧
    (node_stat files_sys [("in.c", 0)] cc_heap 1).2 = 0 ∧
    files_sys.stat [] (cc_heap.node 1).path = none ∧
    (node_stat files_sys [] cc_heap 1).2 = 0 ∧
    (node_stat files_sys [("in.c", -1)] cc_heap 1).2 = -1000000000 ∧
    (node_stat files_sys [("in.c", 9223372037)] cc_heap 1).2 = -9223372036709551616 := by
  decide

/-! ## An edge without inputs -/

/-- The scan of a node whose producing edge has no input: the node gets its
timestamp, and it is marked dirty exactly when the timestamp is at most 0. -/
theorem recompute_dirty_no_inputs (sys : Sys W) (w : W) (fuel : Nat) (h : Heap) (n e : Nat)
    (hin : (h.node n).in_edge = some e) (hno : (h.edge e).inputs = []) :
    ∃ h', recompute_dirty sys w (fuel + 1) h n = some (true, h') ∧
      (h'.node n).mtime = node_mtime sys w h n ∧
      (h'.node n).dirty = decide (node_mtime sys w h n ≤ 0) := by
  have hrun : recompute_dirty sys w (fuel + 1) h n =
      some (true, ((h.set_mtime n (node_mtime sys w h n)).set_dirty n
        (decide (node_mtime sys w h n = 0) || decide (0 > node_mtime sys w h n))).set_outputs_ready
          e (!(decide (node_mtime sys w h n = 0) || decide (0 > node_mtime sys w h n)))) := by
    simp [recompute_dirty, hin, node_stat_eq, Heap.set_mtime, Heap.set_dirty,
      Heap.set_outputs_ready, hno, scan_inputs]
  refine ⟨_, hrun, by simp [Heap.set_mtime, Heap.set_dirty, Heap.set_outputs_ready], ?_⟩
  have hint : ∀ m : Int, (decide (m = 0) || decide (0 > m)) = decide (m ≤ 0) := by
    intro m
    rw [Bool.eq_iff_iff]
    simp only [Bool.or_eq_true, decide_eq_true_eq]
    omega
  have hd : (decide (node_mtime sys w h n = 0) || decide (0 > node_mtime sys w h n)) =
      decide (node_mtime sys w h n ≤ 0) := hint _
  rw [← hd]
  simp [Heap.set_mtime, Heap.set_dirty, Heap.set_outputs_ready]

/-- C18: the scan of `gen.h` in the graph of the line `gen.h: | gen`, whose
edge has no input, when `gen.h` exists with `st_mtime = -1`: the node gets the
timestamp -1000000000, which is not 0, and is marked dirty; `build` then runs
the command although the file is there. -/
theorem C18_zero_input_old_file_is_dirty :
    (gen_heap.node 0).in_edge = some 0 ∧ (gen_heap.edge 0).inputs = [] ∧
    files_sys.stat [("gen.h", -1)] (gen_heap.node 0).path = some (-1) ∧
    (recompute_dirty files_sys [("gen.h", -1)] 1 gen_heap 0).map
      (fun r => (r.1, (r.2.node 0).mtime, (r.2.node 0).dirty)) =
      some (true, -1000000000, true) ∧
    (build files_sys 1 [("gen.h", -1)] gen_heap gen_state 0).map (fun r => (r.ok, r.log)) =
      some (true, [(0, true)]) := by
  decide

/-! ## The graph functions and the links of the graph -/

theorem edge_add_input_edge (h : Heap) (e n k : Nat) :
    (edge_add_input h e n).edge k =
      if k = e then { h.edge e with inputs := (h.edge e).inputs ++ [n] } else h.edge k := by
  by_cases hk : k = e
  · subst hk
    simp [edge_add_input]
  · simp [edge_add_input, Function.update_noteq hk, hk]

theorem edge_add_input_node (h : Heap) (e n m : Nat) :
    (edge_add_input h e n).node m =
      if m = n then { h.node n with out_edges := (h.node n).out_edges ++ [e] }
      else h.node m := by
  by_cases hm : m = n
  · subst hm
    simp [edge_add_input]
  · simp [edge_add_input, Function.update_noteq hm, hm]

theorem edge_add_output_edge (h : Heap) (e n k : Nat) :
    (edge_add_output h e n).edge k =
      if k = e then { h.edge e with outputs := (h.edge e).outputs ++ [n] } else h.edge k := by
  by_cases hk : k = e
  · subst hk
    simp [edge_add_output]
  · simp [edge_add_output, Function.update_noteq hk, hk]

theorem edge_add_output_node (h : Heap) (e n m : Nat) :
    (edge_add_output h e n).node m =
      if m = n then { h.node n with in_edge := some e } else h.node m := by
  by_cases hm : m = n
  · subst hm
    simp [edge_add_output]
  · simp [edge_add_output, Function.update_noteq hm, hm]

/-- The inputs of an edge after `edge_add_input`. -/
theorem mem_inputs_add_input {h : Heap} {e n k i : Nat} :
    i ∈ ((edge_add_input h e n).edge k).inputs ↔
      i ∈ (h.edge k).inputs ∨ (k = e ∧ i = n) := by
  rw [edge_add_input_edge]
  by_cases hk : k = e
  · subst hk
    simp
  · simp [hk]

/-- The outputs of an edge after `edge_add_output`. -/
theorem mem_outputs_add_output {h : Heap} {e n k o : Nat} :
    o ∈ ((edge_add_output h e n).edge k).outputs ↔
      o ∈ (h.edge k).outputs ∨ (k = e ∧ o = n) := by
  rw [edge_add_output_edge]
  by_cases hk : k = e
  · subst hk
    simp
  · simp [hk]

theorem outputs_add_input (h : Heap) (e n k : Nat) :
    ((edge_add_input h e n).edge k).outputs = (h.edge k).outputs := by
  rw [edge_add_input_edge]
  split
  · next hk => rw [hk]
  · rfl

theorem inputs_add_output (h : Heap) (e n k : Nat) :
    ((edge_add_output h e n).edge k).inputs = (h.edge k).inputs := by
  rw [edge_add_output_edge]
  split
  · next hk => rw [hk]
  · rfl

theorem in_edge_add_input (h : Heap) (e n m : Nat) :
    ((edge_add_input h e n).node m).in_edge = (h.node m).in_edge := by
  rw [edge_add_input_node]
  split
  · next hm => rw [hm]
  · rfl

theorem out_edges_add_output (h : Heap) (e n m : Nat) :
    ((edge_add_output h e n).node m).out_edges = (h.node m).out_edges := by
  rw [edge_add_output_node]
  split
  · next hm => rw [hm]
  · rfl

/-- `edge_add_input` keeps the link from inputs to consuming edges. -/
theorem linked_add_input {h : Heap} (hl : Linked h) (e n : Nat) :
    Linked (edge_add_input h e n) := by
  intro k i hi
  rw [edge_add_input_node]
  rcases mem_inputs_add_input.1 hi with hold | ⟨rfl, rfl⟩
  · by_cases him : i = n
    · subst him
      simp [hl k i hold]
    · simp [him, hl k i hold]
  · simp

/-- `edge_add_output` keeps the link from inputs to consuming edges. -/
theorem linked_add_output {h : Heap} (hl : Linked h) (e n : Nat) :
    Linked (edge_add_output h e n) := by
  intro k i hi
  rw [inputs_add_output] at hi
  rw [out_edges_add_output]
  exact hl k i hi

/-- `edge_add_input` keeps the producing edge of every output. -/
theorem oneProducer_add_input {h : Heap} (ho : OneProducer h) (e n : Nat) :
    OneProducer (edge_add_input h e n) := by
  intro k o hk
  rw [outputs_add_input] at hk
  rw [in_edge_add_input]
  exact ho k o hk

/-- `edge_add_output(e, n)` keeps the producing edge of every output when no
other edge has `n` in its outputs. -/
theorem oneProducer_add_output {h : Heap} (ho : OneProducer h) (e n : Nat)
    (hu : ∀ k, n ∈ (h.edge k).outputs → k = e) : OneProducer (edge_add_output h e n) := by
  intro k o hk
  rw [edge_add_output_node]
  rcases mem_outputs_add_output.1 hk with hold | ⟨rfl, rfl⟩
  · by_cases hon : o = n
    · subst hon
      simp [hu k hold]
    · simp [hon, ho k o hold]
  · simp

/-- `edge_add_input` keeps `Built`. -/
theorem built_add_input {h : Heap} (hb : Built h) (e n : Nat) :
    Built (edge_add_input h e n) := by
  refine ⟨fun m k hin => ?_, fun k m hm => ?_⟩
  · rw [in_edge_add_input] at hin
    rw [outputs_add_input]
    exact hb.1 m k hin
  · rw [outputs_add_input] at hm
    rw [in_edge_add_input]
    exact hb.2 k m hm

/-- `edge_add_output` keeps `Built`. -/
theorem built_add_output {h : Heap} (hb : Built h) (e n : Nat) :
    Built (edge_add_output h e n) := by
  refine ⟨fun m k hin => ?_, fun k m hm => ?_⟩
  · rw [edge_add_output_node] at hin
    by_cases hmn : m = n
    · subst hmn
      simp only [if_true, Option.some.injEq] at hin
      subst hin
      exact mem_outputs_add_output.2 (Or.inr ⟨rfl, rfl⟩)
    · rw [if_neg hmn] at hin
      exact mem_outputs_add_output.2 (Or.inl (hb.1 m k hin))
  · rw [edge_add_output_node]
    by_cases hmn : m = n
    · simp [hmn]
    · rw [if_neg hmn]
      rcases mem_outputs_add_output.1 hm with hm | ⟨_, hm⟩
      · exact hb.2 k m hm
      · exact absurd hm hmn

/-! ## What every sequence of calls of the graph functions keeps -/

theorem apiInv_empty : ApiInv heap_empty where
  linked := fun _ _ hn => by simp [heap_empty] at hn
  built := ⟨fun _ _ hin => by simp [heap_empty] at hin, fun _ _ hn => by simp [heap_empty] at hn⟩
  fresh := ⟨fun _ => ⟨rfl, rfl⟩, fun _ => rfl⟩
  in_edge_lt := fun _ _ hin => by simp [heap_empty] at hin
  inputs_lt := fun _ _ hn => by simp [heap_empty] at hn
  outputs_lt := fun _ _ hn => by simp [heap_empty] at hn
  unused := fun _ _ => ⟨rfl, rfl⟩

theorem node_create_node (h : Heap) (path : String) (m : Nat) :
    (node_create h path).1.node m =
      if m = h.n_nodes then
        { path := path, mtime := -1, dirty := false, in_edge := none, out_edges := [] }
      else h.node m := by
  by_cases hm : m = h.n_nodes
  · subst hm
    simp [node_create]
  · simp [node_create, Function.update_noteq hm, hm]

theorem edge_create_edge (h : Heap) (command : String) (k : Nat) :
    (edge_create h command).1.edge k =
      if k = h.n_edges then
        { command := command, inputs := [], outputs := [], outputs_ready := false }
      else h.edge k := by
  by_cases hk : k = h.n_edges
  · subst hk
    simp [edge_create]
  · simp [edge_create, Function.update_noteq hk, hk]

/-- `node_create` keeps the invariant: no edge refers to the new address. -/
theorem apiInv_node_create {h : Heap} (inv : ApiInv h) (path : String) :
    ApiInv (node_create h path).1 := by
  have hedge : (node_create h path).1.edge = h.edge := rfl
  have hnn : (node_create h path).1.n_nodes = h.n_nodes + 1 := rfl
  have hne : (node_create h path).1.n_edges = h.n_edges := rfl
  have hold : ∀ k m, (m ∈ (h.edge k).inputs ∨ m ∈ (h.edge k).outputs) →
      (node_create h path).1.node m = h.node m := by
    intro k m hm
    rw [node_create_node, if_neg]
    rcases hm with hm | hm
    · exact Nat.ne_of_lt (inv.inputs_lt k m hm)
    · exact Nat.ne_of_lt (inv.outputs_lt k m hm)
  refine ⟨?_, ⟨?_, ?_⟩, ⟨?_, ?_⟩, ?_, ?_, ?_, fun k hk => by rw [hedge]; exact inv.unused k hk⟩
  · intro k m hm
    rw [hedge] at hm
    rw [hold k m (Or.inl hm)]
    exact inv.linked k m hm
  · intro m k hin
    rw [hedge]
    rw [node_create_node] at hin
    by_cases hm : m = h.n_nodes
    · simp [hm] at hin
    · rw [if_neg hm] at hin
      exact inv.built.1 m k hin
  · intro k m hm
    rw [hedge] at hm
    rw [hold k m (Or.inr hm)]
    exact inv.built.2 k m hm
  · intro m
    rw [node_create_node]
    by_cases hm : m = h.n_nodes
    · simp [hm]
    · rw [if_neg hm]
      exact inv.fresh.1 m
  · intro k
    rw [hedge]
    exact inv.fresh.2 k
  · intro m k hin
    rw [hne]
    rw [node_create_node] at hin
    by_cases hm : m = h.n_nodes
    · simp [hm] at hin
    · rw [if_neg hm] at hin
      exact inv.in_edge_lt m k hin
  · intro k m hm
    rw [hedge] at hm
    rw [hnn]
    exact Nat.lt_succ_of_lt (inv.inputs_lt k m hm)
  · intro k m hm
    rw [hedge] at hm
    rw [hnn]
    exact Nat.lt_succ_of_lt (inv.outputs_lt k m hm)

/-- `state_get_node` keeps the invariant. -/
theorem apiInv_state_get_node {h : Heap} (inv : ApiInv h) (s : state_t) (path : String) :
    ApiInv (state_get_node h s path).1 := by
  unfold state_get_node
  cases s.nodes.lookup path with
  | some existing => exact inv
  | none => exact apiInv_node_create inv path

/-- `edge_create` keeps the invariant: no node refers to the new address. -/
theorem apiInv_edge_create {h : Heap} (inv : ApiInv h) (command : String) :
    ApiInv (edge_create h command).1 := by
  have hnode : (edge_create h command).1.node = h.node := rfl
  have hnn : (edge_create h command).1.n_nodes = h.n_nodes := rfl
  have hne : (edge_create h command).1.n_edges = h.n_edges + 1 := rfl
  have hmem : ∀ k m, (m ∈ ((edge_create h command).1.edge k).inputs →
        m ∈ (h.edge k).inputs) ∧
      (m ∈ ((edge_create h command).1.edge k).outputs → m ∈ (h.edge k).outputs) := by
    intro k m
    rw [edge_create_edge]
    by_cases hk : k = h.n_edges
    · simp [hk]
    · rw [if_neg hk]
      exact ⟨id, id⟩
  refine ⟨?_, ⟨?_, ?_⟩, ⟨?_, ?_⟩, ?_, ?_, ?_, ?_⟩
  rotate_right
  · intro k hk
    rw [hne] at hk
    rw [edge_create_edge, if_neg (by omega)]
    exact inv.unused k (by omega)
  · intro k m hm
    rw [hnode]
    exact inv.linked k m ((hmem k m).1 hm)
  · intro m k hin
    rw [hnode] at hin
    rw [edge_create_edge, if_neg (Nat.ne_of_lt (inv.in_edge_lt m k hin))]
    exact inv.built.1 m k hin
  · intro k m hm
    rw [hnode]
    exact inv.built.2 k m ((hmem k m).2 hm)
  · intro m
    rw [hnode]
    exact inv.fresh.1 m
  · intro k
    rw [edge_create_edge]
    by_cases hk : k = h.n_edges
    · simp [hk]
    · rw [if_neg hk]
      exact inv.fresh.2 k
  · intro m k hin
    rw [hnode] at hin
    rw [hne]
    exact Nat.lt_succ_of_lt (inv.in_edge_lt m k hin)
  · intro k m hm
    rw [hnn]
    exact inv.inputs_lt k m ((hmem k m).1 hm)
  · intro k m hm
    rw [hnn]
    exact inv.outputs_lt k m ((hmem k m).2 hm)

/-- `edge_add_input` on a node that was created keeps the invariant. -/
theorem apiInv_add_input {h : Heap} (inv : ApiInv h) (e n : Nat) (he : e < h.n_edges)
    (hn : n < h.n_nodes) : ApiInv (edge_add_input h e n) := by
  refine ⟨linked_add_input inv.linked e n, built_add_input inv.built e n, ⟨?_, ?_⟩, ?_, ?_, ?_,
    ?_⟩
  rotate_right
  · intro k hk
    have hke : k ≠ e := fun hc => by
      rw [hc] at hk
      exact absurd he (Nat.not_lt.2 hk)
    rw [edge_add_input_edge, if_neg hke]
    exact inv.unused k hk
  · intro m
    rw [edge_add_input_node]
    by_cases hm : m = n
    · subst hm
      simpa using inv.fresh.1 m
    · rw [if_neg hm]
      exact inv.fresh.1 m
  · intro k
    rw [edge_add_input_edge]
    by_cases hk : k = e
    · subst hk
      simpa using inv.fresh.2 k
    · rw [if_neg hk]
      exact inv.fresh.2 k
  · intro m k hin
    rw [in_edge_add_input] at hin
    exact inv.in_edge_lt m k hin
  · intro k m hm
    rcases mem_inputs_add_input.1 hm with hm | ⟨_, rfl⟩
    · exact inv.inputs_lt k m hm
    · exact hn
  · intro k m hm
    rw [outputs_add_input] at hm
    exact inv.outputs_lt k m hm

/-- `edge_add_output` on an edge and a node that were created keeps the
invariant. -/
theorem apiInv_add_output {h : Heap} (inv : ApiInv h) (e n : Nat) (he : e < h.n_edges)
    (hn : n < h.n_nodes) : ApiInv (edge_add_output h e n) := by
  refine ⟨linked_add_output inv.linked e n, built_add_output inv.built e n, ⟨?_, ?_⟩,
    ?_, ?_, ?_, ?_⟩
  rotate_right
  · intro k hk
    have hke : k ≠ e := fun hc => by
      rw [hc] at hk
      exact absurd he (Nat.not_lt.2 hk)
    rw [edge_add_output_edge, if_neg hke]
    exact inv.unused k hk
  · intro m
    rw [edge_add_output_node]
    by_cases hm : m = n
    · subst hm
      simpa using inv.fresh.1 m
    · rw [if_neg hm]
      exact inv.fresh.1 m
  · intro k
    rw [edge_add_output_edge]
    by_cases hk : k = e
    · subst hk
      simpa using inv.fresh.2 k
    · rw [if_neg hk]
      exact inv.fresh.2 k
  · intro m k hin
    rw [edge_add_output_node] at hin
    by_cases hm : m = n
    · simp only [hm, if_true, Option.some.injEq] at hin
      subst hin
      exact he
    · rw [if_neg hm] at hin
      exact inv.in_edge_lt m k hin
  · intro k m hm
    rw [inputs_add_output] at hm
    exact inv.inputs_lt k m hm
  · intro k m hm
    rcases mem_outputs_add_output.1 hm with hm | ⟨_, rfl⟩
    · exact inv.outputs_lt k m hm
    · exact hn

/-- One call keeps the invariant. -/
theorem apiInv_step {hs hs' : Heap × state_t} (inv : ApiInv hs.1) (c : api_call)
    (hstep : api_step hs c = some hs') : ApiInv hs'.1 := by
  cases c with
  | state_get_node path =>
    simp only [api_step, Option.some.injEq] at hstep
    subst hstep
    exact apiInv_state_get_node inv hs.2 path
  | edge_create command =>
    simp only [api_step, Option.some.injEq] at hstep
    subst hstep
    exact apiInv_edge_create inv command
  | edge_add_input e n =>
    simp only [api_step] at hstep
    split at hstep
    · next hv =>
      simp only [Option.some.injEq] at hstep
      subst hstep
      exact apiInv_add_input inv e n hv.1 hv.2
    · cases hstep
  | edge_add_output e n =>
    simp only [api_step] at hstep
    split at hstep
    · next hv =>
      simp only [Option.some.injEq] at hstep
      subst hstep
      exact apiInv_add_output inv e n hv.1 hv.2
    · cases hstep
  | state_add_edge e =>
    simp only [api_step] at hstep
    split at hstep
    · simp only [Option.some.injEq] at hstep
      subst hstep
      exact inv
    · cases hstep

/-- Every sequence of calls keeps the invariant. -/
theorem apiInv_run : ∀ (cs : List api_call) (hs hs' : Heap × state_t), ApiInv hs.1 →
    api_run cs hs = some hs' → ApiInv hs'.1
  | [], hs, hs', inv, hrun => by
    simp only [api_run, Option.some.injEq] at hrun
    subst hrun
    exact inv
  | c :: cs, hs, hs', inv, hrun => by
    simp only [api_run] at hrun
    cases hstep : api_step hs c with
    | none => simp [hstep] at hrun
    | some hs1 =>
      rw [hstep] at hrun
      exact apiInv_run cs hs1 hs' (apiInv_step inv c hstep) hrun

/-! ## The two-way invariant -/

/-- The two-way invariant holds in the graph of the two lines `a: b | touch a`
and `b: a | touch b`. -/
theorem cycle_bidirectional : Bidirectional cycle_heap := by
  refine ⟨fun e n hn => ?_, fun e n hn => ?_⟩
  · match e with
    | 0 =>
      simp only [cycle_heap, List.mem_singleton] at hn
      subst hn
      rfl
    | 1 =>
      simp only [cycle_heap, List.mem_singleton] at hn
      subst hn
      rfl
    | e + 2 => simp [cycle_heap] at hn
  · match e with
    | 0 =>
      simp only [cycle_heap, List.mem_singleton] at hn
      subst hn
      simp [cycle_heap]
    | 1 =>
      simp only [cycle_heap, List.mem_singleton] at hn
      subst hn
      simp [cycle_heap]
    | e + 2 => simp [cycle_heap] at hn

/-- Node `a` is in the outputs of edge 0 only. -/
theorem cycle_output_zero : ∀ k, 0 ∈ (cycle_heap.edge k).outputs → k = 0 := by
  intro k hk
  match k with
  | 0 => rfl
  | 1 => simp [cycle_heap] at hk
  | k + 2 => simp [cycle_heap] at hk

/-- In a state that the graph functions built, the two-way invariant holds as
soon as no node is in the outputs of two edges. -/
theorem bidirectional_of_unique {h : Heap} (inv : ApiInv h) (hu : UniqueOutput h) :
    Bidirectional h := by
  refine ⟨fun e n hn => ?_, inv.linked⟩
  cases hin : (h.node n).in_edge with
  | none => exact absurd hin (inv.built.2 e n hn)
  | some k => rw [hu n e k hn (inv.built.1 n k hin)]

/-- No node is in the outputs of two edges in the state that `cc_calls`
leaves. -/
theorem cc_api_unique : UniqueOutput cc_api.1 := by
  have inv : ApiInv cc_api.1 :=
    apiInv_run cc_calls (heap_empty, state_create) cc_api apiInv_empty rfl
  have hone : ∀ e n, n ∈ (cc_api.1.edge e).outputs → e = 0 := by
    intro e n hn
    match e with
    | 0 => rfl
    | e + 1 =>
      rw [(inv.unused (e + 1) (Nat.succ_le_succ (Nat.zero_le e))).2] at hn
      cases hn
  intro n e k h1 h2
  rw [hone e n h1, hone k n h2]

/-- The last writer after one more call. -/
theorem last_writer_concat (cs : List api_call) (c : api_call) (n : Nat) :
    last_writer (cs ++ [c]) n = writer_step n (last_writer cs n) c := by
  simp [last_writer, List.foldl_append]

/-- After a call `edge_add_output(e, n)` the last writer of `n` is `e`, and the
last writer of every other node is what it was. -/
theorem last_writer_add_output (cs : List api_call) (e n m : Nat) :
    last_writer (cs ++ [.edge_add_output e n]) m = if n = m then some e else last_writer cs m := by
  rw [last_writer_concat]
  rfl

/-- One call changes the producing edge of a node as `writer_step` says, and
leaves the nodes that are not created yet without producing edge. -/
theorem in_edge_step {hs hs' : Heap × state_t}
    (hun : ∀ n, hs.1.n_nodes ≤ n → (hs.1.node n).in_edge = none) (c : api_call)
    (hstep : api_step hs c = some hs') :
    (∀ n, (hs'.1.node n).in_edge = writer_step n ((hs.1.node n).in_edge) c) ∧
    ∀ n, hs'.1.n_nodes ≤ n → (hs'.1.node n).in_edge = none := by
  cases c with
  | state_get_node path =>
    simp only [api_step, Option.some.injEq] at hstep
    subst hstep
    show (∀ n, ((state_get_node hs.1 hs.2 path).1.node n).in_edge = (hs.1.node n).in_edge) ∧
      ∀ n, (state_get_node hs.1 hs.2 path).1.n_nodes ≤ n →
        ((state_get_node hs.1 hs.2 path).1.node n).in_edge = none
    unfold state_get_node
    cases hs.2.nodes.lookup path with
    | some existing => exact ⟨fun _ => rfl, hun⟩
    | none =>
      have hnn : (node_create hs.1 path).1.n_nodes = hs.1.n_nodes + 1 := rfl
      refine ⟨fun n => ?_, fun n hn => ?_⟩
      · show ((node_create hs.1 path).1.node n).in_edge = (hs.1.node n).in_edge
        rw [node_create_node]
        by_cases hnk : n = hs.1.n_nodes
        · rw [if_pos hnk, hun n (by rw [hnk])]
        · rw [if_neg hnk]
      · show ((node_create hs.1 path).1.node n).in_edge = none
        have hn2 : hs.1.n_nodes + 1 ≤ n := hn
        rw [node_create_node, if_neg (by omega)]
        exact hun n (by omega)
  | edge_create command =>
    simp only [api_step, Option.some.injEq] at hstep
    subst hstep
    exact ⟨fun _ => rfl, hun⟩
  | edge_add_input e m =>
    simp only [api_step] at hstep
    split at hstep
    · simp only [Option.some.injEq] at hstep
      subst hstep
      exact ⟨fun n => in_edge_add_input hs.1 e m n,
        fun n hn => by
          show ((edge_add_input hs.1 e m).node n).in_edge = none
          rw [in_edge_add_input]
          exact hun n hn⟩
    · cases hstep
  | edge_add_output e m =>
    simp only [api_step] at hstep
    split at hstep
    · next hv =>
      simp only [Option.some.injEq] at hstep
      subst hstep
      have key : ∀ n, ((edge_add_output hs.1 e m).node n).in_edge =
          if m = n then some e else (hs.1.node n).in_edge := by
        intro n
        rw [edge_add_output_node]
        by_cases hnm : n = m
        · subst hnm
          simp
        · rw [if_neg hnm, if_neg (fun hc => hnm hc.symm)]
      refine ⟨fun n => key n, fun n hn => ?_⟩
      show ((edge_add_output hs.1 e m).node n).in_edge = none
      have hn2 : hs.1.n_nodes ≤ n := hn
      rw [key n, if_neg (by omega)]
      exact hun n hn2
    · cases hstep
  | state_add_edge e =>
    simp only [api_step] at hstep
    split at hstep
    · simp only [Option.some.injEq] at hstep
      subst hstep
      exact ⟨fun _ => rfl, hun⟩
    · cases hstep

/-- After a sequence of calls the producing edge of every node is what the
calls `edge_add_output` on that node left, the last one winning. -/
theorem in_edge_run : ∀ (cs : List api_call) (hs hs' : Heap × state_t),
    (∀ n, hs.1.n_nodes ≤ n → (hs.1.node n).in_edge = none) →
    api_run cs hs = some hs' →
    ∀ n, (hs'.1.node n).in_edge = cs.foldl (writer_step n) ((hs.1.node n).in_edge)
  | [], hs, hs', _, hrun => by
    simp only [api_run, Option.some.injEq] at hrun
    subst hrun
    exact fun _ => rfl
  | c :: cs, hs, hs', hun, hrun => by
    simp only [api_run] at hrun
    cases hstep : api_step hs c with
    | none => simp [hstep] at hrun
    | some hs1 =>
      rw [hstep] at hrun
      obtain ⟨h1, h2⟩ := in_edge_step hun c hstep
      intro n
      rw [in_edge_run cs hs1 hs' h2 hrun n, h1 n]
      rfl

/-- C11, the counterexample: the calls for the two lines `x: | one` and
`x: | two` leave node `x` in the outputs of edge 0 with edge 1 as its producing
edge, so the two-way invariant fails in a state the graph functions built; and
`edge_add_output(edge 1, a)` on the graph of `a: b | touch a` and
`b: a | touch b`, in which the invariant holds, leaves a graph in which it
fails. -/
theorem C11_counterexample :
    (∃ hs, api_run dup_calls (heap_empty, state_create) = some hs ∧
      0 ∈ (hs.1.edge 0).outputs ∧ (hs.1.node 0).in_edge = some 1 ∧ ¬ Bidirectional hs.1) ∧
    Bidirectional cycle_heap ∧ ¬ Bidirectional (edge_add_output cycle_heap 1 0) := by
  have key : (api_run dup_calls (heap_empty, state_create)).map
      (fun hs => ((hs.1.edge 0).outputs, (hs.1.node 0).in_edge)) = some ([0], some 1) := by
    decide
  refine ⟨?_, cycle_bidirectional, fun hb => ?_⟩
  · cases hrun : api_run dup_calls (heap_empty, state_create) with
    | none =>
      rw [hrun] at key
      cases key
    | some hs =>
      rw [hrun] at key
      simp only [Option.map_some', Option.some.injEq, Prod.mk.injEq] at key
      have hmem : 0 ∈ (hs.1.edge 0).outputs := by rw [key.1]; simp
      refine ⟨hs, rfl, hmem, key.2, fun hb => ?_⟩
      have := hb.1 0 0 hmem
      rw [key.2] at this
      cases this
  · have := hb.1 0 0 (by decide)
    revert this
    decide

/-- C11, amended: in every state that a sequence of calls of
`state_get_node`, `edge_create`, `edge_add_input`, `edge_add_output` and
`state_add_edge` builds from the empty state, on edges and nodes that earlier
calls returned, every node in the inputs of an edge has that edge among its
consuming edges, the producing edge of every node lists the node in its
outputs, and every node in the outputs of an edge has a producing edge; the
producing edge of every node is the edge of the last call `edge_add_output` on
that node in the sequence (`last_writer`), and a node on which there was no
such call has none; when no node is in the outputs of two edges, every node in
the outputs of an edge has that edge as producing edge.  `edge_add_input` keeps
the two-way invariant on every heap; `edge_add_output(e, n)` keeps it when no
other edge has `n` in its outputs, and in every case leaves `n` in the outputs
of `e` with `e` as its producing edge. -/
theorem C11_graph_functions_keep_links (cs : List api_call) (hs : Heap × state_t)
    (hrun : api_run cs (heap_empty, state_create) = some hs) :
    Linked hs.1 ∧ Built hs.1 ∧ (∀ n, (hs.1.node n).in_edge = last_writer cs n) ∧
    (∀ e n, n ∈ (hs.1.edge e).outputs → ∃ k, last_writer cs n = some k ∧
      (hs.1.node n).in_edge = some k ∧ n ∈ (hs.1.edge k).outputs) ∧
    (UniqueOutput hs.1 → Bidirectional hs.1) ∧
    (∀ (h : Heap) (e n : Nat), Bidirectional h → Bidirectional (edge_add_input h e n)) ∧
    (∀ (h : Heap) (e n : Nat), Bidirectional h → (∀ k, n ∈ (h.edge k).outputs → k = e) →
      Bidirectional (edge_add_output h e n)) ∧
    ∀ (h : Heap) (e n : Nat), n ∈ ((edge_add_output h e n).edge e).outputs ∧
      ((edge_add_output h e n).node n).in_edge = some e := by
  have inv : ApiInv hs.1 := apiInv_run cs _ hs apiInv_empty hrun
  have hlast : ∀ n, (hs.1.node n).in_edge = last_writer cs n :=
    in_edge_run cs (heap_empty, state_create) hs (fun _ _ => rfl) hrun
  refine ⟨inv.linked, inv.built, hlast, ?_, bidirectional_of_unique inv, ?_, ?_, ?_⟩
  · intro e n hn
    cases hin : (hs.1.node n).in_edge with
    | none => exact absurd hin (inv.built.2 e n hn)
    | some k => exact ⟨k, by rw [← hlast n, hin], rfl, inv.built.1 n k hin⟩
  · intro h e n hb
    exact ⟨oneProducer_add_input hb.1 e n, linked_add_input hb.2 e n⟩
  · intro h e n hb hu
    exact ⟨oneProducer_add_output hb.1 e n hu, linked_add_output hb.2 e n⟩
  · intro h e n
    refine ⟨mem_outputs_add_output.2 (Or.inr ⟨rfl, rfl⟩), ?_⟩
    rw [edge_add_output_node, if_pos rfl]

set_option maxRecDepth 100000 in
/-- The last writers in the two sequences of calls. -/
theorem last_writer_values :
    last_writer cc_calls 0 = some 0 ∧ last_writer cc_calls 1 = none ∧
    last_writer dup_calls 0 = some 1 ∧ 0 ∈ (dup_api.1.edge 0).outputs ∧
    0 ∈ (dup_api.1.edge 1).outputs := by
  decide

/-- The run of `dup_calls` returns. -/
theorem dup_api_run : api_run dup_calls (heap_empty, state_create) = some dup_api := rfl

/-- C11, amended, at the calls for the line `out.o: in.c | cc -c in.c -o out.o`
and at the calls for the two lines `x: | one` and `x: | two`: in the second
state `x` is in the outputs of both edges and its producing edge is edge 1, the
edge of the last call `edge_add_output` on `x`. -/
theorem C11_witness :
    api_run cc_calls (heap_empty, state_create) = some cc_api ∧ UniqueOutput cc_api.1 ∧
    Bidirectional cycle_heap ∧ (∀ k, 0 ∈ (cycle_heap.edge k).outputs → k = 0) ∧
    last_writer cc_calls 0 = some 0 ∧ last_writer cc_calls 1 = none ∧
    api_run dup_calls (heap_empty, state_create) = some dup_api ∧
    last_writer dup_calls 0 = some 1 ∧ 0 ∈ (dup_api.1.edge 0).outputs ∧
    (dup_api.1.node 0).in_edge = last_writer dup_calls 0 ∧
    Linked cc_api.1 ∧ Built cc_api.1 ∧ (∀ n, (cc_api.1.node n).in_edge = last_writer cc_calls n) ∧
    (∀ e n, n ∈ (cc_api.1.edge e).outputs → ∃ k, last_writer cc_calls n = some k ∧
      (cc_api.1.node n).in_edge = some k ∧ n ∈ (cc_api.1.edge k).outputs) ∧
    (UniqueOutput cc_api.1 → Bidirectional cc_api.1) ∧
    (∀ (h : Heap) (e n : Nat), Bidirectional h → Bidirectional (edge_add_input h e n)) ∧
    (∀ (h : Heap) (e n : Nat), Bidirectional h → (∀ k, n ∈ (h.edge k).outputs → k = e) →
      Bidirectional (edge_add_output h e n)) ∧
    ∀ (h : Heap) (e n : Nat), n ∈ ((edge_add_output h e n).edge e).outputs ∧
      ((edge_add_output h e n).node n).in_edge = some e :=
  ⟨rfl, cc_api_unique, cycle_bidirectional, cycle_output_zero, last_writer_values.1,
    last_writer_values.2.1, dup_api_run, last_writer_values.2.2.1, last_writer_values.2.2.2.1,
    (C11_graph_functions_keep_links dup_calls dup_api dup_api_run).2.2.1 0,
    C11_graph_functions_keep_links cc_calls cc_api rfl⟩

/-! ## A target whose inputs are leaves, in an edge list that holds its edge -/

/-- The scan of a target whose producing edge `e` has only leaves as inputs,
one of them missing, on a fresh graph built with the graph functions in which
no other edge has the target in its outputs: the target is dirty and `e` is
the only edge with a dirty output. -/
theorem scan_leaves (sys : Sys W) (w : W) (h : Heap) (target e L f : Nat)
    (hin : (h.node target).in_edge = some e) (hL : L ∈ (h.edge e).inputs)
    (hmiss : node_mtime sys w h L = 0) (hfresh : Fresh h) (hbuilt : Built h)
    (huniq : ∀ k, target ∈ (h.edge k).outputs → k = e)
    (hleaves : ∀ i ∈ (h.edge e).inputs, (h.node i).in_edge = none) :
    ∃ h1, recompute_dirty sys w (f + 2) h target = some (true, h1) ∧
      (h1.node target).dirty = true ∧ SameGraph h h1 ∧
      ∀ x, edge_dirty h1 x = true ↔ x = e := by
  have hsome := recompute_dirty_leaves sys w f h target e hin hleaves
  cases hs : recompute_dirty sys w (f + 2) h target with
  | none => rw [hs] at hsome; cases hsome
  | some bh =>
    obtain ⟨b, h1⟩ := bh
    obtain ⟨hb, p, _, hdirty⟩ := recompute_dirty_call sys w (f + 2) h target b h1 hs
    subst hb
    have hd : (h1.node target).dirty = true := hdirty e L hin hL (hleaves L hL) hmiss
    refine ⟨h1, rfl, hd, p.same, fun x => ⟨fun hx => ?_, fun hx => ?_⟩⟩
    · obtain ⟨o, ho, hdo⟩ := edge_dirty_iff.1 hx
      rw [p.same.outputs] at ho
      have hro : Reach h target o := by
        by_contra hn
        rw [p.frame o hn, (hfresh.1 o).2] at hdo
        cases hdo
      have hot : o = target := by
        rcases reach_cases hro with e' | ⟨i, ⟨e', he', hi⟩, hr⟩
        · exact e'
        · rw [hin] at he'
          cases he'
          have := reach_leaf (hleaves i hi) hr
          subst this
          exact absurd (hleaves o hi) (hbuilt.2 x o ho)
      subst hot
      exact huniq x ho
    · subst hx
      exact edge_dirty_iff.2 ⟨target, by rw [p.same.outputs]; exact hbuilt.1 target x hin, hd⟩

/-- The planning loop when `e` is the only edge with a dirty output and all
inputs of `e` are leaves: every entry `e` of the edge list is appended to
ready, and nothing is appended to pending. -/
theorem plan_edges_only (e : Nat) : ∀ (es : List Nat) (h : Heap) (plan : plan_t),
    (∀ x, edge_dirty h x = true ↔ x = e) →
    (∀ i ∈ (h.edge e).inputs, (h.node i).in_edge = none) →
    (plan_edges h es plan).2 = ⟨plan.ready ++ List.replicate (es.count e) e, plan.pending⟩
  | [], h, plan, _, _ => by
    cases plan
    simp [plan_edges]
  | x :: es, h, plan, hd, hl => by
    rw [plan_edges_cons, plan_add_edge_eq]
    by_cases hx : x = e
    · subst hx
      have hr : edge_all_inputs_ready h x = true :=
        ready_of_inputs (fun i hi p hp => by rw [hl i hi] at hp; cases hp)
      rw [if_pos ((hd x).2 rfl), if_pos hr]
      rw [plan_edges_only x es h _ hd hl]
      simp [List.replicate_succ]
    · rw [if_neg (fun hc => hx ((hd x).1 hc))]
      have hs := sameGraph_set_outputs_ready h x true
      rw [plan_edges_only e es (h.set_outputs_ready x true) plan
        (fun y => by rw [edge_dirty_congr (set_outputs_ready_node h x true) hs y]; exact hd y)
        (fun i hi => by
          rw [hs.inputs] at hi
          rw [hs.in_edge]
          exact hl i hi)]
      rw [List.count_cons_of_ne (fun hc => hx hc.symm)]

/-- The execute loop started with `k` entries of one edge `e` in ready and
nothing in pending: it returns with every fuel from `k` on, it executes `e` and
no other edge, at most `k` times and `k` times when it succeeds, it succeeds
exactly when every execution succeeded, and its first execution is the command
of `e` in the world of the start. -/
theorem execute_loop_replicate (sys : Sys W) (e : Nat) :
    ∀ (k fuel : Nat) (w : W) (h : Heap), k ≤ fuel →
      ∃ out, execute_loop sys fuel w h ⟨List.replicate k e, []⟩ = some out ∧
        out.plan.pending = [] ∧ (∀ x ∈ out.log, x.1 = e) ∧
        (out.ok = true ↔ ∀ x ∈ out.log, x.2 = true) ∧
        out.log.length ≤ k ∧ (out.ok = true → out.log.length = k) ∧
        (k = 0 → out.world = w) ∧
        (0 < k → ∃ rest,
          out.log = (e, decide ((sys.system w (h.edge e).command).1 = 0)) :: rest) ∧
        (k = 1 → out.world = (sys.system w (h.edge e).command).2)
  | 0, fuel, w, h, _ => by
    refine ⟨_, execute_loop_nil sys fuel w h ⟨[], []⟩ rfl, rfl, ?_, ?_, ?_, ?_, ?_, ?_, ?_⟩
    · intro x hx
      cases hx
    · exact ⟨fun _ x hx => (by cases hx), fun _ => rfl⟩
    · exact Nat.le_refl _
    · exact fun _ => rfl
    · exact fun _ => rfl
    · intro hk
      exact absurd hk (Nat.lt_irrefl 0)
    · intro hk
      cases hk
  | k + 1, 0, _, _, hf => absurd hf (Nat.not_succ_le_zero k)
  | k + 1, fuel + 1, w, h, hf => by
    have hrep : List.replicate (k + 1) e = List.replicate k e ++ [e] :=
      List.replicate_succ' k e
    rw [hrep, execute_loop_succ]
    by_cases hret : (sys.system w (h.edge e).command).1 = 0
    · have hok : (execute_edge sys w h e).ok = true := (execute_edge_ok_iff sys w h e).2 hret
      rw [if_neg (by simp [hok])]
      have hupd : plan_update_ready (execute_edge sys w h e).heap ⟨List.replicate k e, []⟩ =
          ⟨List.replicate k e, []⟩ := by
        rw [plan_update_ready_eq]
        simp
      rw [hupd]
      obtain ⟨out, hrun, hp, hall, hokiff, hlen, hlen2, hw0, _, _⟩ :=
        execute_loop_replicate sys e k fuel (execute_edge sys w h e).world
          (execute_edge sys w h e).heap (Nat.le_of_succ_le_succ hf)
      rw [hrun]
      refine ⟨_, rfl, hp, ?_, ?_, ?_, ?_, ?_, ?_, ?_⟩
      · intro x hx
        rcases List.mem_cons.1 hx with rfl | hx
        · rfl
        · exact hall x hx
      · constructor
        · intro ho x hx
          rcases List.mem_cons.1 hx with rfl | hx
          · rfl
          · exact hokiff.1 ho x hx
        · intro hx
          exact hokiff.2 (fun x hmem => hx x (List.mem_cons_of_mem _ hmem))
      · simpa using hlen
      · intro ho
        simpa using hlen2 ho
      · intro hk
        cases hk
      · intro _
        exact ⟨out.log, by simp [hret]⟩
      · intro hk
        have hk0 : k = 0 := by omega
        show out.world = (sys.system w (h.edge e).command).2
        rw [hw0 hk0, execute_edge_world]
    · have hok : (execute_edge sys w h e).ok = false := by
        cases hb : (execute_edge sys w h e).ok with
        | false => rfl
        | true => exact absurd ((execute_edge_ok_iff sys w h e).1 hb) hret
      rw [if_pos hok]
      refine ⟨_, rfl, rfl, ?_, ?_, ?_, ?_, ?_, ?_, ?_⟩
      · intro x hx
        simp only [List.mem_singleton] at hx
        rw [hx]
      · constructor
        · intro ho
          cases ho
        · intro hx
          have := hx (e, false) (by simp)
          cases this
      · simp
      · intro ho
        cases ho
      · intro hk
        cases hk
      · intro _
        exact ⟨[], by simp [hret]⟩
      · intro _
        exact execute_edge_world sys w h e

/-! ## A missing source -/

set_option maxRecDepth 100000 in
/-- The build of `x: a | c1`, `x: b | c2` with `b` missing and `c1` failing:
`c2` runs and succeeds, then `c1` runs and fails, and `build` returns false. -/
theorem twin_build_fails :
    (twin_api.1.node 0).in_edge = some 1 ∧ (twin_api.1.edge 1).inputs = [2] ∧
    (twin_api.1.node 2).in_edge = none ∧ (twin_api.1.node 2).mtime = -1 ∧
    c1_fails_sys.stat [("a", 3)] (twin_api.1.node 2).path = none ∧
    twin_api.2.edges = [0, 1] ∧ 0 ∈ (twin_api.1.edge 0).outputs ∧
    (c1_fails_sys.system [("a", 3)] (twin_api.1.edge 1).command).1 = 0 ∧
    (build c1_fails_sys 2 [("a", 3)] twin_api.1 twin_api.2 0).map (fun r => (r.ok, r.log)) =
      some (false, [(1, true), (0, false)]) := by
  decide

set_option maxRecDepth 100000 in
/-- The build of the small graph with `in.c` missing when the edge is not in
the edge list: `build` returns true and executes nothing. -/
theorem cc_build_unlisted :
    (cc_heap.node 0).in_edge = some 0 ∧ (cc_heap.edge 0).inputs = [1] ∧
    (cc_heap.node 1).in_edge = none ∧ fail_sys.stat [] (cc_heap.node 1).path = none ∧
    cc_unlisted.edges = [] ∧
    (fail_sys.system [] (cc_heap.edge 0).command).1 ≠ 0 ∧
    (build fail_sys 2 [] cc_heap cc_unlisted 0).map (fun r => (r.ok, r.log)) =
      some (true, []) := by
  decide

/-- C6, the counterexample.  (1) For the two lines `x: a | c1` and `x: b | c2`
with `b` missing, the target `x` has the producing edge `c2`, whose only input
`b` is a missing leaf, and the command `c2` succeeds; but the edge `c1` has the
dirty node `x` in its outputs too, `build` executes `c2` and then `c1`, which
fails, and returns false: its result is not the result of the command of the
producing edge.  (2) For the line `out.o: in.c | cc -c in.c -o out.o` with
`in.c` missing and the edge never passed to `state_add_edge`, `build` returns
true without executing the command, which would fail. -/
theorem C6_counterexample :
    ((twin_api.1.node 0).in_edge = some 1 ∧ (twin_api.1.edge 1).inputs = [2] ∧
      (twin_api.1.node 2).in_edge = none ∧ (twin_api.1.node 2).mtime = -1 ∧
      c1_fails_sys.stat [("a", 3)] (twin_api.1.node 2).path = none ∧
      twin_api.2.edges = [0, 1] ∧ 0 ∈ (twin_api.1.edge 0).outputs ∧
      (c1_fails_sys.system [("a", 3)] (twin_api.1.edge 1).command).1 = 0 ∧
      (build c1_fails_sys 2 [("a", 3)] twin_api.1 twin_api.2 0).map (fun r => (r.ok, r.log)) =
        some (false, [(1, true), (0, false)])) ∧
    ((cc_heap.node 0).in_edge = some 0 ∧ (cc_heap.edge 0).inputs = [1] ∧
      (cc_heap.node 1).in_edge = none ∧ fail_sys.stat [] (cc_heap.node 1).path = none ∧
      cc_unlisted.edges = [] ∧
      (fail_sys.system [] (cc_heap.edge 0).command).1 ≠ 0 ∧
      (build fail_sys 2 [] cc_heap cc_unlisted 0).map (fun r => (r.ok, r.log)) =
        some (true, [])) :=
  ⟨twin_build_fails, cc_build_unlisted⟩

/-- C6, amended: let the producing edge `e` of the target have among its
inputs a leaf `L` whose mtime is unknown and whose file does not exist.
(1) Every call `recompute_dirty(target)` that returns, on any graph and
whatever the other timestamps are, returns true and leaves the target dirty;
(2) on an acyclic graph the call returns; (3) on a fresh graph built with the
graph functions in which no other edge has the target in its outputs and `e` is
in the edge list, when all the inputs of `e` are leaves, the planning loop puts
every entry `e` of the edge list in ready and nothing in pending, `build`
returns, its first call of `execute_edge` is the command of `e`, it executes no
other edge, and it returns true exactly when every execution of the command
succeeded: it returns false when the command fails, and when `e` is once in the
edge list the command is executed once and the result of `build` is the result
of the command. -/
theorem C6_missing_source (sys : Sys W) (w : W) (h : Heap) (s : state_t) (target e L : Nat)
    (hin : (h.node target).in_edge = some e) (hL : L ∈ (h.edge e).inputs)
    (hleaf : (h.node L).in_edge = none) (hunknown : (h.node L).mtime = -1)
    (hmissing : sys.stat w (h.node L).path = none) :
    (∀ fuel b h', recompute_dirty sys w fuel h target = some (b, h') →
      b = true ∧ (h'.node target).dirty = true) ∧
    (∀ rank, Ranked h rank → ∀ fuel, rank target < fuel →
      (recompute_dirty sys w fuel h target).isSome = true) ∧
    (Fresh h → Built h → (∀ k, target ∈ (h.edge k).outputs → k = e) → e ∈ s.edges →
      (∀ i ∈ (h.edge e).inputs, (h.node i).in_edge = none) →
      ∀ fuel, 2 ≤ fuel → s.edges.count e ≤ fuel →
      ∃ h1 r, recompute_dirty sys w fuel h target = some (true, h1) ∧
        (plan_edges h1 s.edges plan_create).2 = ⟨List.replicate (s.edges.count e) e, []⟩ ∧
        build sys fuel w h s target = some r ∧
        (∃ rest, r.log = (e, decide ((sys.system w (h.edge e).command).1 = 0)) :: rest) ∧
        (∀ x ∈ r.log, x.1 = e) ∧
        (r.ok = true ↔ ∀ x ∈ r.log, x.2 = true) ∧
        ((sys.system w (h.edge e).command).1 ≠ 0 → r.ok = false) ∧
        r.log.length ≤ s.edges.count e ∧
        (s.edges.count e = 1 → r.log = [(e, r.ok)] ∧
          (r.ok = true ↔ (sys.system w (h.edge e).command).1 = 0) ∧
          r.world = (sys.system w (h.edge e).command).2)) := by
  have hmiss : node_mtime sys w h L = 0 := by
    rw [node_mtime_eq, if_neg (by simp [hunknown])]
    simp [stat_mtime, hmissing]
  refine ⟨fun fuel b h' hrun => ?_, fun rank hrank fuel hfuel => ?_,
    fun hfresh hbuilt huniq hmem hleaves fuel hfuel hfuel2 => ?_⟩
  · obtain ⟨hb, _, _, hd⟩ := recompute_dirty_call sys w fuel h target b h' hrun
    exact ⟨hb, hd e L hin hL hleaf hmiss⟩
  · obtain ⟨h', hrun, _⟩ := recompute_dirty_post sys w rank fuel h target (fun _ => False) hrank
      (good_empty h) hfuel
    rw [hrun]
    rfl
  · obtain ⟨f, rfl⟩ : ∃ f, fuel = f + 2 := ⟨fuel - 2, by omega⟩
    obtain ⟨h1, hs, hd, hsame, hiff⟩ :=
      scan_leaves sys w h target e L f hin hL hmiss hfresh hbuilt huniq hleaves
    have hplan : (plan_edges h1 s.edges plan_create).2 =
        ⟨List.replicate (s.edges.count e) e, []⟩ := by
      rw [plan_edges_only e s.edges h1 plan_create hiff (fun i hi => by
        rw [hsame.inputs] at hi
        rw [hsame.in_edge]
        exact hleaves i hi)]
      simp [plan_create]
    have hpp := plan_edges_post s.edges h1 plan_create
    have hcmd : ((plan_edges h1 s.edges plan_create).1.edge e).command = (h.edge e).command := by
      rw [hpp.same.command, hsame.command]
    obtain ⟨out, hrun, hpend, hall, hokiff, hlen, _, _, hhead, hworld⟩ :=
      execute_loop_replicate sys e (s.edges.count e) (f + 2) w
        (plan_edges h1 s.edges plan_create).1 hfuel2
    rw [← hplan] at hrun
    have hb := build_of_dirty sys w (f + 2) h h1 s target out hs hd hrun
    have hpos : 0 < s.edges.count e := List.count_pos_iff.2 hmem
    obtain ⟨rest, hrest⟩ := hhead hpos
    rw [hcmd] at hrest hworld
    have hok : (out.ok && decide (out.plan.pending = [])) = out.ok := by simp [hpend]
    rw [hok] at hb
    refine ⟨h1, _, hs, hplan, hb, ⟨rest, hrest⟩, hall, hokiff, ?_, hlen, ?_⟩
    · intro hret
      show out.ok = false
      cases ho : out.ok with
      | false => rfl
      | true =>
        have := hokiff.1 ho (e, decide ((sys.system w (h.edge e).command).1 = 0))
          (by rw [hrest]; simp)
        simp [hret] at this
    · intro hone
      have hnil : rest = [] := by
        have hl : out.log.length ≤ 1 := by rw [← hone]; exact hlen
        rw [hrest] at hl
        simp only [List.length_cons] at hl
        exact List.eq_nil_of_length_eq_zero (by omega)
      rw [hnil] at hrest
      have hflag : out.ok = decide ((sys.system w (h.edge e).command).1 = 0) := by
        rw [Bool.eq_iff_iff, hokiff, hrest]
        simp
      refine ⟨?_, ?_, hworld hone⟩
      · show out.log = [(e, out.ok)]
        rw [hrest, hflag]
      · show out.ok = true ↔ _
        rw [hflag]
        simp

set_option maxRecDepth 100000 in
/-- The build of the small graph in a world without files returns true and
executes the command once. -/
theorem cc_build_missing :
    (build files_sys 2 [] cc_heap cc_state 0).map (fun r => (r.ok, r.log)) =
      some (true, [(0, true)]) := by
  decide

/-- Node `out.o` of the small graph is in the outputs of edge 0 only. -/
theorem cc_output_zero : ∀ k, 0 ∈ (cc_heap.edge k).outputs → k = 0 := by
  intro k hk
  match k with
  | 0 => rfl
  | k + 1 => simp [cc_heap] at hk

/-- C6, amended, at the small graph in a world without files: `in.c` is a
missing leaf, the edge is once in the edge list, and `build` executes the
command once and returns its result, true. -/
theorem C6_witness :
    (cc_heap.node 0).in_edge = some 0 ∧ 1 ∈ (cc_heap.edge 0).inputs ∧
    (cc_heap.node 1).in_edge = none ∧ (cc_heap.node 1).mtime = -1 ∧
    files_sys.stat [] (cc_heap.node 1).path = none ∧
    Fresh cc_heap ∧ Built cc_heap ∧ (∀ k, 0 ∈ (cc_heap.edge k).outputs → k = 0) ∧
    0 ∈ cc_state.edges ∧ cc_state.edges.count 0 = 1 ∧
    (∀ i ∈ (cc_heap.edge 0).inputs, (cc_heap.node i).in_edge = none) ∧
    (build files_sys 2 [] cc_heap cc_state 0).map (fun r => (r.ok, r.log)) =
      some (true, [(0, true)]) ∧
    ∃ h1 r, recompute_dirty files_sys [] 2 cc_heap 0 = some (true, h1) ∧
      (plan_edges h1 cc_state.edges plan_create).2 =
        ⟨List.replicate (cc_state.edges.count 0) 0, []⟩ ∧
      build files_sys 2 [] cc_heap cc_state 0 = some r ∧
      (∃ rest, r.log =
        (0, decide ((files_sys.system [] (cc_heap.edge 0).command).1 = 0)) :: rest) ∧
      (∀ x ∈ r.log, x.1 = 0) ∧
      (r.ok = true ↔ ∀ x ∈ r.log, x.2 = true) ∧
      ((files_sys.system [] (cc_heap.edge 0).command).1 ≠ 0 → r.ok = false) ∧
      r.log.length ≤ cc_state.edges.count 0 ∧
      (cc_state.edges.count 0 = 1 → r.log = [(0, r.ok)] ∧
        (r.ok = true ↔ (files_sys.system [] (cc_heap.edge 0).command).1 = 0) ∧
        r.world = (files_sys.system [] (cc_heap.edge 0).command).2) :=
  ⟨rfl, by decide, rfl, rfl, rfl, cc_fresh, cc_built, cc_output_zero, by decide, by decide,
    by decide, cc_build_missing,
    (C6_missing_source files_sys [] cc_heap cc_state 0 0 1 rfl (by decide) rfl rfl rfl).2.2
      cc_fresh cc_built cc_output_zero (by decide) (by decide) 2 (by decide) (by decide)⟩

/-! ## Dependency paths through the edges -/

/-- When every output has its edge as producing edge, in a graph built with the
graph functions, a node depends on `i` exactly when some edge reads `i` and
writes the node. -/
theorem dep_iff_flows {h : Heap} (hb : Built h) (ho : OneProducer h) (n i : Nat) :
    dep h n i ↔ flows h i n := by
  constructor
  · rintro ⟨e, he, hi⟩
    exact ⟨e, hi, hb.1 n e he⟩
  · rintro ⟨e, hi, hn⟩
    exact ⟨e, ho e n hn, hi⟩

theorem reach_iff_flows {h : Heap} (hb : Built h) (ho : OneProducer h) (a b : Nat) :
    Relation.ReflTransGen (dep h) a b ↔ Relation.ReflTransGen (flows h) b a := by
  constructor
  · intro hr
    have hsw : Relation.ReflTransGen (Function.swap (dep h)) b a :=
      Relation.reflTransGen_swap.2 hr
    exact hsw.mono (fun x y hxy => (dep_iff_flows hb ho y x).1 hxy)
  · intro hr
    apply Relation.reflTransGen_swap.1
    exact hr.mono (fun x y hxy => (dep_iff_flows hb ho y x).2 hxy)

/-- When every output has its edge as producing edge, the edges on a dependency
path from `L` to the target are the edges with an output that is reachable from
the target and depends on `L`. -/
theorem onPath_iff_edgePath {h : Heap} (hb : Built h) (ho : OneProducer h)
    (target L e : Nat) : OnPath h target L e ↔ OnEdgePath h target L e := by
  constructor
  · rintro ⟨n, hn, hr, ht⟩
    obtain ⟨i, ⟨e', he', hi⟩, hiL⟩ := Relation.TransGen.head'_iff.1 ht
    have hee : e' = e := by
      rw [ho e n hn] at he'
      cases he'
      rfl
    subst hee
    exact ⟨i, n, hi, hn, (reach_iff_flows hb ho i L).1 hiL, (reach_iff_flows hb ho target n).1 hr⟩
  · rintro ⟨i, o, hi, hout, hLi, hot⟩
    exact ⟨o, hout, (reach_iff_flows hb ho target o).2 hot,
      Relation.TransGen.head' ⟨e, ho e o hout, hi⟩ ((reach_iff_flows hb ho i L).2 hLi)⟩

/-- In a graph built with the graph functions in which no node is in the
outputs of two edges, every output has its edge as producing edge. -/
theorem oneProducer_of_unique {h : Heap} (hb : Built h) (hu : UniqueOutput h) :
    OneProducer h := by
  intro e n hn
  cases hin : (h.node n).in_edge with
  | none => exact absurd hin (hb.2 e n hn)
  | some k => rw [hu n e k hn (hb.1 n k hin)]

/-- When every output has its edge as producing edge, no node is in the outputs
of two edges. -/
theorem unique_of_oneProducer {h : Heap} (ho : OneProducer h) : UniqueOutput h := by
  intro n e k hn hk
  have h1 := ho e n hn
  rw [ho k n hk] at h1
  cases h1
  rfl

/-! ## The graph of two edges with the same output -/

set_option maxRecDepth 100000 in
/-- The links of the graph of the two lines `x: a | c1` and `x: b | c2`. -/
theorem twin_links :
    twin_api.1.n_edges = 2 ∧ (twin_api.1.edge 0).inputs = [1] ∧
    (twin_api.1.edge 0).outputs = [0] ∧ (twin_api.1.edge 1).inputs = [2] ∧
    (twin_api.1.edge 1).outputs = [0] ∧ (twin_api.1.node 0).in_edge = some 1 ∧
    (twin_api.1.node 1).in_edge = none ∧ (twin_api.1.node 2).in_edge = none := by
  decide

set_option maxRecDepth 100000 in
/-- The run of `twin_calls` returns. -/
theorem twin_api_run : api_run twin_calls (heap_empty, state_create) = some twin_api := rfl

/-- The outputs of the edges of the graph of the two lines. -/
theorem twin_outputs (e n : Nat) (hn : n ∈ (twin_api.1.edge e).outputs) : n = 0 := by
  have inv : ApiInv twin_api.1 :=
    apiInv_run twin_calls (heap_empty, state_create) twin_api apiInv_empty twin_api_run
  match e with
  | 0 =>
    rw [twin_links.2.2.1] at hn
    simpa using hn
  | 1 =>
    rw [twin_links.2.2.2.2.1] at hn
    simpa using hn
  | e + 2 =>
    rw [(inv.unused (e + 2) (by rw [twin_links.1]; omega)).2] at hn
    cases hn

/-- Every edge of the graph of the two lines has one output. -/
theorem twin_single : SingleOutput twin_api.1 := by
  intro e n m hn hm
  rw [twin_outputs e n hn, twin_outputs e m hm]

set_option maxRecDepth 100000 in
/-- The last writers of the nodes in the calls of the two lines. -/
theorem twin_last_writer (n : Nat) :
    last_writer twin_calls n = if n = 0 then some 1 else none := by
  match n with
  | 0 => decide
  | n + 1 => simp [last_writer, twin_calls, writer_step]

/-- The graph of the two lines is acyclic. -/
theorem twin_ranked : Ranked twin_api.1 cc_rank := by
  rintro n i ⟨e, he, hi⟩
  have hlast := in_edge_run twin_calls (heap_empty, state_create) twin_api (fun _ _ => rfl)
    twin_api_run n
  rw [hlast] at he
  change last_writer twin_calls n = some e at he
  rw [twin_last_writer] at he
  by_cases hn : n = 0
  · subst hn
    simp only [if_true, Option.some.injEq] at he
    subst he
    rw [twin_links.2.2.2.1] at hi
    simp only [List.mem_singleton] at hi
    subst hi
    decide
  · rw [if_neg hn] at he
    cases he

/-- Edge `c1` is not on a dependency path from `b` to `x`: it reads `a` only,
and no edge writes `a`. -/
theorem twin_not_on_path : ¬ OnEdgePath twin_api.1 0 2 0 := by
  rintro ⟨i, o, hi, _, hLi, _⟩
  rw [twin_links.2.1] at hi
  simp only [List.mem_singleton] at hi
  subst hi
  rcases Relation.ReflTransGen.cases_tail hLi with hc | ⟨c, _, e, _, hout⟩
  · cases hc
  · have := twin_outputs e 1 hout
    cases this

set_option maxRecDepth 100000 in
/-- The scans and the build on the graph of the two lines: with `a`, `b` at 3
and `x` at 5 no node is dirty; with `b` raised to 9 both edges have a dirty
output and `build` executes `c2` and then `c1`. -/
theorem twin_runs :
    twin_api.1.n_nodes = 3 ∧ twin_api.2.edges = [0, 1] ∧
    files_sys.stat [("a", 3), ("b", 3), ("x", 5)] (twin_api.1.node 1).path = some 3 ∧
    files_sys.stat [("a", 3), ("b", 3), ("x", 5)] (twin_api.1.node 2).path = some 3 ∧
    (recompute_dirty files_sys [("a", 3), ("b", 3), ("x", 5)] 2 twin_api.1 0).map
      (fun r => (r.1, (r.2.node 0).dirty, (r.2.node 1).dirty, (r.2.node 2).dirty)) =
      some (true, false, false, false) ∧
    stat_mtime files_sys [("a", 3), ("b", 3), ("x", 5)] (twin_api.1.node 0).path <
      stat_mtime files_sys [("a", 3), ("b", 9), ("x", 5)] (twin_api.1.node 2).path ∧
    (recompute_dirty files_sys [("a", 3), ("b", 9), ("x", 5)] 2 twin_api.1 0).map
      (fun r => (r.1, edge_dirty r.2 0, edge_dirty r.2 1)) = some (true, true, true) ∧
    (build files_sys 2 [("a", 3), ("b", 9), ("x", 5)] twin_api.1 twin_api.2 0).map
      (fun r => (r.ok, r.log)) = some (true, [(1, true), (0, true)]) := by
  decide

set_option maxRecDepth 100000 in
/-- The build of the small graph with `in.c` newer than `out.o` when the edge
is not in the edge list: `build` returns true and executes nothing. -/
theorem cc_build_stale_unlisted :
    (recompute_dirty files_sys [("out.o", 5), ("in.c", 3)] 2 cc_heap 0).map
      (fun r => (r.1, (r.2.node 0).dirty, (r.2.node 1).dirty)) = some (true, false, false) ∧
    (recompute_dirty files_sys [("out.o", 5), ("in.c", 9)] 2 cc_heap 0).map
      (fun r => (r.1, edge_dirty r.2 0)) = some (true, true) ∧
    (build files_sys 2 [("out.o", 5), ("in.c", 9)] cc_heap cc_unlisted 0).map
      (fun r => (r.ok, r.log)) = some (true, []) := by
  decide

/-- The edge of the small graph is on a dependency path from `in.c` to
`out.o`. -/
theorem cc_on_path : OnEdgePath cc_heap 0 1 0 :=
  ⟨1, 0, by decide, by decide, Relation.ReflTransGen.refl, Relation.ReflTransGen.refl⟩

/-! ## A single stale leaf -/

/-- C7, the counterexample.  (1) The graph of the two lines `x: a | c1` and
`x: b | c2` is acyclic and every edge has one output; with `a` and `b` at
timestamp 3 and `x` at 5 every leaf exists and the scan of `x` marks no node
dirty.  Raising the leaf `b` to 9, above the timestamp of the only output `x`,
leaves the edge `c1` with a dirty output, and `build` executes `c1`, although
`c1` reads `a` only and is not on a dependency path from `b` to `x`.  (2) In
the graph of the line `out.o: in.c | cc -c in.c -o out.o` with the edge never
passed to `state_add_edge`, raising `in.c` above `out.o` leaves the edge with a
dirty output and on the dependency path, and `build` executes nothing. -/
theorem C7_counterexample :
    (Ranked twin_api.1 cc_rank ∧ SingleOutput twin_api.1 ∧ twin_api.1.n_nodes = 3 ∧
      twin_api.2.edges = [0, 1] ∧ (twin_api.1.node 2).in_edge = none ∧
      files_sys.stat [("a", 3), ("b", 3), ("x", 5)] (twin_api.1.node 1).path = some 3 ∧
      files_sys.stat [("a", 3), ("b", 3), ("x", 5)] (twin_api.1.node 2).path = some 3 ∧
      (recompute_dirty files_sys [("a", 3), ("b", 3), ("x", 5)] 2 twin_api.1 0).map
        (fun r => (r.1, (r.2.node 0).dirty, (r.2.node 1).dirty, (r.2.node 2).dirty)) =
        some (true, false, false, false) ∧
      stat_mtime files_sys [("a", 3), ("b", 3), ("x", 5)] (twin_api.1.node 0).path <
        stat_mtime files_sys [("a", 3), ("b", 9), ("x", 5)] (twin_api.1.node 2).path ∧
      (recompute_dirty files_sys [("a", 3), ("b", 9), ("x", 5)] 2 twin_api.1 0).map
        (fun r => (r.1, edge_dirty r.2 0, edge_dirty r.2 1)) = some (true, true, true) ∧
      (build files_sys 2 [("a", 3), ("b", 9), ("x", 5)] twin_api.1 twin_api.2 0).map
        (fun r => (r.ok, r.log)) = some (true, [(1, true), (0, true)]) ∧
      ¬ OnEdgePath twin_api.1 0 2 0) ∧
    ((recompute_dirty files_sys [("out.o", 5), ("in.c", 3)] 2 cc_heap 0).map
        (fun r => (r.1, (r.2.node 0).dirty, (r.2.node 1).dirty)) = some (true, false, false) ∧
      (recompute_dirty files_sys [("out.o", 5), ("in.c", 9)] 2 cc_heap 0).map
        (fun r => (r.1, edge_dirty r.2 0)) = some (true, true) ∧
      (build files_sys 2 [("out.o", 5), ("in.c", 9)] cc_heap cc_unlisted 0).map
        (fun r => (r.ok, r.log)) = some (true, []) ∧
      OnEdgePath cc_heap 0 1 0) :=
  ⟨⟨twin_ranked, twin_single, twin_runs.1, twin_runs.2.1, twin_links.2.2.2.2.2.2.2,
      twin_runs.2.2.1, twin_runs.2.2.2.1, twin_runs.2.2.2.2.1, twin_runs.2.2.2.2.2.1,
      twin_runs.2.2.2.2.2.2.1, twin_runs.2.2.2.2.2.2.2, twin_not_on_path⟩,
    cc_build_stale_unlisted.1, cc_build_stale_unlisted.2.1, cc_build_stale_unlisted.2.2,
    cc_on_path⟩

/-- C7, amended: take a fresh acyclic graph built with the graph functions in
which no node is in the outputs of two edges (so that every output has its edge
as producing edge) and every producing edge is in the edge list, and a
filesystem on
which `recompute_dirty(target)` marks no node dirty; raise the timestamp of one
leaf `L` above the timestamp of every node that has a producing edge, and
change no other timestamp.  Then `build` returns, after the scan the edges with
a dirty output are exactly the edges on a dependency path from `L` to the
target (`OnEdgePath`: the edge reads `L` or a node made from `L`, and writes the
target or a node from which the target is made), and in a run in which every
executed command succeeds `build` returns true and executes exactly those
edges, each once when the edge list holds each edge once.  Edges may have more
than one output here. -/
theorem C7_single_rebuild_on_stale_leaf (sys : Sys W) (w w' : W) (h : Heap) (s : state_t)
    (rank : Nat → Nat) (target L fuel : Nat) (hrank : Ranked h rank) (hfresh : Fresh h)
    (hbuilt : Built h) (hunique : UniqueOutput h)
    (hlisted : ∀ n e, (h.node n).in_edge = some e → e ∈ s.edges)
    (hfuel : rank target < fuel) (hfuel2 : s.edges.length ≤ fuel)
    (hleaf : (h.node L).in_edge = none)
    (hold : ∃ h0, recompute_dirty sys w fuel h target = some (true, h0) ∧
      ∀ n, (h0.node n).dirty = false)
    (hsame : ∀ n, n ≠ L →
      stat_mtime sys w' (h.node n).path = stat_mtime sys w (h.node n).path)
    (hraise : ∀ n, (h.node n).in_edge ≠ none →
      stat_mtime sys w (h.node n).path < stat_mtime sys w' (h.node L).path) :
    ∃ h1 r, recompute_dirty sys w' fuel h target = some (true, h1) ∧
      build sys fuel w' h s target = some r ∧
      (∀ e, edge_dirty h1 e = true ↔ OnEdgePath h target L e) ∧
      ((∀ x ∈ r.log, x.2 = true) →
        r.ok = true ∧ (∀ e, e ∈ r.log.map Prod.fst ↔ OnEdgePath h target L e) ∧
        (s.edges.Nodup → (r.log.map Prod.fst).Nodup)) := by
  have hone : OneProducer h := oneProducer_of_unique hbuilt hunique
  obtain ⟨h0, hrun0, hclean0⟩ := hold
  obtain ⟨h0', hrun0', s0, g0, m0, _, _⟩ :=
    scan_fresh sys w h rank hrank hfresh target fuel hfuel
  have e0 : h0' = h0 := by
    rw [hrun0] at hrun0'
    simp only [Option.some.injEq, Prod.mk.injEq, true_and] at hrun0'
    exact hrun0'.symm
  subst e0
  obtain ⟨h1, r, hrun1, hbuild, hlog⟩ :=
    build_runs_dirty_of_mem sys w' h s rank target fuel hrank hfresh hbuilt hlisted hfuel
      hfuel2
  obtain ⟨h1', hrun1', s1, g1, m1, hunreached, _⟩ :=
    scan_fresh sys w' h rank hrank hfresh target fuel hfuel
  have e1 : h1' = h1 := by
    rw [hrun1] at hrun1'
    simp only [Option.some.injEq, Prod.mk.injEq, true_and] at hrun1'
    exact hrun1'.symm
  subst e1
  have hiff := touched_dirty_iff h h0' h1' rank target L
    (fun n => stat_mtime sys w (h.node n).path) (fun n => stat_mtime sys w' (h.node n).path)
    hrank hleaf s0 s1 g0 g1 m0 m1 (fun n _ => hclean0 n) hsame hraise
  have hedge0 : ∀ e, edge_dirty h1' e = true ↔ OnPath h target L e := by
    intro e
    constructor
    · intro hd
      obtain ⟨o, ho, hdo⟩ := edge_dirty_iff.1 hd
      rw [s1.outputs] at ho
      have hro : Reach h target o := by
        by_contra hn
        rw [hunreached o hn] at hdo
        cases hdo
      exact ⟨o, ho, hro, (hiff (rank o + 1) o (Nat.lt_succ_self _) hro
        (by rw [hone e o ho]; simp)).1 hdo⟩
    · rintro ⟨n, hn, hr, ht⟩
      exact edge_dirty_iff.2 ⟨n, by rw [s1.outputs]; exact hn,
        (hiff (rank n + 1) n (Nat.lt_succ_self _) hr (by rw [hone e n hn]; simp)).2 ht⟩
  have hedge : ∀ e, edge_dirty h1' e = true ↔ OnEdgePath h target L e := fun e =>
    (hedge0 e).trans (onPath_iff_edgePath hbuilt hone target L e)
  refine ⟨h1', r, hrun1, hbuild, hedge, fun hall => ?_⟩
  obtain ⟨hok, hperm⟩ := hlog hall
  refine ⟨hok, fun e => ?_, fun hnd => hperm.nodup_iff.2 (hnd.filter _)⟩
  rw [hperm.mem_iff, List.mem_filter]
  constructor
  · rintro ⟨_, hd⟩
    exact (hedge e).1 hd
  · intro hp
    have hd := (hedge e).2 hp
    obtain ⟨_, o, _, ho, _, _⟩ := hp
    exact ⟨hlisted o e (hone e o ho), hd⟩

set_option maxRecDepth 100000 in
/-- The build of the small graph with `in.c` raised above `out.o`: the command
runs once and `build` returns true. -/
theorem cc_build_stale :
    (build files_sys 2 [("out.o", 5), ("in.c", 9)] cc_heap cc_state 0).map
      (fun r => (r.ok, r.log)) = some (true, [(0, true)]) := by
  decide

/-- C7, amended, at the small graph: `out.o` has timestamp 5, and `in.c` is
raised from 3 to 9. -/
theorem C7_witness :
    Ranked cc_heap cc_rank ∧ Fresh cc_heap ∧ Built cc_heap ∧ UniqueOutput cc_heap ∧
    (∀ n e, (cc_heap.node n).in_edge = some e → e ∈ cc_state.edges) ∧
    cc_rank 0 < 2 ∧ cc_state.edges.length ≤ 2 ∧
    (cc_heap.node 1).in_edge = none ∧
    (∃ h0, recompute_dirty files_sys [("out.o", 5), ("in.c", 3)] 2 cc_heap 0 = some (true, h0) ∧
      ∀ n, (h0.node n).dirty = false) ∧
    (∀ n, n ≠ 1 →
      stat_mtime files_sys [("out.o", 5), ("in.c", 9)] (cc_heap.node n).path =
        stat_mtime files_sys [("out.o", 5), ("in.c", 3)] (cc_heap.node n).path) ∧
    (∀ n, (cc_heap.node n).in_edge ≠ none →
      stat_mtime files_sys [("out.o", 5), ("in.c", 3)] (cc_heap.node n).path <
        stat_mtime files_sys [("out.o", 5), ("in.c", 9)] (cc_heap.node 1).path) ∧
    (build files_sys 2 [("out.o", 5), ("in.c", 9)] cc_heap cc_state 0).map
      (fun r => (r.ok, r.log)) = some (true, [(0, true)]) ∧
    OnEdgePath cc_heap 0 1 0 ∧ cc_state.edges.Nodup ∧
    ∃ h1 r, recompute_dirty files_sys [("out.o", 5), ("in.c", 9)] 2 cc_heap 0 = some (true, h1) ∧
      build files_sys 2 [("out.o", 5), ("in.c", 9)] cc_heap cc_state 0 = some r ∧
      (∀ e, edge_dirty h1 e = true ↔ OnEdgePath cc_heap 0 1 e) ∧
      ((∀ x ∈ r.log, x.2 = true) →
        r.ok = true ∧ (∀ e, e ∈ r.log.map Prod.fst ↔ OnEdgePath cc_heap 0 1 e) ∧
        (cc_state.edges.Nodup → (r.log.map Prod.fst).Nodup)) :=
  have hold : ∃ h0, recompute_dirty files_sys [("out.o", 5), ("in.c", 3)] 2 cc_heap 0 =
      some (true, h0) ∧ ∀ n, (h0.node n).dirty = false :=
    scan_all_clean files_sys [("out.o", 5), ("in.c", 3)] cc_heap 0 cc_rank cc_ranked cc_fresh
      (by
        intro n hn _
        rcases cc_reach hn with rfl | rfl <;> decide)
      (by
        intro n hn _
        rcases cc_reach hn with rfl | rfl
        · decide
        · contradiction)
      (by
        intro n i _ d
        obtain ⟨rfl, rfl⟩ := cc_dep d
        decide)
      2 (by decide)
  have hsame : ∀ n, n ≠ 1 →
      stat_mtime files_sys [("out.o", 5), ("in.c", 9)] (cc_heap.node n).path =
        stat_mtime files_sys [("out.o", 5), ("in.c", 3)] (cc_heap.node n).path := by
    intro n hn
    match n with
    | 0 => decide
    | 1 => exact absurd rfl hn
    | n + 2 => rfl
  have hraise : ∀ n, (cc_heap.node n).in_edge ≠ none →
      stat_mtime files_sys [("out.o", 5), ("in.c", 3)] (cc_heap.node n).path <
        stat_mtime files_sys [("out.o", 5), ("in.c", 9)] (cc_heap.node 1).path := by
    intro n hn
    match n with
    | 0 => decide
    | 1 => exact absurd rfl hn
    | n + 2 => exact absurd rfl hn
  ⟨cc_ranked, cc_fresh, cc_built, unique_of_oneProducer cc_one, cc_listed.2, by decide,
    by decide, rfl, hold, hsame, hraise, cc_build_stale, cc_on_path, cc_listed.1,
    C7_single_rebuild_on_stale_leaf files_sys [("out.o", 5), ("in.c", 3)]
      [("out.o", 5), ("in.c", 9)] cc_heap cc_state cc_rank 0 1 2 cc_ranked cc_fresh cc_built
      (unique_of_oneProducer cc_one) cc_listed.2 (by decide) (by decide) rfl hold hsame hraise⟩

end Mininja
